import Mathlib

/-!
Verification of the raster-to-vector geometry pipeline of the `2svg`
repository (`src/utils/processing.ts`, `src/utils/generators.ts`).

The TypeScript sources are shallowly embedded:
* JS `number` values that carry exact pipeline arithmetic are modelled by `ℚ`;
  the only irrational operations (`Math.sqrt` inside distance computations,
  `Math.pow(x, 1.5)` in one epsilon formula) are modelled either by comparing
  squared quantities (strictly monotone, hence order-faithful) or by a value
  in `ℝ`.
* grids (`MaskGrid = boolean[][]`, label `Int32Array`s) are modelled by
  `List (List Bool)` / `List (List Int)` with the same row-major indexing;
  in-place mutation becomes functional update.
* `while` loops whose termination rests on a data invariant are run on an
  explicit fuel that dominates the loop's iteration count (`w*h` for the
  BFS loops, the explicit safety counter for the Moore traces, the distance
  value for the bridge descent); the fuel mirrors the source's own bound.

`processing.ts` in this repository is a concatenation of three successive
revisions of the file.  Each embedded function notes which revision it is
taken from (by the line numbers of the concatenated file).
-/

namespace TwoSvg

/-- A 2-D point (`number[]` of length 2 in the source), exact rationals. -/
abbrev Point := ℚ × ℚ

/-- Document width constant `A3_WIDTH = 842` (src/constants). -/
def A3_WIDTH : ℚ := 842

/-- Document height constant `A3_HEIGHT = 1191` (src/constants). -/
def A3_HEIGHT : ℚ := 1191

/-- Squared euclidean distance.  The source's `dist` is
`Math.sqrt` of this; every use of `dist` in the embedded code is a
comparison or a zero test, both of which are reflected faithfully on the
squares because `Real.sqrt` is strictly monotone on nonnegatives. -/
def distSq (a b : Point) : ℚ :=
  (a.1 - b.1) * (a.1 - b.1) + (a.2 - b.2) * (a.2 - b.2)

/-- `sqrt d > e` decided on the square: true iff `e < 0` or `e*e < d`
(for `d ≥ 0`, which every `distSq` is). -/
def sqrtGt (dSq e : ℚ) : Bool :=
  decide (e < 0) || decide (e * e < dSq)

/-- `perpendicularDistance` (processing.ts lines 17-24), squared.
Perpendicular distance from `p` to the segment `v`-`w`: project, clamp the
parameter to `[0,1]`, measure to the projection.  All arithmetic is exact
in `ℚ`; the final `Math.sqrt` is dropped (see `sqrtGt`). -/
def perpDistSq (p v w : Point) : ℚ :=
  let l2 := distSq v w
  if l2 = 0 then distSq p v
  else
    let t := ((p.1 - v.1) * (w.1 - v.1) + (p.2 - v.2) * (w.2 - v.2)) / l2
    let t := max 0 (min 1 t)
    let proj : Point := (v.1 + t * (w.1 - v.1), v.2 + t * (w.2 - v.2))
    distSq p proj

/-- The inner scan of one RDP segment (lines 712-718 of the iterative
`simplifyPolyline`, processing.ts revision 3): the point of maximum
perpendicular distance from the chord `points[s]`-`points[e]`, scanning
`i = s+1 … e-1`; returns `(dmax², index)`, starting from `(0, 0)` exactly
as the source initialises `dmax = 0, index = 0`. -/
def rdpScan (points : List Point) (s e : ℕ) : ℚ × ℕ :=
  (List.range (e - (s + 1))).foldl
    (fun acc k =>
      let i := s + 1 + k
      let d := perpDistSq (points.getD i (0, 0)) (points.getD s (0, 0)) (points.getD e (0, 0))
      if acc.1 < d then (d, i) else acc)
    (0, 0)

/-- The explicit-stack loop of the iterative `simplifyPolyline`
(processing.ts lines 703-725, revision 3).  The JS `while (stack.length)`
loop is run on fuel; `2 * points.length` dominates the number of pops for
every `ε ≥ 0` (each split adds a fresh interior index), and the theorems
below hold for any fuel. -/
def rdpLoop (points : List Point) (epsilon : ℚ) :
    ℕ → List (ℕ × ℕ) → List ℕ → List ℕ
  | 0, _, keep => keep
  | _ + 1, [], keep => keep
  | fuel + 1, (s, e) :: stack, keep =>
    let m := rdpScan points s e
    if sqrtGt m.1 epsilon then
      rdpLoop points epsilon fuel ((m.2, e) :: (s, m.2) :: stack)
        (if m.2 ∈ keep then keep else m.2 :: keep)
    else
      rdpLoop points epsilon fuel stack keep

/-- `simplifyPolyline` (processing.ts lines 695-730, revision 3: the
iterative Ramer-Douglas-Peucker).  Keeps indices `0` and `length-1`, splits
segments at the farthest point while its distance exceeds `ε`, then
reconstructs the polyline from the kept indices in increasing order
(`Array.from(set).sort((a,b)=>a-b).map(i => points[i])`). -/
def simplifyPolyline (points : List Point) (epsilon : ℚ) : List Point :=
  if points.length < 3 then points
  else
    let keep := rdpLoop points epsilon (2 * points.length)
      [(0, points.length - 1)] [0, points.length - 1]
    (keep.insertionSort (· ≤ ·)).map (fun i => points.getD i (0, 0))

/-! ### JS `Number.prototype.toFixed`, modelled on `ℚ` -/

/-- Decimal digit accumulator: prepend the low digit of `n`, recurse on
`n / 10`; the fuel (always passed as `n + 1`) dominates the digit count. -/
def natDigitsAux : ℕ → ℕ → List Char → List Char
  | 0, _, acc => acc
  | fuel + 1, n, acc =>
    let acc := Char.ofNat (48 + n % 10) :: acc
    if n < 10 then acc else natDigitsAux fuel (n / 10) acc

/-- Decimal digits of `n`, most significant first. -/
def natDigits (n : ℕ) : List Char := natDigitsAux (n + 1) n []

/-- Left-pad a digit string with `'0'` to width `k`. -/
def padZeros (k : ℕ) (s : List Char) : List Char :=
  List.replicate (k - s.length) '0' ++ s

/-- `q.toFixed(k)` for `q ≥ 0`: the integer `n` nearest `q·10^k` (ties
upward, per ECMA-262 ToFixed), rendered as `int.part` `.` `k` digits. -/
def ratFixedPos (k : ℕ) (q : ℚ) : String :=
  let n := (⌊q * (10 ^ k : ℚ) + 1 / 2⌋).toNat
  String.mk (natDigits (n / 10 ^ k)) ++ "." ++ String.mk (padZeros k (natDigits (n % 10 ^ k)))

/-- `q.toFixed(k)`: sign first, then `ratFixedPos` of the magnitude. -/
def ratFixed (k : ℕ) (q : ℚ) : String :=
  if q < 0 then "-" ++ ratFixedPos k (-q) else ratFixedPos k q

/-! ### Chaikin smoothing and path construction (processing.ts revision 3) -/

/-- One Chaikin corner-cutting pass (body of the `it` loop of
`smoothContour`, processing.ts lines 737-753): each edge `p0→p1` of the
closed polygon is replaced by its 1/4 and 3/4 points. -/
def chaikinStep (pts : List Point) : List Point :=
  (List.range pts.length).flatMap (fun i =>
    let p0 := pts.getD i (0, 0)
    let p1 := pts.getD ((i + 1) % pts.length) (0, 0)
    [(3/4 * p0.1 + 1/4 * p1.1, 3/4 * p0.2 + 1/4 * p1.2),
     (1/4 * p0.1 + 3/4 * p1.1, 1/4 * p0.2 + 3/4 * p1.2)])

/-- `smoothContour` (processing.ts lines 733-756): `iterations` Chaikin
passes; inputs with fewer than 3 points (or 0 iterations) are returned
unchanged. -/
def smoothContour (points : List Point) (iterations : ℕ) : List Point :=
  if points.length < 3 ∨ iterations = 0 then points
  else chaikinStep^[iterations] points

/-- `getControlPoint` (processing.ts lines 759-786, revision 3): control
point for a knot from the prev→next chord scaled by a tension derived from
the smoothing value.  (`d === 0` in the source is `dist(n,p) = 0`, i.e.
squared distance zero.) -/
def getControlPoint (current previous next : Point) (reverse : Bool)
    (smoothing : ℚ) : Point :=
  let v : Point := (next.1 - previous.1, next.2 - previous.2)
  if distSq next previous = 0 then current
  else
    let tension := smoothing / 5 * (1/5)
    let s : Point := (v.1 * tension, v.2 * tension)
    if reverse then (current.1 - s.1, current.2 - s.2)
    else (current.1 + s.1, current.2 + s.2)

/-- `x.toFixed(2)` used by the path builder. -/
def fx2 (q : ℚ) : String := ratFixed 2 q

/-- The index-filter `processed.filter((_, i) => i % step === 0)` applied
when the simplified polyline still exceeds `maxPoints`
(processing.ts lines 796-799). -/
def capPoints (pts : List Point) (maxPoints : ℕ) : List Point :=
  if maxPoints < pts.length then
    let step := (pts.length + maxPoints - 1) / maxPoints
    ((List.range pts.length).filter (fun i => i % step = 0)).map
      (fun i => pts.getD i (0, 0))
  else pts

/-- The straight-segment body of `buildBezierPath` at `smoothing = 0`
(processing.ts lines 806-812): `L x y` for each remaining point. -/
def lineSegs (pts : List Point) : String :=
  pts.foldl (fun d p => d ++ " L " ++ fx2 p.1 ++ " " ++ fx2 p.2) ""

/-- The cubic body of `buildBezierPath` at `smoothing > 0`
(processing.ts lines 814-825): one ` C cp1, cp2, p1` command per edge of
the closed polygon. -/
def curveSegs (pts : List Point) (smoothing : ℚ) : String :=
  (List.range pts.length).foldl
    (fun d i =>
      let L := pts.length
      let p0 := pts.getD i (0, 0)
      let p1 := pts.getD ((i + 1) % L) (0, 0)
      let pm := pts.getD ((i + (L - 1)) % L) (0, 0)
      let p2 := pts.getD ((i + 2) % L) (0, 0)
      let cp1 := getControlPoint p0 pm p1 false smoothing
      let cp2 := getControlPoint p1 p0 p2 true smoothing
      d ++ " C " ++ fx2 cp1.1 ++ " " ++ fx2 cp1.2 ++ ", " ++ fx2 cp2.1 ++ " "
        ++ fx2 cp2.2 ++ ", " ++ fx2 p1.1 ++ " " ++ fx2 p1.2)
    ""

/-- `buildBezierPath` (processing.ts lines 789-829, revision 3).  Simplify
with `ε = 0.4` at smoothing 0 (else `0.5 + smoothing·0.1`), cap the point
count, then emit either straight `L` segments (smoothing 0) or cubic `C`
segments, closed with `Z`.  Degenerate inputs yield `""`. -/
def buildBezierPath (points : List Point) (maxPoints : ℕ) (vectorSmoothing : ℚ) :
    String :=
  if points.length < 3 then ""
  else
    let epsilon := if vectorSmoothing = 0 then 0.4 else 0.5 + vectorSmoothing * 0.1
    let processed := capPoints (simplifyPolyline points epsilon) maxPoints
    if processed.length < 3 then ""
    else
      let p0 := processed.getD 0 (0, 0)
      let d := "M " ++ fx2 p0.1 ++ " " ++ fx2 p0.2
      if vectorSmoothing = 0 then d ++ lineSegs (processed.drop 1) ++ " Z"
      else d ++ curveSegs processed vectorSmoothing ++ " Z"

/-! ### The grid model -/

/-- `MaskGrid = boolean[][]`, row-major (`mask[y][x]`). -/
abbrev MaskGrid := List (List Bool)

/-- An integer field of the same shape (the `Int32Array` label and distance
grids, here kept row-major like the mask). -/
abbrev IntGrid := List (List ℤ)

/-- `mask[y][x]` (out-of-range reads are `undefined`, which is falsy at
every use site in the source). -/
def mget (m : MaskGrid) (y x : ℕ) : Bool := (m.getD y []).getD x false

/-- `mask[y][x] = v`. -/
def mset (m : MaskGrid) (y x : ℕ) (v : Bool) : MaskGrid :=
  m.set y ((m.getD y []).set x v)

/-- `labels[y][x]` (integer grids). -/
def lget (g : IntGrid) (y x : ℕ) : ℤ := (g.getD y []).getD x 0

/-- `labels[y][x] = v`. -/
def lset (g : IntGrid) (y x : ℕ) (v : ℤ) : IntGrid :=
  g.set y ((g.getD y []).set x v)

/-- An all-`v` `h × w` boolean grid (`Array.from({length: h}, () => Array(w).fill(v))`). -/
def fillGrid (w h : ℕ) (v : Bool) : MaskGrid :=
  List.replicate h (List.replicate w v)

/-- An all-`v` `h × w` integer grid. -/
def fillIntGrid (w h : ℕ) (v : ℤ) : IntGrid :=
  List.replicate h (List.replicate w v)

/-- The Moore neighbourhood in the source's order
(`[[1,0],[1,1],[0,1],[-1,1],[-1,0],[-1,-1],[0,-1],[1,-1]]`). -/
def dirs8 : List (ℤ × ℤ) :=
  [(1,0),(1,1),(0,1),(-1,1),(-1,0),(-1,-1),(0,-1),(1,-1)]

/-- The 4-neighbourhood in the source's order (`[[1,0],[-1,0],[0,1],[0,-1]]`). -/
def dirs4 : List (ℤ × ℤ) := [(1,0),(-1,0),(0,1),(0,-1)]

/-- All grid cells `(x, y)` in row-major scan order. -/
def cellsRowMajor (w h : ℕ) : List (ℕ × ℕ) :=
  (List.range h).flatMap (fun y => (List.range w).map (fun x => (x, y)))

/-! ### Moore-neighbour boundary tracing -/

/-- The neighbour search of one trace iteration (processing.ts lines
177-185 / 854-870): scan the 8 directions starting one step back from the
incoming direction, return the first in-bounds cell satisfying `ok`
together with the direction taken. -/
def findNext (ok : ℕ → ℕ → Bool) (w h cx cy dir : ℕ) : Option (ℕ × ℕ × ℕ) :=
  (List.range 8).findSome? (fun i =>
    let nd := (dir + 7 + i) % 8
    let d := dirs8.getD nd (0, 0)
    let nx := (cx : ℤ) + d.1
    let ny := (cy : ℤ) + d.2
    if 0 ≤ nx ∧ 0 ≤ ny ∧ nx < (w : ℤ) ∧ ny < (h : ℤ) ∧ ok nx.toNat ny.toNat then
      some (nx.toNat, ny.toNat, nd)
    else none)

/-- The `do … while` trace loop shared by `extractContour`
(processing.ts lines 174-188, revision 1) and `traceContourFromLabel`
(lines 850-873, revision 3), recursing on the source's own safety
counter: push the current cell, find the next boundary neighbour, stop on
no neighbour, on `--safety <= 0`, or on returning to the start with more
than one point collected. -/
def traceLoop (ok : ℕ → ℕ → Bool) (w h startX startY : ℕ) :
    ℕ → ℕ → ℕ → ℕ → List (ℕ × ℕ) → List (ℕ × ℕ)
  | 0, cx, cy, _, acc => acc ++ [(cx, cy)]
  | 1, cx, cy, _, acc => acc ++ [(cx, cy)]
  | s + 2, cx, cy, dir, acc =>
    let acc := acc ++ [(cx, cy)]
    match findNext ok w h cx cy dir with
    | none => acc
    | some (nx, ny, nd) =>
      if nx = startX ∧ ny = startY ∧ 1 < acc.length then acc
      else traceLoop ok w h startX startY (s + 1) nx ny nd acc

/-- Scale a traced cell to document space:
`((x+0.5)·docW/w, (y+0.5)·docH/h)` (processing.ts lines 190-192 / 876-878). -/
def scaleCell (w h : ℕ) (c : ℕ × ℕ) : Point :=
  (((c.1 : ℚ) + 1/2) * (A3_WIDTH / (w : ℚ)), ((c.2 : ℚ) + 1/2) * (A3_HEIGHT / (h : ℚ)))

/-- `extractContour` (processing.ts lines 160-193, revision 1): find the
first foreground cell in row-major order, Moore-trace from it with safety
counter `w*h*10`, scale to document units. -/
def extractContour (m : MaskGrid) (w h : ℕ) : List Point :=
  match (cellsRowMajor w h).find? (fun c => mget m c.2 c.1) with
  | none => []
  | some s =>
    (traceLoop (fun x y => mget m y x) w h s.1 s.2 (w * h * 10) s.1 s.2 0 []).map
      (scaleCell w h)

/-- `traceContourFromLabel` (processing.ts lines 832-879, revision 3): the
same Moore trace over a label field, matching cells with
`labels[y][x] === targetLabel`, safety counter `w*h*4`. -/
def traceContourFromLabel (labels : IntGrid) (w h : ℕ) (targetLabel : ℤ)
    (startX startY : ℕ) : List Point :=
  (traceLoop (fun x y => decide (lget labels y x = targetLabel)) w h startX startY
    (w * h * 4) startX startY 0 []).map (scaleCell w h)

/-! ### Connected-component labelling (`extractAllContours`, revision 3) -/

/-- The component-labelling BFS inner loop (processing.ts lines 905-917):
pop the queue head, enqueue every in-bounds unvisited foreground
4-neighbour, labelling it.  Fuel `w*h` dominates the pop count (each
enqueued cell is freshly visited). -/
def labelBfs (m : MaskGrid) (w h : ℕ) (lab : ℤ) :
    ℕ → List (ℕ × ℕ) → MaskGrid → IntGrid → MaskGrid × IntGrid
  | 0, _, visited, labels => (visited, labels)
  | _ + 1, [], visited, labels => (visited, labels)
  | fuel + 1, (cx, cy) :: q, visited, labels =>
    let st := dirs4.foldl
      (fun (st : MaskGrid × IntGrid × List (ℕ × ℕ)) d =>
        let nx := (cx : ℤ) + d.1
        let ny := (cy : ℤ) + d.2
        if 0 ≤ nx ∧ 0 ≤ ny ∧ nx < (w : ℤ) ∧ ny < (h : ℤ) then
          let nxn := nx.toNat
          let nyn := ny.toNat
          if mget st.1 nyn nxn ∨ ¬ mget m nyn nxn then st
          else (mset st.1 nyn nxn true, lset st.2.1 nyn nxn lab, st.2.2 ++ [(nxn, nyn)])
        else st)
      (visited, labels, [])
    labelBfs m w h lab fuel (q ++ st.2.2) st.1 st.2.1

/-- The labelling scan of `extractAllContours` (processing.ts lines
893-919): row-major over all cells, starting a BFS with a fresh label at
each unvisited foreground cell and recording its seed as the trace start
point. -/
def labelComponents (m : MaskGrid) (w h : ℕ) :
    IntGrid × ℕ × List (ℕ × ℕ × ℕ) :=
  let st := (cellsRowMajor w h).foldl
    (fun (st : MaskGrid × IntGrid × ℕ × List (ℕ × ℕ × ℕ)) c =>
      if ¬ mget m c.2 c.1 ∨ mget st.1 c.2 c.1 then st
      else
        let lab := st.2.2.1 + 1
        let visited := mset st.1 c.2 c.1 true
        let labels := lset st.2.1 c.2 c.1 (lab : ℤ)
        let r := labelBfs m w h (lab : ℤ) (w * h) [c] visited labels
        (r.1, r.2, lab, st.2.2.2 ++ [(lab, c.1, c.2)]))
    (fillGrid w h false, fillIntGrid w h 0, 0, [])
  (st.2.1, st.2.2.1, st.2.2.2)

/-- `extractAllContours` (processing.ts lines 882-938, revision 3): label
the 4-connected foreground components, Moore-trace each from its recorded
seed, keep the traces with at least 3 points. -/
def extractAllContours (m : MaskGrid) (w h : ℕ) : List (List Point) :=
  let r := labelComponents m w h
  if r.2.1 = 0 then []
  else
    (List.range r.2.1).foldl
      (fun cs i =>
        let lab := i + 1
        match r.2.2.find? (fun s => s.1 = lab) with
        | none => cs
        | some s =>
          let contour := traceContourFromLabel r.1 w h (lab : ℤ) s.2.1 s.2.2
          if 3 ≤ contour.length then cs ++ [contour] else cs)
      []

/-! ### `smoothMask` (processing.ts lines 572-584, revision 2) -/

/-- The 9-cell neighbourhood count of the majority filter (lines 577-578),
in the source's `dy`-outer `dx`-inner order.  Only evaluated at interior
cells (`1 ≤ y < h-1`, `1 ≤ x < w-1`), where all nine indices are
in-bounds. -/
def smoothNbhd (m : MaskGrid) (x y : ℕ) : ℕ :=
  (([(-1,-1),(-1,0),(-1,1),(0,-1),(0,0),(0,1),(1,-1),(1,0),(1,1)] : List (ℤ × ℤ)).filter
    (fun d => mget m ((y : ℤ) + d.1).toNat ((x : ℤ) + d.2).toNat)).length

/-- One iteration of `smoothMask`: a fresh all-false `h × w` buffer whose
interior cells become `count ≥ 5`, then copied over the mask (the copy
makes every border cell `false`).  Matches the source for the pipeline's
exactly-`h×w` masks. -/
def smoothMaskStep (m : MaskGrid) (w h : ℕ) : MaskGrid :=
  (List.range h).map (fun y =>
    (List.range w).map (fun x =>
      if 1 ≤ y ∧ y + 1 < h ∧ 1 ≤ x ∧ x + 1 < w then decide (5 ≤ smoothNbhd m x y)
      else false))

/-- `smoothMask` (revision 2): `iterations` majority-filter passes. -/
def smoothMask (m : MaskGrid) (w h iterations : ℕ) : MaskGrid :=
  (fun g => smoothMaskStep g w h)^[iterations] m

/-! ### DXF export (src/utils/generators.ts) -/

/-- The settings record as consumed by the exporters (only the field the
DXF builder reads). -/
structure AppSettings where
  vectorSmoothing : ℚ

/-- `simplifyPoints` (generators.ts lines 5-14): decimate to at most
roughly `maxPoints` by keeping every `step`-th point,
`step = max 1 ⌊length/maxPoints⌋`. -/
def simplifyPoints (points : List Point) (maxPoints : ℕ) : List Point :=
  if points.length = 0 then []
  else if points.length ≤ maxPoints then points
  else
    let step := max 1 (points.length / maxPoints)
    (List.range ((points.length + step - 1) / step)).map
      (fun k => points.getD (k * step) (0, 0))

/-- The fixed group-code/value lines opening every POLYLINE entity
(generators.ts lines 102-112): layer `0`, colour `62 = 1` (red),
`66 = 1` (vertices follow), `70 = 1` (closed polyline). -/
def dxfPolylineHeader : List String :=
  ["0", "POLYLINE", "8", "0", "62", "1", "66", "1", "70", "1"]

/-- One VERTEX entity (generators.ts lines 115-129): `10` carries
`x.toFixed(3)`, `20` carries `(A3_HEIGHT - y).toFixed(3)` (the Y flip from
the pipeline's top-left origin to DXF's bottom-left), `30` is `0.0`. -/
def dxfVertexLines (p : Point) : List String :=
  ["0", "VERTEX", "8", "0",
   "10", ratFixed 3 p.1,
   "20", ratFixed 3 (A3_HEIGHT - p.2),
   "30", "0.0"]

/-- The full `POLYLINE … VERTEX* … SEQEND` block emitted for one serialized
contour (generators.ts lines 102-132). -/
def dxfPolylineLines (pts : List Point) : List String :=
  dxfPolylineHeader ++ pts.flatMap dxfVertexLines ++ ["0", "SEQEND"]

/-- The AC1009 header plus the ENTITIES section opener
(generators.ts lines 65-79). -/
def dxfHeaderLines : List String :=
  ["0", "SECTION", "2", "HEADER", "9", "$ACADVER", "1", "AC1009", "0", "ENDSEC",
   "0", "SECTION", "2", "ENTITIES"]

/-- The source emits each DXF group on its own LF-terminated line. -/
def dxfJoin (lines : List String) : String :=
  String.join (lines.map (fun l => l ++ "\n"))

/-- The per-contour point pipeline of the DXF exporter
(generators.ts lines 81-100): RDP at `ε = 0.5 + 0.2·smoothing` when
smoothing is positive, `⌈smoothing/2⌉ || 1` Chaikin passes, then decimate
to 8000 points. -/
def dxfContourPoints (contour : List Point) (vs : ℚ) : List Point :=
  let processed := if 0 < vs then simplifyPolyline contour (1/2 + vs * (1/5)) else contour
  let c : ℤ := ⌈vs / 2⌉
  let its : ℤ := if c = 0 then 1 else c
  let processed := if 0 < its then smoothContour processed its.toNat else processed
  simplifyPoints processed 8000

/-- `buildDxfFromMask` (generators.ts lines 54-141): trace all contours;
with none, return `''`; otherwise emit the AC1009 header and one
POLYLINE…SEQEND entity per contour that still has at least 2 points after
the point pipeline.  The effective smoothing is clamped to at least 0.5. -/
def buildDxfFromMask (m : MaskGrid) (settings : AppSettings) : String :=
  let internalH := m.length
  let internalW := (m.headD []).length
  let vs := max settings.vectorSmoothing (1/2)
  let contours := extractAllContours m internalW internalH
  if contours.length = 0 then ""
  else
    dxfJoin (dxfHeaderLines ++
      contours.flatMap (fun c =>
        let pts := dxfContourPoints c vs
        if pts.length < 2 then [] else dxfPolylineLines pts) ++
      ["0", "ENDSEC", "0", "EOF"])

/-- Walk a line list as DXF (group-code, value) pairs and collect the
values whose code equals `tag`. -/
def pairValues : List String → String → List String
  | code :: val :: rest, tag =>
    (if code = tag then [val] else []) ++ pairValues rest tag
  | _, _ => []

/-! ### `postProcessMask` (processing.ts lines 586-673, revision 2) -/

/-- The stencil settings record consumed by `postProcessMask`. -/
structure StencilSettings where
  stencilMode : Bool
  bridgeWidth : ℤ
  bridgeCount : ℤ

/-- The neighbour handling of one flood-fill iteration (the body of the
`for (const [dx, dy] of …)` loop, processing.ts lines 595-599): an
in-bounds background neighbour not yet marked is marked and enqueued. -/
def floodStep (m : MaskGrid) (w h cx cy : ℕ)
    (st : MaskGrid × List (ℕ × ℕ)) (d : ℤ × ℤ) : MaskGrid × List (ℕ × ℕ) :=
  let nx := (cx : ℤ) + d.1
  let ny := (cy : ℤ) + d.2
  if 0 ≤ nx ∧ 0 ≤ ny ∧ nx < (w : ℤ) ∧ ny < (h : ℤ) then
    let nxn := nx.toNat
    let nyn := ny.toNat
    if ¬ mget m nyn nxn ∧ ¬ mget st.1 nyn nxn then
      (mset st.1 nyn nxn true, st.2 ++ [(nxn, nyn)])
    else st
  else st

/-- The border flood-fill BFS body (processing.ts lines 590-601): pop the
queue head, enqueue every in-bounds background 4-neighbour not yet marked.
Fuel `w*h` dominates the pop count. -/
def bgFloodBfs (m : MaskGrid) (w h : ℕ) :
    ℕ → List (ℕ × ℕ) → MaskGrid → MaskGrid
  | 0, _, vis => vis
  | _ + 1, [], vis => vis
  | fuel + 1, (cx, cy) :: q, vis =>
    let st := dirs4.foldl (floodStep m w h cx cy) (vis, [])
    bgFloodBfs m w h fuel (q ++ st.2) st.1

/-- `flood(sx, sy)` (lines 588-602): no-op on foreground or already-marked
cells, else mark the seed and run the BFS. -/
def floodSeed (m : MaskGrid) (w h : ℕ) (vis : MaskGrid) (sx sy : ℕ) : MaskGrid :=
  if mget m sy sx ∨ mget vis sy sx then vis
  else bgFloodBfs m w h (w * h) [(sx, sy)] (mset vis sy sx true)

/-- The border seeding (lines 603-604): flood from the top and bottom rows,
then the left and right columns.  The result marks the "mainland": every
background cell 4-reachable from the grid border. -/
def bgConnectedGrid (m : MaskGrid) (w h : ℕ) : MaskGrid :=
  let vis := fillGrid w h false
  let vis := (List.range w).foldl
    (fun v x => floodSeed m w h (floodSeed m w h v x 0) x (h - 1)) vis
  (List.range h).foldl
    (fun v y => floodSeed m w h (floodSeed m w h v 0 y) (w - 1) y) vis

/-- A detected island: its pixels and its boundary pixels (cells with an
out-of-bounds or foreground 4-neighbour), in BFS discovery order. -/
structure IslandRec where
  pixels : List (ℕ × ℕ)
  boundary : List (ℕ × ℕ)
  deriving Repr

/-- The neighbour handling of one island-BFS iteration (lines 620-623):
an out-of-bounds or foreground 4-neighbour raises the boundary flag; an
unvisited, non-mainland background neighbour is marked and enqueued. -/
def islandStep (m bg : MaskGrid) (w h cx cy : ℕ)
    (st : MaskGrid × List (ℕ × ℕ) × Bool) (d : ℤ × ℤ) :
    MaskGrid × List (ℕ × ℕ) × Bool :=
  let nx := (cx : ℤ) + d.1
  let ny := (cy : ℤ) + d.2
  if nx < 0 ∨ ny < 0 ∨ (w : ℤ) ≤ nx ∨ (h : ℤ) ≤ ny ∨ mget m ny.toNat nx.toNat then
    (st.1, st.2.1, true)
  else
    let nxn := nx.toNat
    let nyn := ny.toNat
    if ¬ mget st.1 nyn nxn ∧ ¬ mget bg nyn nxn then
      (mset st.1 nyn nxn true, st.2.1 ++ [(nxn, nyn)], st.2.2)
    else st

/-- The island-collecting BFS body (lines 616-626): pop the head into
`pixels`; a 4-neighbour that is out of bounds or foreground marks the cell
as boundary; an unvisited, non-mainland background neighbour is enqueued. -/
def islandBfs (m bg : MaskGrid) (w h : ℕ) :
    ℕ → List (ℕ × ℕ) → MaskGrid → List (ℕ × ℕ) → List (ℕ × ℕ) →
    MaskGrid × List (ℕ × ℕ) × List (ℕ × ℕ)
  | 0, _, vis, px, bd => (vis, px, bd)
  | _ + 1, [], vis, px, bd => (vis, px, bd)
  | fuel + 1, (cx, cy) :: q, vis, px, bd =>
    let px := px ++ [(cx, cy)]
    let st := dirs4.foldl (islandStep m bg w h cx cy) (vis, [], false)
    let bd := if st.2.2 then bd ++ [(cx, cy)] else bd
    islandBfs m bg w h fuel (q ++ st.2.1) st.1 px bd

/-- One step of the island scan (lines 610-630): at an unvisited,
non-mainland background cell start an island BFS; islands of fewer than 20
pixels are flipped to foreground (noise floor), larger ones are recorded
for bridging. -/
def islandScanStep (bg : MaskGrid) (w h : ℕ)
    (st : MaskGrid × MaskGrid × List IslandRec) (c : ℕ × ℕ) :
    MaskGrid × MaskGrid × List IslandRec :=
  if mget st.1 c.2 c.1 ∨ mget bg c.2 c.1 ∨ mget st.2.1 c.2 c.1 then st
  else
    let r := islandBfs st.1 bg w h (w * h) [c] (mset st.2.1 c.2 c.1 true) [] []
    if r.2.1.length < 20 then
      (r.2.1.foldl (fun g p => mset g p.2 p.1 true) st.1, r.1, st.2.2)
    else (st.1, r.1, st.2.2 ++ [⟨r.2.1, r.2.2⟩])

/-- The full island scan (lines 608-630), row-major. -/
def islandScan (m bg : MaskGrid) (w h : ℕ) : MaskGrid × List IslandRec :=
  let st := (cellsRowMajor w h).foldl (islandScanStep bg w h)
    (m, fillGrid w h false, [])
  (st.1, st.2.2)

/-- The neighbour handling of one distance-BFS iteration (the inner loop
of lines 636-643): an in-bounds still-unassigned 4-neighbour is assigned
`d+1` and enqueued. -/
def distStep (w h cx cy : ℕ) (d : ℤ)
    (st : IntGrid × List (ℕ × ℕ)) (dd : ℤ × ℤ) : IntGrid × List (ℕ × ℕ) :=
  let nx := (cx : ℤ) + dd.1
  let ny := (cy : ℤ) + dd.2
  if 0 ≤ nx ∧ 0 ≤ ny ∧ nx < (w : ℤ) ∧ ny < (h : ℤ) then
    let nxn := nx.toNat
    let nyn := ny.toNat
    if lget st.1 nyn nxn = -1 then
      (lset st.1 nyn nxn (d + 1), st.2 ++ [(nxn, nyn)])
    else st
  else st

/-- The multi-source BFS body for the distance field (lines 636-643):
pop the head, assign `d+1` to every in-bounds still-unassigned
4-neighbour. -/
def distBfs (w h : ℕ) : ℕ → List (ℕ × ℕ) → IntGrid → IntGrid
  | 0, _, dist => dist
  | _ + 1, [], dist => dist
  | fuel + 1, (cx, cy) :: q, dist =>
    let st := dirs4.foldl (distStep w h cx cy (lget dist cy cx)) (dist, [])
    distBfs w h fuel (q ++ st.2) st.1

/-- One seeding step of the distance field (line 634): a mainland cell is
assigned distance `0` and enqueued. -/
def distSeedStep (bg : MaskGrid)
    (st : IntGrid × List (ℕ × ℕ)) (c : ℕ × ℕ) : IntGrid × List (ℕ × ℕ) :=
  if mget bg c.2 c.1 then (lset st.1 c.2 c.1 0, st.2 ++ [c]) else st

/-- The distance field to the mainland (lines 633-643): seed every
mainland cell with `0` in row-major order, all other cells `-1`, then BFS.
The field ignores the mask: it is the plain grid distance to the nearest
mainland cell. -/
def distField (bg : MaskGrid) (w h : ℕ) : IntGrid :=
  let seeded := (cellsRowMajor w h).foldl (distSeedStep bg) (fillIntGrid w h (-1), [])
  distBfs w h (w * h) seeded.2 seeded.1

/-- The `(dy, dx)` offsets of the carve loops (lines 658-659):
`dy` and `dx` each range over `-bw … bw`. -/
def carveOffsets (bw : ℤ) : List (ℤ × ℤ) :=
  (List.range (2 * bw.toNat + 1)).flatMap (fun (i : ℕ) =>
    (List.range (2 * bw.toNat + 1)).map (fun (j : ℕ) =>
      (-bw + (i : ℤ), -bw + (j : ℤ))))

/-- One write of the carve loop (lines 660-661): an in-bounds cell within
euclidean radius `bw` of the centre is set to background. -/
def carveStep (w h : ℕ) (bw : ℤ) (cx cy : ℕ) (g : MaskGrid) (d : ℤ × ℤ) :
    MaskGrid :=
  let ox := (cx : ℤ) + d.2
  let oy := (cy : ℤ) + d.1
  if 0 ≤ ox ∧ 0 ≤ oy ∧ ox < (w : ℤ) ∧ oy < (h : ℤ) ∧
      d.2 * d.2 + d.1 * d.1 ≤ bw * bw then
    mset g oy.toNat ox.toNat false
  else g

/-- The disc carved at one descent step (lines 657-661): every in-bounds
cell within euclidean radius `bw` of the centre is set to background. -/
def carveDisc (w h : ℕ) (bw : ℤ) (cx cy : ℕ) (m : MaskGrid) : MaskGrid :=
  (carveOffsets bw).foldl (carveStep w h bw cx cy) m

/-- The best-neighbour selection of one descent step (lines 662-666):
the in-bounds assigned 4-neighbour of minimal distance, the current cell
when none improves. -/
def bestStep (dist : IntGrid) (w h cx cy : ℕ)
    (best : (ℕ × ℕ) × ℤ) (d : ℤ × ℤ) : (ℕ × ℕ) × ℤ :=
  let nx := (cx : ℤ) + d.1
  let ny := (cy : ℤ) + d.2
  if 0 ≤ nx ∧ 0 ≤ ny ∧ nx < (w : ℤ) ∧ ny < (h : ℤ) ∧
      lget dist ny.toNat nx.toNat ≠ -1 ∧ lget dist ny.toNat nx.toNat < best.2 then
    ((nx.toNat, ny.toNat), lget dist ny.toNat nx.toNat)
  else best

/-- The gradient-descent carve loop (lines 656-669): while the current
cell's distance is positive, carve the disc, then step to the
4-neighbour of minimal assigned distance; stop when no neighbour improves.
The recursion runs on fuel; the call sites pass `dist+1`, which dominates
the iteration count because the distance strictly decreases. -/
def descend (dist : IntGrid) (w h : ℕ) (bw : ℤ) :
    ℕ → ℕ → ℕ → MaskGrid → MaskGrid
  | 0, _, _, m => m
  | fuel + 1, cx, cy, m =>
    if lget dist cy cx ≤ 0 then m
    else
      let m := carveDisc w h bw cx cy m
      let best := dirs4.foldl (bestStep dist w h cx cy) ((cx, cy), lget dist cy cx)
      if best.1 = (cx, cy) then m
      else descend dist w h bw fuel best.1.1 best.1.2 m

/-- The candidate scan of one arc (lines 648-652): fold over the arc's
boundary indices keeping the point of minimal distance (`minD` starts at
`Infinity`, so the first candidate always wins, modelled by `none`). -/
def arcBest (dist : IntGrid) (bnd : List (ℕ × ℕ)) (i stp : ℕ) :
    Option ((ℕ × ℕ) × ℤ) :=
  (List.range stp).foldl
    (fun (acc : Option ((ℕ × ℕ) × ℤ)) k =>
      let p := bnd.getD (i * stp + k) (0, 0)
      let dv := lget dist p.2 p.1
      match acc with
      | none => some (p, dv)
      | some b => if dv < b.2 then some (p, dv) else acc)
    none

/-- Bridging one island (lines 645-671): split the boundary into
`n = max 1 (min bridgeCount ⌊boundary/20⌋)` arcs of `⌊boundary/n⌋` points;
in each arc pick the boundary point of minimal distance and descend from
it. -/
def bridgeIsland (dist : IntGrid) (w h : ℕ) (bw bc : ℤ)
    (m : MaskGrid) (isl : IslandRec) : MaskGrid :=
  let len := isl.boundary.length
  let n : ℤ := max 1 (min bc ((len / 20 : ℕ) : ℤ))
  let stp := len / n.toNat
  (List.range n.toNat).foldl
    (fun m i =>
      match arcBest dist isl.boundary i stp with
      | none => m
      | some b => descend dist w h bw ((lget dist b.1.2 b.1.1).toNat + 1) b.1.1 b.1.2 m)
    m

/-- `postProcessMask` (processing.ts lines 586-673, revision 2, the
settings-record variant).  Mainland flood fill; in stencil mode, flip
sub-20-pixel islands to foreground, and when at least one island remains
and the bridge width is positive, carve a gradient-descent bridge of the
configured width from each island's best boundary points down the distance
field to the mainland. -/
def postProcessMask (m : MaskGrid) (w h : ℕ) (settings : StencilSettings) :
    MaskGrid :=
  let bg := bgConnectedGrid m w h
  if ¬ settings.stencilMode then m
  else
    let r := islandScan m bg w h
    if r.2.length = 0 ∨ settings.bridgeWidth ≤ 0 then r.1
    else
      let dist := distField bg w h
      r.2.foldl (bridgeIsland dist w h settings.bridgeWidth settings.bridgeCount) r.1

/-! ### Specification-side notions for the connectivity claims (C1)

The claims speak about islands, the mainland and reachability from the
grid border.  These are defined here independently of the algorithm, as
plain graph notions over the grid. -/

/-- `(x, y)` lies inside the `w × h` grid. -/
def inB (w h : ℕ) (c : ℕ × ℕ) : Prop := c.1 < w ∧ c.2 < h

/-- `(x, y)` lies on the grid border. -/
def onBorder (w h : ℕ) (c : ℕ × ℕ) : Prop :=
  c.1 = 0 ∨ c.2 = 0 ∨ c.1 + 1 = w ∨ c.2 + 1 = h

/-- 4-neighbourhood adjacency of two cells. -/
def adj4 (a b : ℕ × ℕ) : Prop :=
  (a.1 = b.1 ∧ (a.2 + 1 = b.2 ∨ b.2 + 1 = a.2)) ∨
  (a.2 = b.2 ∧ (a.1 + 1 = b.1 ∨ b.1 + 1 = a.1))

/-- One step between adjacent in-bounds background cells of `m`. -/
def bgStep (m : MaskGrid) (w h : ℕ) (a b : ℕ × ℕ) : Prop :=
  adj4 a b ∧ inB w h a ∧ inB w h b ∧
  mget m a.2 a.1 = false ∧ mget m b.2 b.1 = false

/-- The cell is reachable from some border background cell through
4-connected background cells — it belongs to the "mainland". -/
def bgReach (m : MaskGrid) (w h : ℕ) (c : ℕ × ℕ) : Prop :=
  ∃ b, onBorder w h b ∧ inB w h b ∧ mget m b.2 b.1 = false ∧
    Relation.ReflTransGen (bgStep m w h) b c

/-- The mask is a full `h`-row, `w`-column grid (the pipeline invariant:
every mask is produced at exactly the internal resolution). -/
def gridSized {α : Type} (g : List (List α)) (w h : ℕ) : Prop :=
  g.length = h ∧ ∀ r ∈ g, r.length = w

/-- The in-bounds cells of `vis` not yet marked `true` (the fuel measure
of the flood fills). -/
def unmarkedCount (w h : ℕ) (vis : MaskGrid) : ℕ :=
  ((cellsRowMajor w h).filter (fun c => ¬ mget vis c.2 c.1)).length

/-- The in-bounds cells of a distance grid still holding `-1` (the fuel
measure of the distance BFS). -/
def unassignedCount (w h : ℕ) (dist : IntGrid) : ℕ :=
  ((cellsRowMajor w h).filter (fun c => lget dist c.2 c.1 = -1)).length

/-- A 3×3 all-foreground mask. -/
def allTrue3 : MaskGrid :=
  [[true, true, true], [true, true, true], [true, true, true]]

/-- A 3×3 mask holding a single L-shaped 3-pixel foreground component. -/
def maskL : MaskGrid :=
  [[true, true, false], [true, false, false], [false, false, false]]

/-- A 4×4 mask with a background mainland cell at (0,0) on the border and
an isolated background cell at (2,1) surrounded by foreground. -/
def isolatedMask4 : MaskGrid :=
  [[false, true, true, true],
   [true, true, false, true],
   [true, true, true, true],
   [true, true, true, true]]

/-- The ten decimal digit characters. -/
def digitChars : List Char :=
  ['0', '1', '2', '3', '4', '5', '6', '7', '8', '9']

/-- The characters a straight-segment path may contain. -/
def pathLineChars : List Char :=
  ['M', 'L', 'Z', ' ', '-', '.', '0', '1', '2', '3', '4', '5', '6', '7', '8', '9']

/-- The boundary-flag condition of one island-BFS neighbour (line 621):
the offset leaves the grid or hits a foreground cell. -/
def outOrMask (m : MaskGrid) (w h : ℕ) (p : ℕ × ℕ) (d : ℤ × ℤ) : Prop :=
  (p.1 : ℤ) + d.1 < 0 ∨ (p.2 : ℤ) + d.2 < 0 ∨ (w : ℤ) ≤ (p.1 : ℤ) + d.1 ∨
  (h : ℤ) ≤ (p.2 : ℤ) + d.2 ∨
  mget m ((p.2 : ℤ) + d.2).toNat ((p.1 : ℤ) + d.1).toNat = true

/-- The invariant of the island scan fold (lines 608-630), tying the
working mask, the visited grid and the collected island list to the
original mask `m` and the mainland grid `bg`. -/
def scanInv (m bg : MaskGrid) (w h : ℕ)
    (st : MaskGrid × MaskGrid × List IslandRec) : Prop :=
  gridSized st.1 w h ∧ gridSized st.2.1 w h ∧
  (∀ y x, mget m y x = true → mget st.1 y x = true) ∧
  (∀ y x, mget st.1 y x = true → mget m y x = true ∨ mget st.2.1 y x = true) ∧
  (∀ y x, mget st.2.1 y x = true →
    inB w h (x, y) ∧ mget m y x = false ∧ mget bg y x = false) ∧
  (∀ a : ℕ × ℕ, mget st.2.1 a.2 a.1 = true → ∀ e, adj4 a e → inB w h e →
    mget m e.2 e.1 = false → mget bg e.2 e.1 = false →
    mget st.2.1 e.2 e.1 = true) ∧
  (∀ a : ℕ × ℕ, mget st.2.1 a.2 a.1 = true →
    (∃ px : List (ℕ × ℕ), px.length < 20 ∧ a ∈ px ∧
      ∀ p ∈ px, mget st.1 p.2 p.1 = true) ∨
    ∃ I ∈ st.2.2, a ∈ I.pixels) ∧
  (∀ I ∈ st.2.2, 20 ≤ I.pixels.length ∧ I.boundary ≠ [] ∧
    (∀ b ∈ I.boundary, b ∈ I.pixels) ∧
    (∀ p ∈ I.pixels, inB w h p ∧ mget m p.2 p.1 = false ∧
      mget bg p.2 p.1 = false ∧ mget st.1 p.2 p.1 = false ∧
      mget st.2.1 p.2 p.1 = true) ∧
    (∃ s ∈ I.pixels, ∀ p ∈ I.pixels,
      Relation.ReflTransGen (fun a2 b2 => adj4 a2 b2 ∧ inB w h b2 ∧
        mget m b2.2 b2.1 = false ∧ mget bg b2.2 b2.1 = false ∧
        b2 ∈ I.pixels) s p))

/-! ### The ε formulas of the earlier `buildBezierPath` revisions (C5) -/

/-- The RDP tolerance of `buildBezierPath`, processing.ts lines 92-94
(revision 1): `0.4` at smoothing 0, else `0.8 + smoothing^1.5 · 0.6`.
`Math.pow(x, 1.5)` is real exponentiation, hence the `ℝ` codomain. -/
noncomputable def bezierEpsilon (vectorSmoothing : ℚ) : ℝ :=
  if vectorSmoothing = 0 then 0.4
  else 0.8 + (vectorSmoothing : ℝ) ^ (1.5 : ℝ) * 0.6

/-- The same tolerance in revision 2 (processing.ts line 487), with
coefficient `0.4` instead of `0.6`. -/
noncomputable def bezierEpsilonAlt (vectorSmoothing : ℚ) : ℝ :=
  if vectorSmoothing = 0 then 0.4
  else 0.8 + (vectorSmoothing : ℝ) ^ (1.5 : ℝ) * 0.4

/-- C5 counterexample: the claim says ε is exactly 0 when the smoothing
parameter is 0; in the source (`vectorSmoothing === 0 ? 0.4 : …`, with the
comment "we use a small epsilon (0.4)") it is `0.4`, not `0`. -/
theorem C5_counterexample : bezierEpsilon 0 ≠ 0 := by
  simp only [bezierEpsilon, if_pos rfl]
  norm_num

/-- C5 (amended): the Douglas-Peucker tolerance of `buildBezierPath` is
`0.4` (not 0) when the vector-smoothing parameter is 0, and for nonzero
smoothing it is `0.8 + smoothing^1.5 · c` with `c = 0.6` (revision 1)
resp. `c = 0.4` (revision 2); beyond `smoothing = 1` it grows
super-linearly (strictly above the linear curve `0.8 + 0.6·smoothing`). -/
theorem C5_epsilon_amended :
    bezierEpsilon 0 = 0.4 ∧ bezierEpsilonAlt 0 = 0.4 ∧
    (∀ s : ℚ, s ≠ 0 → bezierEpsilon s = 0.8 + (s : ℝ) ^ (1.5 : ℝ) * 0.6) ∧
    (∀ s : ℚ, s ≠ 0 → bezierEpsilonAlt s = 0.8 + (s : ℝ) ^ (1.5 : ℝ) * 0.4) ∧
    (∀ s : ℚ, 1 < s → 0.8 + (s : ℝ) * 0.6 < bezierEpsilon s) := by
  refine ⟨by simp [bezierEpsilon], by simp [bezierEpsilonAlt],
    fun s hs => by simp [bezierEpsilon, hs], fun s hs => by simp [bezierEpsilonAlt, hs],
    fun s hs => ?_⟩
  have hs0 : s ≠ 0 := by
    intro h
    rw [h] at hs
    exact absurd hs (by norm_num)
  have h1 : (1 : ℝ) < (s : ℝ) := by exact_mod_cast hs
  have hlt : (s : ℝ) ^ (1 : ℝ) < (s : ℝ) ^ (1.5 : ℝ) :=
    Real.rpow_lt_rpow_of_exponent_lt h1 (by norm_num)
  rw [Real.rpow_one] at hlt
  rw [bezierEpsilon, if_neg hs0]
  nlinarith

/-- C5 witness: the amended formula applied at the concrete smoothing 2. -/
theorem C5_epsilon_witness :
    (2 : ℚ) ≠ 0 ∧ bezierEpsilon 2 = 0.8 + ((2 : ℚ) : ℝ) ^ (1.5 : ℝ) * 0.6 :=
  ⟨by norm_num, C5_epsilon_amended.2.2.1 2 (by norm_num)⟩

/-! ### C10: `postProcessMask` with stencil mode off is the identity -/

/-- C10: with `settings.stencilMode = false` the settings-record
`postProcessMask` leaves the mask unchanged — the border flood fill writes
only its local visited buffer and the function returns before any flip. -/
theorem C10_stencil_off (m : MaskGrid) (w h : ℕ) (settings : StencilSettings)
    (hs : settings.stencilMode = false) : postProcessMask m w h settings = m := by
  simp [postProcessMask, hs]

/-- C10 witness: a concrete mask passes through unchanged. -/
theorem C10_stencil_off_witness :
    (StencilSettings.mk false 2 2).stencilMode = false ∧
    postProcessMask [[true, false], [false, true]] 2 2 (StencilSettings.mk false 2 2)
      = [[true, false], [false, true]] :=
  ⟨rfl, C10_stencil_off _ _ _ _ rfl⟩

/-! ### C9: the Moore-trace safety counter bounds the contour length -/

/-- The trace loop grows its accumulator by exactly one point per
iteration and iterates at most `max 1 safety` times. -/
theorem traceLoop_length (ok : ℕ → ℕ → Bool) (w h sX sY : ℕ) :
    ∀ safety cx cy dir acc,
      (traceLoop ok w h sX sY safety cx cy dir acc).length ≤ acc.length + max 1 safety := by
  intro safety
  induction safety using Nat.strong_induction_on with
  | _ safety ih =>
    intro cx cy dir acc
    match safety with
    | 0 => simp [traceLoop]
    | 1 => simp [traceLoop]
    | t + 2 =>
      rw [traceLoop]
      cases hfind : findNext ok w h cx cy dir with
      | none => simp
      | some v =>
        obtain ⟨nx, ny, nd⟩ := v
        simp only
        by_cases h2 : nx = sX ∧ ny = sY ∧ 1 < (acc ++ [(cx, cy)]).length
        · rw [if_pos h2]
          simp only [List.length_append, List.length_cons, List.length_nil]
          omega
        · rw [if_neg h2]
          have := ih (t + 1) (by omega) nx ny nd (acc ++ [(cx, cy)])
          simp at this
          omega

/-- C9: both Moore-neighbour boundary traces terminate with a hard safety
counter proportional to the grid area — `traceContourFromLabel` runs at
most `4·w·h` iterations and `extractContour` at most `10·w·h`, so the
returned (possibly partial) contours are bounded accordingly, for every
label field or mask, including malformed ones. -/
theorem C9_trace_safety_bound (labels : IntGrid) (m : MaskGrid) (w h : ℕ)
    (lab : ℤ) (sx sy : ℕ) :
    (traceContourFromLabel labels w h lab sx sy).length ≤ 4 * (w * h) + 1 ∧
    (extractContour m w h).length ≤ 10 * (w * h) + 1 := by
  constructor
  · have := traceLoop_length (fun x y => decide (lget labels y x = lab)) w h sx sy
      (w * h * 4) sx sy 0 []
    simp only [traceContourFromLabel, List.length_map]
    simp at this
    omega
  · rw [extractContour]
    cases hf : (cellsRowMajor w h).find? (fun c => mget m c.2 c.1) with
    | none => simp
    | some s =>
      have := traceLoop_length (fun x y => mget m y x) w h s.1 s.2 (w * h * 10) s.1 s.2 0 []
      simp only [List.length_map]
      simp at this
      omega

/-! ### C7: the majority filter -/

/-- Reading a cell of a grid built by mapping over `List.range`. -/
theorem mget_map_range (f : ℕ → ℕ → Bool) (w h y x : ℕ) (hy : y < h) (hx : x < w) :
    mget ((List.range h).map (fun y => (List.range w).map (fun x => f y x))) y x
      = f y x := by
  have h1 : (List.map (fun y => List.map (fun x => f y x) (List.range w))
      (List.range h)).getD y [] = List.map (fun x => f y x) (List.range w) := by
    rw [List.getD_eq_getElem?_getD, List.getElem?_map, List.getElem?_range hy]
    simp
  unfold mget
  rw [h1, List.getD_eq_getElem?_getD, List.getElem?_map, List.getElem?_range hx]
  simp

/-- C7 counterexample: the claim says border cells are left unchanged by a
`smoothMask` iteration; in revision 2 (the cited lines 572-584) the fresh
buffer is all-false and only interior cells are computed, so the copy-back
clears every border cell — here the foreground corner `(0,0)` of an
all-foreground 3×3 mask becomes background. -/
theorem C7_counterexample :
    mget (smoothMask allTrue3 3 3 1) 0 0 = false ∧ mget allTrue3 0 0 = true := by
  decide

/-- C7 (amended): in one `smoothMask` iteration each interior cell becomes
foreground iff at least 5 of the 9 cells of its self-plus-8-neighbour
neighbourhood were foreground before the iteration; every border cell is
cleared to background (not left unchanged). -/
theorem C7_majority_amended (m : MaskGrid) (w h : ℕ) :
    (∀ x y, 1 ≤ x → x + 1 < w → 1 ≤ y → y + 1 < h →
      (mget (smoothMask m w h 1) y x = true ↔ 5 ≤ smoothNbhd m x y)) ∧
    (∀ x y, x < w → y < h → ¬ (1 ≤ x ∧ x + 1 < w ∧ 1 ≤ y ∧ y + 1 < h) →
      mget (smoothMask m w h 1) y x = false) := by
  have hstep : smoothMask m w h 1 = smoothMaskStep m w h := by
    simp [smoothMask]
  constructor
  · intro x y hx hxw hy hyh
    rw [hstep, smoothMaskStep,
      mget_map_range _ w h y x (by omega) (by omega)]
    rw [if_pos ⟨hy, hyh, hx, hxw⟩]
    simp
  · intro x y hx hy hb
    rw [hstep, smoothMaskStep, mget_map_range _ w h y x hy hx]
    rw [if_neg (by tauto)]

/-- C7 witness: the interior rule applied at the centre of the
all-foreground 3×3 mask. -/
theorem C7_majority_witness :
    mget (smoothMask allTrue3 3 3 1) 1 1 = true ↔ 5 ≤ smoothNbhd allTrue3 1 1 :=
  (C7_majority_amended allTrue3 3 3).1 1 1 (by decide) (by decide) (by decide) (by decide)

/-! ### C8: what the tracer drops -/

/-- A fold that only ever appends contours of at least 3 points preserves
that bound for all its output. -/
theorem foldl_min_three {β : Type} (g : List (List Point) → β → List (List Point))
    (hg : ∀ acc b c, c ∈ g acc b → c ∈ acc ∨ 3 ≤ c.length) :
    ∀ (l : List β) (acc : List (List Point)), (∀ c ∈ acc, 3 ≤ c.length) →
      ∀ c ∈ l.foldl g acc, 3 ≤ c.length := by
  intro l
  induction l with
  | nil => intro acc hacc c hc; exact hacc c hc
  | cons b t ih =>
    intro acc hacc c hc
    refine ih (g acc b) ?_ c hc
    intro c hc
    rcases hg acc b c hc with h | h
    · exact hacc c h
    · exact h

/-- C8 (amended): `extractAllContours` filters by traced-contour point
count, not component pixel count — every contour it returns has at least
3 points (so 1- and 2-pixel components, whose traces are shorter, never
appear), but there is no 4-5-cell pixel-count cutoff. -/
theorem C8_contour_filter_amended (m : MaskGrid) (w h : ℕ) :
    ∀ c ∈ extractAllContours m w h, 3 ≤ c.length := by
  intro c hc
  rw [extractAllContours] at hc
  by_cases h0 : (labelComponents m w h).2.1 = 0
  · rw [if_pos h0] at hc
    simp at hc
  · rw [if_neg h0] at hc
    refine foldl_min_three _ ?_ _ [] (by simp) c hc
    intro acc b cc hcc
    simp only at hcc
    split at hcc
    · exact Or.inl hcc
    · split at hcc
      · rcases List.mem_append.1 hcc with h | h
        · exact Or.inl h
        · simp at h
          subst h
          exact Or.inr (by assumption)
      · exact Or.inl hcc

/-- C8 counterexample: `maskL` carries exactly 3 foreground pixels (a
single component, below the claimed 4-5-cell cutoff), yet its contour
appears in the traced set. -/
theorem C8_counterexample :
    (maskL.flatMap id).count true = 3 ∧ (extractAllContours maskL 3 3).length = 1 := by
  decide

/-- C8 witness: the 3-point bound applied to the concrete contour traced
from `maskL`. -/
theorem C8_contour_filter_witness :
    3 ≤ ((extractAllContours maskL 3 3).getD 0 []).length := by
  have hlen : 0 < (extractAllContours maskL 3 3).length := by decide
  rw [List.getD_eq_getElem (extractAllContours maskL 3 3) [] hlen]
  exact C8_contour_filter_amended maskL 3 3 _ (List.getElem_mem hlen)

/-! ### C2: the DXF exporter on a contour-free mask -/

/-- C2 (amended): when the mask yields no contours, `buildDxfFromMask`
returns the empty string (an empty document body, without raising) — not
the header+ENDSEC+EOF skeleton the claim describes. -/
theorem C2_empty_dxf (m : MaskGrid) (settings : AppSettings)
    (h : extractAllContours m ((m.headD []).length) m.length = []) :
    buildDxfFromMask m settings = "" := by
  simp only [buildDxfFromMask]
  rw [h]
  simp

set_option maxRecDepth 4000 in
/-- C2 counterexample: on the spec's 20×20 all-background grid the export
is `""`, not the AC1009 header with ENDSEC and EOF. -/
theorem C2_counterexample :
    buildDxfFromMask (fillGrid 20 20 false) (AppSettings.mk 1) = "" := by
  decide

/-- C2 witness: the amended behaviour at a concrete contour-free mask. -/
theorem C2_empty_dxf_witness :
    extractAllContours (fillGrid 2 2 false) ((fillGrid 2 2 false).headD []).length
      (fillGrid 2 2 false).length = [] ∧
    buildDxfFromMask (fillGrid 2 2 false) (AppSettings.mk 1) = "" :=
  ⟨by decide, C2_empty_dxf _ _ (by decide)⟩

/-! ### C3: the shape of one POLYLINE…SEQEND block -/

/-- Every character produced by the digit accumulator is a decimal digit
(given a digit-only accumulator). -/
theorem natDigitsAux_subset :
    ∀ (fuel n : ℕ) (acc : List Char), (∀ c ∈ acc, c ∈ digitChars) →
      ∀ c ∈ natDigitsAux fuel n acc, c ∈ digitChars := by
  intro fuel
  induction fuel with
  | zero => intro n acc hacc c hc; exact hacc c hc
  | succ f ih =>
    intro n acc hacc c hc
    have hd : Char.ofNat (48 + n % 10) ∈ digitChars := by
      have : ∀ d : ℕ, d < 10 → Char.ofNat (48 + d) ∈ digitChars := by decide
      exact this _ (Nat.mod_lt _ (by omega))
    have hacc2 : ∀ c ∈ Char.ofNat (48 + n % 10) :: acc, c ∈ digitChars := by
      intro c hc
      rcases List.mem_cons.1 hc with h | h
      · subst h; exact hd
      · exact hacc c h
    simp only [natDigitsAux] at hc
    split at hc
    · exact hacc2 c hc
    · exact ih _ _ hacc2 c hc

/-- Every character of `natDigits n` is a decimal digit. -/
theorem natDigits_subset (n : ℕ) : ∀ c ∈ natDigits n, c ∈ digitChars :=
  natDigitsAux_subset (n + 1) n [] (by simp)

/-- Characters of the fixed-point renderer for nonnegative inputs: digits
and the decimal point. -/
theorem ratFixedPos_chars (k : ℕ) (q : ℚ) :
    ∀ c ∈ (ratFixedPos k q).data, c = '.' ∨ c ∈ digitChars := by
  intro c hc
  have hdata : (ratFixedPos k q).data =
      natDigits ((⌊q * (10 ^ k : ℚ) + 1 / 2⌋).toNat / 10 ^ k) ++ ['.'] ++
      padZeros k (natDigits ((⌊q * (10 ^ k : ℚ) + 1 / 2⌋).toNat % 10 ^ k)) := rfl
  rw [hdata] at hc
  rcases List.mem_append.1 hc with h | h
  · rcases List.mem_append.1 h with h | h
    · exact Or.inr (natDigits_subset _ c h)
    · simp at h
      exact Or.inl h
  · rcases List.mem_append.1 h with h | h
    · rcases List.mem_replicate.1 h with ⟨_, h⟩
      subst h
      exact Or.inr (by decide)
    · exact Or.inr (natDigits_subset _ c h)

/-- Characters of `ratFixed`: digits, the point, and a possible sign. -/
theorem ratFixed_chars (k : ℕ) (q : ℚ) :
    ∀ c ∈ (ratFixed k q).data, c = '-' ∨ c = '.' ∨ c ∈ digitChars := by
  intro c hc
  rw [ratFixed] at hc
  split at hc
  · have : (("-" : String) ++ ratFixedPos k (-q)).data = '-' :: (ratFixedPos k (-q)).data := rfl
    rw [this] at hc
    rcases List.mem_cons.1 hc with h | h
    · exact Or.inl h
    · exact Or.inr (ratFixedPos_chars k (-q) c h)
  · exact Or.inr (ratFixedPos_chars k q c hc)

/-- The decimal point occurs in every `ratFixed` output. -/
theorem dot_mem_ratFixed (k : ℕ) (q : ℚ) : '.' ∈ (ratFixed k q).data := by
  have hpos : ∀ r : ℚ, '.' ∈ (ratFixedPos k r).data := by
    intro r
    have hdata : (ratFixedPos k r).data =
        natDigits ((⌊r * (10 ^ k : ℚ) + 1 / 2⌋).toNat / 10 ^ k) ++ ['.'] ++
        padZeros k (natDigits ((⌊r * (10 ^ k : ℚ) + 1 / 2⌋).toNat % 10 ^ k)) := rfl
    rw [hdata]
    simp
  rw [ratFixed]
  split
  · have : (("-" : String) ++ ratFixedPos k (-q)).data = '-' :: (ratFixedPos k (-q)).data := rfl
    rw [this]
    exact List.mem_cons_of_mem _ (hpos (-q))
  · exact hpos q

/-- `ratFixed` output is never one of the DXF keywords (it contains a
decimal point; the keywords do not). -/
theorem ratFixed_ne_keyword (k : ℕ) (q : ℚ) :
    ratFixed k q ≠ "POLYLINE" ∧ ratFixed k q ≠ "SEQEND" := by
  constructor <;> intro h <;>
    [have := dot_mem_ratFixed k q; have := dot_mem_ratFixed k q] <;>
    rw [h] at this <;> revert this <;> decide

/-- `pairValues` distributes over an append whose left part is a whole
number of (code, value) pairs. -/
theorem pairValues_append :
    ∀ (l₁ l₂ : List String) (t : String), l₁.length % 2 = 0 →
      pairValues (l₁ ++ l₂) t = pairValues l₁ t ++ pairValues l₂ t
  | [], l₂, t, _ => by simp [pairValues]
  | [a], _, _, h => by simp at h
  | a :: b :: rest, l₂, t, h => by
    have ih := pairValues_append rest l₂ t (by simp at h; omega)
    show (if a = t then [b] else []) ++ pairValues (rest ++ l₂) t
        = ((if a = t then [b] else []) ++ pairValues rest t) ++ pairValues l₂ t
    rw [ih, List.append_assoc]

/-- Each VERTEX contributes ten lines. -/
theorem vertexLines_length (pts : List Point) :
    (pts.flatMap dxfVertexLines).length = 10 * pts.length := by
  induction pts with
  | nil => simp
  | cons p t ih => simp [dxfVertexLines, ih]; ring

/-- `pairValues` over the VERTEX block of a point list. -/
theorem pairValues_flatMap (pts : List Point) (t : String) :
    pairValues (pts.flatMap dxfVertexLines) t
      = pts.flatMap (fun p => pairValues (dxfVertexLines p) t) := by
  induction pts with
  | nil => simp [pairValues]
  | cons p tl ih =>
    rw [List.flatMap_cons, List.flatMap_cons,
      pairValues_append _ _ _ (by simp [dxfVertexLines]), ih]

/-- No VERTEX line is a POLYLINE or SEQEND keyword. -/
theorem vertexLines_ne (p : Point) :
    ∀ l ∈ dxfVertexLines p, l ≠ "POLYLINE" ∧ l ≠ "SEQEND" := by
  intro l hl
  have hcases : l = "0" ∨ l = "VERTEX" ∨ l = "8" ∨ l = "0" ∨ l = "10" ∨
      l = ratFixed 3 p.1 ∨ l = "20" ∨ l = ratFixed 3 (A3_HEIGHT - p.2) ∨
      l = "30" ∨ l = "0.0" := by
    simpa [dxfVertexLines] using hl
  rcases hcases with rfl | rfl | rfl | rfl | rfl | rfl | rfl | rfl | rfl | rfl <;>
    first
      | exact ⟨by decide, by decide⟩
      | exact ratFixed_ne_keyword 3 _

/-- C3: each serialized contour yields exactly one `POLYLINE` and one
`SEQEND` line, carries colour `62 = 1` and closed-flag `70 = 1`, and its
group-10/group-20 vertex values are exactly the X coordinates and the
flipped Y coordinates (`A3_HEIGHT − y`), each fixed to 3 decimals. -/
theorem C3_dxf_block_shape (pts : List Point) :
    (dxfPolylineLines pts).count "POLYLINE" = 1 ∧
    (dxfPolylineLines pts).count "SEQEND" = 1 ∧
    pairValues (dxfPolylineLines pts) "62" = ["1"] ∧
    pairValues (dxfPolylineLines pts) "70" = ["1"] ∧
    pairValues (dxfPolylineLines pts) "10" = pts.map (fun p => ratFixed 3 p.1) ∧
    pairValues (dxfPolylineLines pts) "20"
      = pts.map (fun p => ratFixed 3 (A3_HEIGHT - p.2)) := by
  have hmid : ∀ t : String, pairValues (dxfPolylineLines pts) t
      = pairValues dxfPolylineHeader t
        ++ pairValues (pts.flatMap dxfVertexLines) t
        ++ pairValues ["0", "SEQEND"] t := by
    intro t
    rw [dxfPolylineLines, List.append_assoc,
      pairValues_append _ _ _ (by decide),
      pairValues_append _ _ _ (by rw [vertexLines_length]; omega)]
    simp [List.append_assoc]
  have hvert0 : (pts.flatMap dxfVertexLines).count "POLYLINE" = 0 := by
    refine List.count_eq_zero.2 ?_
    intro h
    rcases List.mem_flatMap.1 h with ⟨p, _, hp⟩
    exact (vertexLines_ne p _ hp).1 rfl
  have hvert1 : (pts.flatMap dxfVertexLines).count "SEQEND" = 0 := by
    refine List.count_eq_zero.2 ?_
    intro h
    rcases List.mem_flatMap.1 h with ⟨p, _, hp⟩
    exact (vertexLines_ne p _ hp).2 rfl
  refine ⟨?_, ?_, ?_, ?_, ?_, ?_⟩
  · rw [dxfPolylineLines, List.count_append, List.count_append, hvert0]
    decide
  · rw [dxfPolylineLines, List.count_append, List.count_append, hvert1]
    decide
  · rw [hmid, pairValues_flatMap]
    have : ∀ p : Point, pairValues (dxfVertexLines p) "62" = [] := by
      intro p
      simp [dxfVertexLines, pairValues]
    simp [this, dxfPolylineHeader, pairValues]
  · rw [hmid, pairValues_flatMap]
    have : ∀ p : Point, pairValues (dxfVertexLines p) "70" = [] := by
      intro p
      simp [dxfVertexLines, pairValues]
    simp [this, dxfPolylineHeader, pairValues]
  · rw [hmid, pairValues_flatMap]
    have : ∀ p : Point, pairValues (dxfVertexLines p) "10" = [ratFixed 3 p.1] := by
      intro p
      simp [dxfVertexLines, pairValues]
    simp only [this, dxfPolylineHeader, pairValues]
    simp [Eq.symm (List.map_eq_flatMap _ pts)]
  · rw [hmid, pairValues_flatMap]
    have : ∀ p : Point,
        pairValues (dxfVertexLines p) "20" = [ratFixed 3 (A3_HEIGHT - p.2)] := by
      intro p
      simp [dxfVertexLines, pairValues]
    simp only [this, dxfPolylineHeader, pairValues]
    simp [Eq.symm (List.map_eq_flatMap _ pts)]

/-! ### C4: what RDP simplification preserves -/

/-- A map of strictly increasing in-range indices is a sublist. -/
theorem sorted_map_getD_sublist {α : Type} (is : List ℕ) (l : List α) (d : α)
    (hs : is.Pairwise (· < ·)) (hb : ∀ i ∈ is, i < l.length) :
    (is.map (fun i => l.getD i d)).Sublist l := by
  have key : ∀ (js : List ℕ) (hj : ∀ i ∈ js, i < l.length),
      js.map (fun i => l.getD i d)
        = (js.pmap (fun i h => (⟨i, h⟩ : Fin l.length)) hj).map (fun x => l[x]) := by
    intro js
    induction js with
    | nil => intro hj; rfl
    | cons a t ih =>
      intro hj
      simp only [List.map_cons, List.pmap]
      rw [List.getD_eq_getElem l d (hj a (by simp)), ih (fun i hi => hj i (by simp [hi]))]
      rfl
  rw [key is hb]
  refine List.map_getElem_sublist ?_
  rw [List.pairwise_pmap]
  exact hs.imp_of_mem (fun ha hb hlt => by intro hpa hpb; exact hlt)

/-- In a `≤`-sorted list, a member below all members is the head. -/
theorem sorted_head?_min (L : List ℕ) (hs : L.Sorted (· ≤ ·)) (m : ℕ)
    (hm : m ∈ L) (hmin : ∀ i ∈ L, m ≤ i) : L.head? = some m := by
  cases L with
  | nil => simp at hm
  | cons a t =>
    simp only [List.head?_cons, Option.some_inj]
    have h1 : m ≤ a := hmin a (by simp)
    rcases List.mem_cons.1 hm with rfl | hm2
    · rfl
    · have h2 : a ≤ m := (List.sorted_cons.1 hs).1 m hm2
      omega

/-- In a `≤`-sorted list, a member above all members is the last. -/
theorem sorted_getLast?_max :
    ∀ (L : List ℕ), L.Sorted (· ≤ ·) → ∀ m, m ∈ L → (∀ i ∈ L, i ≤ m) →
      L.getLast? = some m
  | [], _, m, hm, _ => by simp at hm
  | [a], _, m, hm, _ => by
    simp at hm
    subst hm
    rfl
  | a :: b :: t, hs, m, hm, hmax => by
    rw [List.getLast?_cons_cons]
    have hs2 : (b :: t).Sorted (· ≤ ·) := (List.sorted_cons.1 hs).2
    have hab : a ≤ b := (List.sorted_cons.1 hs).1 b (by simp)
    refine sorted_getLast?_max (b :: t) hs2 m ?_ (fun i hi => hmax i (by simp [hi]))
    rcases List.mem_cons.1 hm with rfl | hm2
    · have hba : b ≤ m := hmax b (by simp)
      have hbm : b = m := le_antisymm hba hab
      rw [← hbm]
      simp
    · exact hm2

/-- A fold invariant: a predicate preserved by every step holds of the
fold's result. -/
theorem foldl_invariant {α β : Type} (P : α → Prop) (g : α → β → α) :
    ∀ (l : List β) (a : α), P a → (∀ a b, b ∈ l → P a → P (g a b)) →
      P (l.foldl g a) := by
  intro l
  induction l with
  | nil => intro a ha _; exact ha
  | cons b t ih =>
    intro a ha hstep
    exact ih (g a b) (hstep a b (by simp) ha)
      (fun x y hy hx => hstep x y (by simp [hy]) hx)

/-- The farthest-point index found by `rdpScan` is either the initial `0`
or strictly inside the scanned segment. -/
theorem rdpScan_snd (points : List Point) (s e : ℕ) :
    (rdpScan points s e).2 = 0 ∨ (s < (rdpScan points s e).2 ∧ (rdpScan points s e).2 < e) := by
  rw [rdpScan]
  refine foldl_invariant (fun (acc : ℚ × ℕ) => acc.2 = 0 ∨ (s < acc.2 ∧ acc.2 < e)) _ _ _
    (Or.inl rfl) ?_
  intro acc k hk hacc
  simp only
  split
  · right
    have hk2 : k < e - (s + 1) := List.mem_range.1 hk
    omega
  · exact hacc

/-- The RDP keep-set invariant: `0` and `length-1` stay in the kept list,
all kept indices are in range and the list stays duplicate-free, for any
fuel and any in-range stack. -/
theorem rdpLoop_inv (points : List Point) (epsilon : ℚ) :
    ∀ (fuel : ℕ) (stack : List (ℕ × ℕ)) (keep : List ℕ),
      0 ∈ keep → points.length - 1 ∈ keep → (∀ i ∈ keep, i < points.length) →
      keep.Nodup →
      (∀ p ∈ stack, p.2 < points.length) →
      0 ∈ rdpLoop points epsilon fuel stack keep ∧
      points.length - 1 ∈ rdpLoop points epsilon fuel stack keep ∧
      (∀ i ∈ rdpLoop points epsilon fuel stack keep, i < points.length) ∧
      (rdpLoop points epsilon fuel stack keep).Nodup := by
  intro fuel
  induction fuel with
  | zero =>
    intro stack keep h0 h1 hb hnd _
    simp only [rdpLoop]
    exact ⟨h0, h1, hb, hnd⟩
  | succ f ih =>
    intro stack keep h0 h1 hb hnd hst
    cases stack with
    | nil =>
      simp only [rdpLoop]
      exact ⟨h0, h1, hb, hnd⟩
    | cons p rest =>
      obtain ⟨s, e⟩ := p
      have hn : 0 < points.length := hb 0 h0
      have he : e < points.length := hst (s, e) (by simp)
      simp only [rdpLoop]
      split
      · by_cases hmem : (rdpScan points s e).2 ∈ keep
        · rw [if_pos hmem]
          refine ih _ _ h0 h1 hb hnd ?_
          intro q hq
          rcases List.mem_cons.1 hq with rfl | hq2
          · exact he
          · rcases List.mem_cons.1 hq2 with rfl | hq3
            · exact hb _ hmem
            · exact hst q (by simp [hq3])
        · rw [if_neg hmem]
          have hm2 : (rdpScan points s e).2 < points.length := by
            rcases rdpScan_snd points s e with hz | ⟨_, hlt⟩
            · omega
            · omega
          refine ih _ _ (by simp [h0]) (by simp [h1]) ?_ ?_ ?_
          · intro i hi
            rcases List.mem_cons.1 hi with rfl | hi2
            · exact hm2
            · exact hb i hi2
          · exact List.nodup_cons.2 ⟨hmem, hnd⟩
          · intro q hq
            rcases List.mem_cons.1 hq with rfl | hq2
            · exact he
            · rcases List.mem_cons.1 hq2 with rfl | hq3
              · exact hm2
              · exact hst q (by simp [hq3])
      · exact ih rest keep h0 h1 hb hnd (fun q hq => hst q (by simp [hq]))

/-- A list holding two distinct members has at least two elements. -/
theorem two_mem_length {l : List ℕ} {a b : ℕ} (ha : a ∈ l) (hb : b ∈ l)
    (hab : a ≠ b) : 2 ≤ l.length := by
  cases l with
  | nil => simp at ha
  | cons x t =>
    cases t with
    | nil =>
      simp at ha hb
      omega
    | cons y u => simp [Nat.succ_le_succ]

/-- C4 (amended): for every input polyline with at least 2 points and
every tolerance ε ≥ 0, `simplifyPolyline` returns a subsequence of the
input's points, retains the input's first and last points, and never
returns fewer than 2 points.  (A 0- or 1-point input is returned
unchanged, so the 2-point floor fails only for such degenerate inputs.) -/
theorem C4_simplify_amended (points : List Point) (epsilon : ℚ)
    (_hε : 0 ≤ epsilon) (h2 : 2 ≤ points.length) :
    (simplifyPolyline points epsilon).Sublist points ∧
    (simplifyPolyline points epsilon).head? = points.head? ∧
    (simplifyPolyline points epsilon).getLast? = points.getLast? ∧
    2 ≤ (simplifyPolyline points epsilon).length := by
  by_cases hlen : points.length < 3
  · rw [simplifyPolyline, if_pos hlen]
    exact ⟨List.Sublist.refl _, rfl, rfl, h2⟩
  · rw [simplifyPolyline, if_neg hlen]
    push_neg at hlen
    have hinv := rdpLoop_inv points epsilon (2 * points.length)
      [(0, points.length - 1)] [0, points.length - 1]
      (by simp) (by simp) ?_ ?_ ?_
    rotate_left
    · intro i hi
      rcases List.mem_cons.1 hi with rfl | hi2
      · omega
      · simp at hi2
        omega
    · simp
      omega
    · intro q hq
      rcases List.mem_cons.1 hq with rfl | hq2
      · show points.length - 1 < points.length
        omega
      · simp at hq2
    obtain ⟨hk0, hk1, hkb, hknd⟩ := hinv
    set keep := rdpLoop points epsilon (2 * points.length)
      [(0, points.length - 1)] [0, points.length - 1] with hkeep
    have hperm : List.Perm (keep.insertionSort (· ≤ ·)) keep :=
      List.perm_insertionSort _ _
    have hLmem : ∀ i : ℕ, i ∈ keep.insertionSort (· ≤ ·) ↔ i ∈ keep :=
      fun i => hperm.mem_iff
    have hsle : (keep.insertionSort (· ≤ ·)).Sorted (· ≤ ·) :=
      List.sorted_insertionSort _ _
    have hslt : (keep.insertionSort (· ≤ ·)).Sorted (· < ·) := by
      have hnd : (keep.insertionSort (· ≤ ·)).Nodup := hperm.nodup_iff.2 hknd
      exact List.Pairwise.imp₂ (fun a b hle hne => lt_of_le_of_ne hle hne) hsle hnd
    have hLb : ∀ i ∈ keep.insertionSort (· ≤ ·), i < points.length :=
      fun i hi => hkb i ((hLmem i).1 hi)
    have hL0 : 0 ∈ keep.insertionSort (· ≤ ·) := (hLmem 0).2 hk0
    have hL1 : points.length - 1 ∈ keep.insertionSort (· ≤ ·) := (hLmem _).2 hk1
    refine ⟨?_, ?_, ?_, ?_⟩
    · exact sorted_map_getD_sublist _ points (0, 0) hslt hLb
    · rw [List.head?_map, sorted_head?_min _ hsle 0 hL0 (fun i _ => Nat.zero_le i)]
      rw [List.head?_eq_getElem?, List.getElem?_eq_getElem (by omega : 0 < points.length)]
      simp only [Option.map_some']
      rw [Option.some_inj]
      exact List.getD_eq_getElem points (0, 0) (by omega)
    · rw [List.getLast?_map, sorted_getLast?_max _ hsle (points.length - 1) hL1
        (fun i hi => by have := hLb i hi; omega)]
      rw [List.getLast?_eq_getElem?, List.getElem?_eq_getElem (by omega : points.length - 1 < points.length)]
      simp only [Option.map_some']
      rw [Option.some_inj]
      exact List.getD_eq_getElem points (0, 0) (by omega)
    · rw [List.length_map]
      exact two_mem_length hL0 hL1 (by omega)

/-- C4 counterexample: the claim's 2-point floor fails for a degenerate
1-point input, which `simplifyPolyline` returns unchanged. -/
theorem C4_counterexample : (simplifyPolyline [((0 : ℚ), (0 : ℚ))] 0).length < 2 := by
  decide

/-- C4 witness: the amended guarantees at a concrete 3-point polyline with
ε = 0. -/
theorem C4_simplify_witness :
    (0 : ℚ) ≤ 0 ∧ 2 ≤ ([((0 : ℚ), (0 : ℚ)), (1, 1), (2, 0)] : List Point).length ∧
    2 ≤ (simplifyPolyline [((0 : ℚ), (0 : ℚ)), (1, 1), (2, 0)] 0).length :=
  ⟨le_refl 0, by decide,
    (C4_simplify_amended [((0 : ℚ), (0 : ℚ)), (1, 1), (2, 0)] 0 (le_refl 0) (by decide)).2.2.2⟩

/-! ### C6: `buildBezierPath` at smoothing 0 -/

/-- `fx2` output uses only sign, point and digit characters. -/
theorem fx2_chars (q : ℚ) : ∀ c ∈ (fx2 q).data, c ∈ pathLineChars := by
  intro c hc
  rcases ratFixed_chars 2 q c hc with rfl | rfl | h
  · decide
  · decide
  · have : ∀ d ∈ digitChars, d ∈ pathLineChars := by decide
    exact this c h

/-- The `L`-segment builder only appends allowed characters. -/
theorem lineSegs_chars :
    ∀ (pts : List Point) (d : String), (∀ c ∈ d.data, c ∈ pathLineChars) →
      ∀ c ∈ (pts.foldl (fun d p => d ++ " L " ++ fx2 p.1 ++ " " ++ fx2 p.2) d).data,
        c ∈ pathLineChars := by
  intro pts
  induction pts with
  | nil => intro d hd c hc; exact hd c hc
  | cons p t ih =>
    intro d hd c hc
    refine ih _ ?_ c hc
    intro c hc
    have hsplit : (d ++ " L " ++ fx2 p.1 ++ " " ++ fx2 p.2).data
        = d.data ++ (" L ").data ++ (fx2 p.1).data ++ (" ").data ++ (fx2 p.2).data := rfl
    rw [hsplit] at hc
    rcases List.mem_append.1 hc with hc | hc
    · rcases List.mem_append.1 hc with hc | hc
      · rcases List.mem_append.1 hc with hc | hc
        · rcases List.mem_append.1 hc with hc | hc
          · exact hd c hc
          · have : ∀ x ∈ (" L ").data, x ∈ pathLineChars := by decide
            exact this c hc
        · exact fx2_chars _ c hc
      · have : ∀ x ∈ (" ").data, x ∈ pathLineChars := by decide
        exact this c hc
    · exact fx2_chars _ c hc

unseal Rat.mul Rat.add Rat.sub Rat.inv Rat.ofScientific in
/-- C6 counterexample: `buildBezierPath` on 3 collinear points at
smoothing 0 yields `""` (the ε = 0.4 simplification collapses them to 2
points), not an `M`/`L`/`Z` path, so the claim fails for such polygons
with at least 3 points. -/
theorem C6_counterexample :
    buildBezierPath [((0 : ℚ), (0 : ℚ)), (1, 0), (2, 0)] 2000 0 = "" := by
  decide

/-- C6 (amended): at vector-smoothing 0 `buildBezierPath` returns either
`""` (when fewer than 3 points survive simplification) or a path that
starts with a move command `M`, ends with the close command `Z`, contains
no cubic command `C`, and consists only of move/line/close commands with
numeric arguments. -/
theorem C6_lines_amended (points : List Point) (maxPoints : ℕ) :
    buildBezierPath points maxPoints 0 = "" ∨
    ((buildBezierPath points maxPoints 0).data.head? = some 'M' ∧
     (buildBezierPath points maxPoints 0).data.getLast? = some 'Z' ∧
     'C' ∉ (buildBezierPath points maxPoints 0).data ∧
     ∀ c ∈ (buildBezierPath points maxPoints 0).data, c ∈ pathLineChars) := by
  rw [buildBezierPath]
  by_cases h3 : points.length < 3
  · rw [if_pos h3]
    exact Or.inl rfl
  · rw [if_neg h3]
    simp only [reduceIte]
    by_cases h4 : (capPoints (simplifyPolyline points 0.4) maxPoints).length < 3
    · rw [if_pos h4]
      exact Or.inl rfl
    · rw [if_neg h4]
      right
      set processed := capPoints (simplifyPolyline points 0.4) maxPoints with hp
      set p0 := processed.getD 0 (0, 0) with hp0
      have hdata : (("M " ++ fx2 p0.1 ++ " " ++ fx2 p0.2)
          ++ lineSegs (processed.drop 1) ++ " Z").data
          = 'M' :: ' ' :: ((fx2 p0.1).data ++ (" ").data ++ (fx2 p0.2).data
            ++ (lineSegs (processed.drop 1)).data ++ [' ', 'Z']) := by
        show ((("M " ++ fx2 p0.1 ++ " " ++ fx2 p0.2)
          ++ lineSegs (processed.drop 1)) ++ " Z").data = _
        have : ∀ a b : String, (a ++ b).data = a.data ++ b.data := fun a b => rfl
        rw [this, this, this, this, this]
        simp [List.append_assoc]
      have hallowed : ∀ c ∈ (("M " ++ fx2 p0.1 ++ " " ++ fx2 p0.2)
          ++ lineSegs (processed.drop 1) ++ " Z").data, c ∈ pathLineChars := by
        rw [hdata]
        intro c hc
        rcases List.mem_cons.1 hc with rfl | hc
        · decide
        · rcases List.mem_cons.1 hc with rfl | hc
          · decide
          · rcases List.mem_append.1 hc with hc | hc
            · rcases List.mem_append.1 hc with hc | hc
              · rcases List.mem_append.1 hc with hc | hc
                · rcases List.mem_append.1 hc with hc | hc
                  · exact fx2_chars _ c hc
                  · have : ∀ x ∈ (" ").data, x ∈ pathLineChars := by decide
                    exact this c hc
                · exact fx2_chars _ c hc
              · exact lineSegs_chars (processed.drop 1) "" (by simp [String.data]) c hc
            · rcases List.mem_cons.1 hc with rfl | hc
              · decide
              · rcases List.mem_cons.1 hc with rfl | hc
                · decide
                · simp at hc
      refine ⟨?_, ?_, ?_, hallowed⟩
      · rw [hdata]
        rfl
      · rw [hdata]
        have : ∀ (l : List Char), (('M' : Char) :: ' ' :: (l ++ [' ', 'Z'])).getLast? = some 'Z' := by
          intro l
          rw [List.getLast?_cons_cons]
          induction l with
          | nil => rfl
          | cons a t ih =>
            cases t with
            | nil => simp
            | cons b u =>
              rw [List.cons_append, List.getLast?_cons_cons]
              simpa using ih
        simpa [List.append_assoc] using this
          ((fx2 p0.1).data ++ (" ").data ++ (fx2 p0.2).data ++ (lineSegs (processed.drop 1)).data)
      · intro hC
        have := hallowed 'C' hC
        revert this
        decide

/-! ### C1 groundwork: grid access and the cell enumeration -/

theorem getD_set_self {α : Type} (l : List α) (i : ℕ) (v d : α) (h : i < l.length) :
    (l.set i v).getD i d = v := by
  rw [List.getD_eq_getElem?_getD, List.getElem?_set_self (by simpa using h)]
  rfl

theorem getD_set_ne {α : Type} (l : List α) (i j : ℕ) (v d : α) (h : j ≠ i) :
    (l.set i v).getD j d = l.getD j d := by
  rw [List.getD_eq_getElem?_getD, List.getElem?_set_ne (by omega),
    ← List.getD_eq_getElem?_getD]

theorem mget_mset_ne (g : MaskGrid) (y x : ℕ) (v : Bool) (y2 x2 : ℕ)
    (h : (x2, y2) ≠ (x, y)) : mget (mset g y x v) y2 x2 = mget g y2 x2 := by
  unfold mget mset
  by_cases hy : y2 = y
  · have hx : x2 ≠ x := fun hxx => h (by rw [hxx, hy])
    subst hy
    by_cases hl : y2 < g.length
    · rw [getD_set_self _ _ _ _ hl, getD_set_ne _ _ _ _ _ hx]
    · rw [List.set_eq_of_length_le (le_of_not_lt hl)]
  · rw [getD_set_ne _ _ _ _ _ hy]

theorem mget_mset_self (g : MaskGrid) (w h : ℕ) (y x : ℕ) (v : Bool)
    (hsz : gridSized g w h) (hx : x < w) (hy : y < h) :
    mget (mset g y x v) y x = v := by
  unfold mget mset
  have hyl : y < g.length := by rw [hsz.1]; exact hy
  rw [getD_set_self _ _ _ _ hyl, getD_set_self]
  have hrow : g.getD y [] ∈ g := by
    rw [List.getD_eq_getElem?_getD, List.getElem?_eq_getElem hyl]
    exact List.getElem_mem hyl
  rw [hsz.2 _ hrow]
  exact hx

theorem sized_mset {α : Type} (g : List (List α)) (w h y x : ℕ) (v : α)
    (hsz : gridSized g w h) :
    gridSized (g.set y ((g.getD y []).set x v)) w h := by
  by_cases hy : y < g.length
  · refine ⟨by simpa using hsz.1, ?_⟩
    intro r hr
    rcases List.mem_or_eq_of_mem_set hr with h2 | h2
    · exact hsz.2 r h2
    · subst h2
      rw [List.length_set]
      refine hsz.2 _ ?_
      rw [List.getD_eq_getElem?_getD, List.getElem?_eq_getElem hy]
      exact List.getElem_mem hy
  · rw [List.set_eq_of_length_le (le_of_not_lt hy)]
    exact hsz

theorem sized_fillGrid (w h : ℕ) (v : Bool) : gridSized (fillGrid w h v) w h := by
  constructor
  · simp [fillGrid]
  · intro r hr
    rw [fillGrid] at hr
    rw [List.eq_of_mem_replicate hr]
    simp

theorem mget_fillGrid (w h : ℕ) (v : Bool) (y x : ℕ) :
    mget (fillGrid w h v) y x = if y < h ∧ x < w then v else false := by
  unfold mget fillGrid
  have houter : (List.replicate h (List.replicate w v)).getD y []
      = if y < h then List.replicate w v else [] := by
    rw [List.getD_eq_getElem?_getD, List.getElem?_replicate]
    by_cases hy : y < h
    · simp [hy]
    · simp [hy]
  rw [houter]
  by_cases hy : y < h
  · rw [if_pos hy, List.getD_eq_getElem?_getD, List.getElem?_replicate]
    by_cases hx : x < w
    · simp [hy, hx]
    · simp [hy, hx]
  · rw [if_neg hy]
    simp [hy]

theorem lget_lset_ne (g : IntGrid) (y x : ℕ) (v : ℤ) (y2 x2 : ℕ)
    (h : (x2, y2) ≠ (x, y)) : lget (lset g y x v) y2 x2 = lget g y2 x2 := by
  unfold lget lset
  by_cases hy : y2 = y
  · have hx : x2 ≠ x := fun hxx => h (by rw [hxx, hy])
    subst hy
    by_cases hl : y2 < g.length
    · rw [getD_set_self _ _ _ _ hl, getD_set_ne _ _ _ _ _ hx]
    · rw [List.set_eq_of_length_le (le_of_not_lt hl)]
  · rw [getD_set_ne _ _ _ _ _ hy]

theorem lget_lset_self (g : IntGrid) (w h : ℕ) (y x : ℕ) (v : ℤ)
    (hsz : gridSized g w h) (hx : x < w) (hy : y < h) :
    lget (lset g y x v) y x = v := by
  unfold lget lset
  have hyl : y < g.length := by rw [hsz.1]; exact hy
  rw [getD_set_self _ _ _ _ hyl, getD_set_self]
  have hrow : g.getD y [] ∈ g := by
    rw [List.getD_eq_getElem?_getD, List.getElem?_eq_getElem hyl]
    exact List.getElem_mem hyl
  rw [hsz.2 _ hrow]
  exact hx

theorem sized_fillIntGrid (w h : ℕ) (v : ℤ) : gridSized (fillIntGrid w h v) w h := by
  constructor
  · simp [fillIntGrid]
  · intro r hr
    rw [fillIntGrid] at hr
    rw [List.eq_of_mem_replicate hr]
    simp

theorem lget_fillIntGrid (w h : ℕ) (v : ℤ) (y x : ℕ) :
    lget (fillIntGrid w h v) y x = if y < h ∧ x < w then v else 0 := by
  unfold lget fillIntGrid
  have houter : (List.replicate h (List.replicate w v)).getD y []
      = if y < h then List.replicate w v else [] := by
    rw [List.getD_eq_getElem?_getD, List.getElem?_replicate]
    by_cases hy : y < h
    · simp [hy]
    · simp [hy]
  rw [houter]
  by_cases hy : y < h
  · rw [if_pos hy, List.getD_eq_getElem?_getD, List.getElem?_replicate]
    by_cases hx : x < w
    · simp [hy, hx]
    · simp [hy, hx]
  · rw [if_neg hy]
    simp [hy]

/-! ### The row-major cell enumeration -/

theorem cellsRowMajor_succ (w h : ℕ) :
    cellsRowMajor w (h + 1)
      = cellsRowMajor w h ++ (List.range w).map (fun x => (x, h)) := by
  unfold cellsRowMajor
  rw [List.range_succ, List.flatMap_append]
  simp

theorem mem_cellsRowMajor (w h : ℕ) (c : ℕ × ℕ) :
    c ∈ cellsRowMajor w h ↔ c.1 < w ∧ c.2 < h := by
  unfold cellsRowMajor
  simp only [List.mem_flatMap, List.mem_map, List.mem_range]
  constructor
  · rintro ⟨y, hy, x, hx, rfl⟩
    exact ⟨hx, hy⟩
  · rintro ⟨h1, h2⟩
    exact ⟨c.2, h2, c.1, h1, rfl⟩

theorem cellsRowMajor_nodup (w h : ℕ) : (cellsRowMajor w h).Nodup := by
  induction h with
  | zero => simp [cellsRowMajor]
  | succ k ih =>
    rw [cellsRowMajor_succ]
    refine List.Nodup.append ih ?_ ?_
    · exact List.Nodup.map (fun a b hab => by simpa using congrArg Prod.fst hab)
        (List.nodup_range w)
    · intro c hc1 hc2
      rcases List.mem_map.1 hc2 with ⟨x, _, rfl⟩
      have := (mem_cellsRowMajor w k (x, k)).1 hc1
      omega

/-! ### Counting unmarked cells (the BFS fuel measure) -/

/-- Changing a list at exactly one member that flips the predicate from
true to false drops the filter length by one. -/
theorem filter_length_flip {α : Type} [DecidableEq α] :
    ∀ (l : List α), l.Nodup → ∀ (a : α), a ∈ l → ∀ (p q : α → Bool),
      (∀ b ∈ l, b ≠ a → p b = q b) → p a = true → q a = false →
      (l.filter p).length = (l.filter q).length + 1 := by
  intro l
  induction l with
  | nil => intro _ a ha; simp at ha
  | cons hd t ih =>
    intro hnd a ha p q hpq hpa hqa
    rcases List.mem_cons.1 ha with rfl | hat
    · have hanotin : a ∉ t := (List.nodup_cons.1 hnd).1
      have hfilter : t.filter p = t.filter q :=
        List.filter_congr (fun b hb => hpq b (by simp [hb]) (fun hba => hanotin (hba ▸ hb)))
      simp [List.filter_cons, hpa, hqa, hfilter]
    · have hhd : hd ≠ a := fun hha => (List.nodup_cons.1 hnd).1 (hha ▸ hat)
      have hih := ih (List.nodup_cons.1 hnd).2 a hat p q
        (fun b hb hba => hpq b (by simp [hb]) hba) hpa hqa
      rw [List.filter_cons, List.filter_cons, hpq hd (by simp) hhd]
      by_cases hq : q hd = true
      · simp [hq, hih]
      · simp [hq, hih]

theorem unmarkedCount_mset (w h : ℕ) (vis : MaskGrid) (x y : ℕ)
    (hsz : gridSized vis w h) (hx : x < w) (hy : y < h)
    (hunm : mget vis y x = false) :
    unmarkedCount w h vis = unmarkedCount w h (mset vis y x true) + 1 := by
  unfold unmarkedCount
  refine filter_length_flip _ (cellsRowMajor_nodup w h) (x, y)
    ((mem_cellsRowMajor w h (x, y)).2 ⟨hx, hy⟩) _ _ ?_ ?_ ?_
  · intro b _ hb
    simp only [decide_eq_true_eq, decide_eq_decide]
    rw [mget_mset_ne vis y x true b.2 b.1 (fun hbe => hb (by
      have h1 : b.1 = x := congrArg Prod.fst hbe
      have h2 : b.2 = y := congrArg Prod.snd hbe
      exact Prod.ext h1 h2))]
  · simp [hunm]
  · simp [mget_mset_self vis w h y x true hsz hx hy]

theorem cellsRowMajor_length (w h : ℕ) : (cellsRowMajor w h).length = w * h := by
  induction h with
  | zero => simp [cellsRowMajor]
  | succ k ih =>
    rw [cellsRowMajor_succ]
    simp [ih]
    ring

theorem unmarkedCount_lt (w h : ℕ) (vis : MaskGrid) (x y : ℕ)
    (hx : x < w) (hy : y < h) (hmk : mget vis y x = true) :
    unmarkedCount w h vis < w * h := by
  have hmem : (x, y) ∈ cellsRowMajor w h := (mem_cellsRowMajor w h (x, y)).2 ⟨hx, hy⟩
  have hlt : ((cellsRowMajor w h).filter (fun c => ¬ mget vis c.2 c.1)).length
      < (cellsRowMajor w h).length := by
    rw [List.length_filter_lt_length_iff_exists]
    exact ⟨(x, y), hmem, by simp [hmk]⟩
  unfold unmarkedCount
  rw [cellsRowMajor_length] at hlt
  exact hlt

theorem unmarkedCount_le (w h : ℕ) (vis : MaskGrid) :
    unmarkedCount w h vis ≤ w * h := by
  unfold unmarkedCount
  rw [← cellsRowMajor_length w h]
  exact List.length_filter_le _ _

/-! ### Adjacency, background paths and grid connectivity -/

theorem adj4_symm {a b : ℕ × ℕ} (h : adj4 a b) : adj4 b a := by
  obtain ⟨ax, ay⟩ := a
  obtain ⟨bx, by2⟩ := b
  unfold adj4 at h ⊢
  dsimp only at h ⊢
  omega

theorem dirs4_target (cx cy w h : ℕ) (d : ℤ × ℤ) (hd : d ∈ dirs4)
    (h0 : 0 ≤ (cx : ℤ) + d.1) (h1 : 0 ≤ (cy : ℤ) + d.2)
    (h2 : (cx : ℤ) + d.1 < w) (h3 : (cy : ℤ) + d.2 < h) :
    adj4 (cx, cy) (((cx : ℤ) + d.1).toNat, ((cy : ℤ) + d.2).toNat) ∧
    inB w h (((cx : ℤ) + d.1).toNat, ((cy : ℤ) + d.2).toNat) := by
  simp only [dirs4, List.mem_cons, List.not_mem_nil, or_false] at hd
  unfold adj4 inB
  rcases hd with rfl | rfl | rfl | rfl <;> dsimp only <;> constructor <;> omega

theorem adj4_mem_dirs4 (cx cy : ℕ) (e : ℕ × ℕ) (hadj : adj4 (cx, cy) e) :
    ∃ d ∈ dirs4, (cx : ℤ) + d.1 = (e.1 : ℤ) ∧ (cy : ℤ) + d.2 = (e.2 : ℤ) := by
  obtain ⟨ex, ey⟩ := e
  unfold adj4 at hadj
  dsimp only at hadj ⊢
  rcases hadj with ⟨hx, hy | hy⟩ | ⟨hy, hx | hx⟩
  · exact ⟨(0, 1), by simp [dirs4], by omega, by omega⟩
  · exact ⟨(0, -1), by simp [dirs4], by omega, by omega⟩
  · exact ⟨(1, 0), by simp [dirs4], by omega, by omega⟩
  · exact ⟨(-1, 0), by simp [dirs4], by omega, by omega⟩

theorem bgStep_symm (m : MaskGrid) (w h : ℕ) {a b : ℕ × ℕ}
    (hs : bgStep m w h a b) : bgStep m w h b a := by
  obtain ⟨h1, h2, h3, h4, h5⟩ := hs
  exact ⟨adj4_symm h1, h3, h2, h5, h4⟩

theorem rtg_bgStep_symm (m : MaskGrid) (w h : ℕ) {a b : ℕ × ℕ}
    (hp : Relation.ReflTransGen (bgStep m w h) a b) :
    Relation.ReflTransGen (bgStep m w h) b a := by
  induction hp with
  | refl => exact Relation.ReflTransGen.refl
  | tail _ hstep ih =>
    exact Relation.ReflTransGen.trans
      (Relation.ReflTransGen.single (bgStep_symm m w h hstep)) ih

theorem bgReach_tail {m : MaskGrid} {w h : ℕ} {a b : ℕ × ℕ}
    (hr : bgReach m w h a) (hs : bgStep m w h a b) : bgReach m w h b := by
  obtain ⟨s, h1, h2, h3, h4⟩ := hr
  exact ⟨s, h1, h2, h3, h4.tail hs⟩

theorem bgReach_trans {m : MaskGrid} {w h : ℕ} {a c : ℕ × ℕ}
    (hr : bgReach m w h a) (hp : Relation.ReflTransGen (bgStep m w h) a c) :
    bgReach m w h c := by
  obtain ⟨s, h1, h2, h3, h4⟩ := hr
  exact ⟨s, h1, h2, h3, h4.trans hp⟩

theorem bgReach_bgAt {m : MaskGrid} {w h : ℕ} {c : ℕ × ℕ}
    (hr : bgReach m w h c) : inB w h c ∧ mget m c.2 c.1 = false := by
  obtain ⟨s, _, h2, h3, h4⟩ := hr
  induction h4 with
  | refl => exact ⟨h2, h3⟩
  | tail _ hstep _ => exact ⟨hstep.2.2.1, hstep.2.2.2.2⟩

theorem bgReach_mono {m1 m2 : MaskGrid} {w h : ℕ}
    (hmono : ∀ x y, mget m1 y x = false → mget m2 y x = false) {c : ℕ × ℕ}
    (hr : bgReach m1 w h c) : bgReach m2 w h c := by
  obtain ⟨s, h1, h2, h3, h4⟩ := hr
  refine ⟨s, h1, h2, hmono _ _ h3, Relation.ReflTransGen.mono ?_ h4⟩
  intro a b hs
  exact ⟨hs.1, hs.2.1, hs.2.2.1, hmono _ _ hs.2.2.2.1, hmono _ _ hs.2.2.2.2⟩

/-- Any two in-bounds cells are connected through in-bounds cells (the
grid graph, mask ignored, is connected). -/
theorem grid_connected (w h : ℕ) (a b : ℕ × ℕ) (ha : inB w h a) (hb : inB w h b) :
    Relation.ReflTransGen (fun p q => adj4 p q ∧ inB w h p ∧ inB w h q) a b := by
  have hsym : ∀ p q, (adj4 p q ∧ inB w h p ∧ inB w h q) →
      (adj4 q p ∧ inB w h q ∧ inB w h p) :=
    fun p q hs => ⟨adj4_symm hs.1, hs.2.2, hs.2.1⟩
  have hsymrtg : ∀ p q, Relation.ReflTransGen (fun p q => adj4 p q ∧ inB w h p ∧ inB w h q) p q →
      Relation.ReflTransGen (fun p q => adj4 p q ∧ inB w h p ∧ inB w h q) q p := by
    intro p q hp
    induction hp with
    | refl => exact Relation.ReflTransGen.refl
    | tail _ hstep ih =>
      exact Relation.ReflTransGen.trans
        (Relation.ReflTransGen.single (hsym _ _ hstep)) ih
  have hwalkx : ∀ (y : ℕ), y < h → ∀ (x k : ℕ), x + k < w →
      Relation.ReflTransGen (fun p q => adj4 p q ∧ inB w h p ∧ inB w h q)
        (x, y) (x + k, y) := by
    intro y hy x k
    induction k with
    | zero => intro _; exact Relation.ReflTransGen.refl
    | succ n ih =>
      intro hk
      refine Relation.ReflTransGen.tail (ih (by omega)) ?_
      refine ⟨?_, ⟨by omega, hy⟩, ⟨by omega, hy⟩⟩
      unfold adj4
      dsimp only
      omega
  have hwalky : ∀ (x : ℕ), x < w → ∀ (y k : ℕ), y + k < h →
      Relation.ReflTransGen (fun p q => adj4 p q ∧ inB w h p ∧ inB w h q)
        (x, y) (x, y + k) := by
    intro x hx y k
    induction k with
    | zero => intro _; exact Relation.ReflTransGen.refl
    | succ n ih =>
      intro hk
      refine Relation.ReflTransGen.tail (ih (by omega)) ?_
      refine ⟨?_, ⟨hx, by omega⟩, ⟨hx, by omega⟩⟩
      unfold adj4
      dsimp only
      omega
  obtain ⟨ax, ay⟩ := a
  obtain ⟨bx, by2⟩ := b
  obtain ⟨hax, hay⟩ := ha
  obtain ⟨hbx, hby⟩ := hb
  have hhor : Relation.ReflTransGen (fun p q => adj4 p q ∧ inB w h p ∧ inB w h q)
      (ax, ay) (bx, ay) := by
    rcases le_or_lt ax bx with hle | hlt
    · have := hwalkx ay hay ax (bx - ax) (by omega)
      simpa [Nat.add_sub_cancel' hle] using this
    · have := hwalkx ay hay bx (ax - bx) (by omega)
      refine hsymrtg _ _ ?_
      simpa [Nat.add_sub_cancel' (le_of_lt hlt)] using this
  have hver : Relation.ReflTransGen (fun p q => adj4 p q ∧ inB w h p ∧ inB w h q)
      (bx, ay) (bx, by2) := by
    rcases le_or_lt ay by2 with hle | hlt
    · have := hwalky bx hbx ay (by2 - ay) (by omega)
      simpa [Nat.add_sub_cancel' hle] using this
    · have := hwalky bx hbx by2 (ay - by2) (by omega)
      refine hsymrtg _ _ ?_
      simpa [Nat.add_sub_cancel' (le_of_lt hlt)] using this
  exact hhor.trans hver

/-! ### The border flood fill: soundness, closure, completeness -/

theorem floodStep_spec (m : MaskGrid) (w h cx cy : ℕ)
    (st : MaskGrid × List (ℕ × ℕ)) (d : ℤ × ℤ) (hd : d ∈ dirs4)
    (hsz : gridSized st.1 w h) :
    gridSized (floodStep m w h cx cy st d).1 w h ∧
    (∀ y x, mget st.1 y x = true → mget (floodStep m w h cx cy st d).1 y x = true) ∧
    (∀ y x, mget (floodStep m w h cx cy st d).1 y x = true →
      mget st.1 y x = true ∨
        (adj4 (cx, cy) (x, y) ∧ inB w h (x, y) ∧ mget m y x = false)) ∧
    (∀ e : ℕ × ℕ, (cx : ℤ) + d.1 = e.1 → (cy : ℤ) + d.2 = e.2 → inB w h e →
      mget m e.2 e.1 = false → mget (floodStep m w h cx cy st d).1 e.2 e.1 = true) ∧
    (∀ c ∈ (floodStep m w h cx cy st d).2, c ∈ st.2 ∨
      (adj4 (cx, cy) c ∧ inB w h c ∧ mget m c.2 c.1 = false ∧
        mget (floodStep m w h cx cy st d).1 c.2 c.1 = true)) ∧
    unmarkedCount w h (floodStep m w h cx cy st d).1 + (floodStep m w h cx cy st d).2.length
      = unmarkedCount w h st.1 + st.2.length := by
  unfold floodStep
  by_cases hbnd : 0 ≤ (cx : ℤ) + d.1 ∧ 0 ≤ (cy : ℤ) + d.2 ∧
      (cx : ℤ) + d.1 < (w : ℤ) ∧ (cy : ℤ) + d.2 < (h : ℤ)
  · rw [if_pos hbnd]
    obtain ⟨hb0, hb1, hb2, hb3⟩ := hbnd
    have htgt := dirs4_target cx cy w h d hd hb0 hb1 hb2 hb3
    set tx := ((cx : ℤ) + d.1).toNat with htx
    set ty := ((cy : ℤ) + d.2).toNat with hty
    have htxw : tx < w := htgt.2.1
    have htyh : ty < h := htgt.2.2
    by_cases hnew : ¬ mget m ty tx ∧ ¬ mget st.1 ty tx
    · rw [if_pos hnew]
      dsimp only
      have hszb : gridSized (mset st.1 ty tx true) w h := sized_mset _ _ _ _ _ _ hsz
      refine ⟨hszb, ?_, ?_, ?_, ?_, ?_⟩
      · intro y x hm
        by_cases hc : (x, y) = (tx, ty)
        · rw [show x = tx from congrArg Prod.fst hc, show y = ty from congrArg Prod.snd hc,
            mget_mset_self st.1 w h ty tx true hsz htxw htyh]
        · rw [mget_mset_ne st.1 ty tx true y x hc]
          exact hm
      · intro y x hm
        by_cases hc : (x, y) = (tx, ty)
        · right
          rw [show x = tx from congrArg Prod.fst hc, show y = ty from congrArg Prod.snd hc]
          exact ⟨htgt.1, htgt.2, by simpa using hnew.1⟩
        · rw [mget_mset_ne st.1 ty tx true y x hc] at hm
          exact Or.inl hm
      · intro e he1 he2 _ _
        have hex : e.1 = tx := by omega
        have hey : e.2 = ty := by omega
        rw [hex, hey, mget_mset_self st.1 w h ty tx true hsz htxw htyh]
      · intro c hc
        rcases List.mem_append.1 hc with hc | hc
        · exact Or.inl hc
        · right
          rw [List.mem_singleton.1 hc]
          exact ⟨htgt.1, htgt.2, by simpa using hnew.1,
            mget_mset_self st.1 w h ty tx true hsz htxw htyh⟩
      · rw [List.length_append, List.length_singleton,
          unmarkedCount_mset w h st.1 tx ty hsz htxw htyh (by simpa using hnew.2)]
        omega
    · rw [if_neg hnew]
      push_neg at hnew
      refine ⟨hsz, fun y x hm => hm, fun y x hm => Or.inl hm, ?_,
        fun c hc => Or.inl hc, rfl⟩
      intro e he1 he2 _ hbg
      have hex : e.1 = tx := by omega
      have hey : e.2 = ty := by omega
      rw [hex, hey]
      rw [hex, hey] at hbg
      exact hnew (by simpa using hbg)
  · rw [if_neg hbnd]
    refine ⟨hsz, fun y x hm => hm, fun y x hm => Or.inl hm, ?_,
      fun c hc => Or.inl hc, rfl⟩
    intro e he1 he2 hin _
    obtain ⟨hiw, hih⟩ := hin
    exact absurd ⟨by omega, by omega, by omega, by omega⟩ hbnd

/-- The full neighbour fold of one flood pop. -/
theorem floodFold_spec (m : MaskGrid) (w h cx cy : ℕ) :
    ∀ (ds : List (ℤ × ℤ)), (∀ d ∈ ds, d ∈ dirs4) →
    ∀ (st : MaskGrid × List (ℕ × ℕ)), gridSized st.1 w h →
    gridSized (ds.foldl (floodStep m w h cx cy) st).1 w h ∧
    (∀ y x, mget st.1 y x = true →
      mget (ds.foldl (floodStep m w h cx cy) st).1 y x = true) ∧
    (∀ y x, mget (ds.foldl (floodStep m w h cx cy) st).1 y x = true →
      mget st.1 y x = true ∨
        (adj4 (cx, cy) (x, y) ∧ inB w h (x, y) ∧ mget m y x = false)) ∧
    (∀ e : ℕ × ℕ, (∃ d ∈ ds, (cx : ℤ) + d.1 = e.1 ∧ (cy : ℤ) + d.2 = e.2) →
      inB w h e → mget m e.2 e.1 = false →
      mget (ds.foldl (floodStep m w h cx cy) st).1 e.2 e.1 = true) ∧
    (∀ c ∈ (ds.foldl (floodStep m w h cx cy) st).2, c ∈ st.2 ∨
      (adj4 (cx, cy) c ∧ inB w h c ∧ mget m c.2 c.1 = false ∧
        mget (ds.foldl (floodStep m w h cx cy) st).1 c.2 c.1 = true)) ∧
    unmarkedCount w h (ds.foldl (floodStep m w h cx cy) st).1
        + (ds.foldl (floodStep m w h cx cy) st).2.length
      = unmarkedCount w h st.1 + st.2.length := by
  intro ds
  induction ds with
  | nil =>
    intro _ st hsz
    exact ⟨hsz, fun y x hm => hm, fun y x hm => Or.inl hm,
      fun e he _ _ => absurd he (by simp), fun c hc => Or.inl hc, rfl⟩
  | cons d ds ih =>
    intro hds st hsz
    have hd : d ∈ dirs4 := hds d (by simp)
    have hstep := floodStep_spec m w h cx cy st d hd hsz
    have hrest := ih (fun e he => hds e (by simp [he])) (floodStep m w h cx cy st d) hstep.1
    rw [List.foldl_cons]
    refine ⟨hrest.1, ?_, ?_, ?_, ?_, ?_⟩
    · intro y x hm
      exact hrest.2.1 y x (hstep.2.1 y x hm)
    · intro y x hm
      rcases hrest.2.2.1 y x hm with hm2 | hm2
      · exact hstep.2.2.1 y x hm2
      · exact Or.inr hm2
    · intro e he hin hbg
      rcases he with ⟨d2, hd2, he1, he2⟩
      rcases List.mem_cons.1 hd2 with rfl | hd2t
      · exact hrest.2.1 e.2 e.1 (hstep.2.2.2.1 e he1 he2 hin hbg)
      · exact hrest.2.2.2.1 e ⟨d2, hd2t, he1, he2⟩ hin hbg
    · intro c hc
      rcases hrest.2.2.2.2.1 c hc with hc2 | hc2
      · rcases hstep.2.2.2.2.1 c hc2 with hc3 | hc3
        · exact Or.inl hc3
        · exact Or.inr ⟨hc3.1, hc3.2.1, hc3.2.2.1, hrest.2.1 c.2 c.1 hc3.2.2.2⟩
      · exact Or.inr hc2
    · rw [hrest.2.2.2.2.2, hstep.2.2.2.2.2]

theorem floodStep_queue_mono (m : MaskGrid) (w h cx cy : ℕ)
    (st : MaskGrid × List (ℕ × ℕ)) (d : ℤ × ℤ) :
    ∀ c ∈ st.2, c ∈ (floodStep m w h cx cy st d).2 := by
  intro c hc
  unfold floodStep
  by_cases hbnd : 0 ≤ (cx : ℤ) + d.1 ∧ 0 ≤ (cy : ℤ) + d.2 ∧
      (cx : ℤ) + d.1 < (w : ℤ) ∧ (cy : ℤ) + d.2 < (h : ℤ)
  · rw [if_pos hbnd]
    by_cases hnew : ¬ mget m ((cy : ℤ) + d.2).toNat ((cx : ℤ) + d.1).toNat ∧
        ¬ mget st.1 ((cy : ℤ) + d.2).toNat ((cx : ℤ) + d.1).toNat
    · rw [if_pos hnew]
      simp [hc]
    · rw [if_neg hnew]
      exact hc
  · rw [if_neg hbnd]
    exact hc

theorem floodStep_new_in_queue (m : MaskGrid) (w h cx cy : ℕ)
    (st : MaskGrid × List (ℕ × ℕ)) (d : ℤ × ℤ) :
    ∀ y x, mget (floodStep m w h cx cy st d).1 y x = true →
      mget st.1 y x = true ∨ (x, y) ∈ (floodStep m w h cx cy st d).2 := by
  intro y x
  unfold floodStep
  by_cases hbnd : 0 ≤ (cx : ℤ) + d.1 ∧ 0 ≤ (cy : ℤ) + d.2 ∧
      (cx : ℤ) + d.1 < (w : ℤ) ∧ (cy : ℤ) + d.2 < (h : ℤ)
  · rw [if_pos hbnd]
    by_cases hnew : ¬ mget m ((cy : ℤ) + d.2).toNat ((cx : ℤ) + d.1).toNat ∧
        ¬ mget st.1 ((cy : ℤ) + d.2).toNat ((cx : ℤ) + d.1).toNat
    · rw [if_pos hnew]
      dsimp only
      intro hm
      by_cases hc : (x, y) = (((cx : ℤ) + d.1).toNat, ((cy : ℤ) + d.2).toNat)
      · right
        simp [hc]
      · rw [mget_mset_ne _ _ _ _ _ _ hc] at hm
        exact Or.inl hm
    · rw [if_neg hnew]
      exact fun hm => Or.inl hm
  · rw [if_neg hbnd]
    exact fun hm => Or.inl hm

theorem floodFold_queue_mono (m : MaskGrid) (w h cx cy : ℕ) :
    ∀ (ds : List (ℤ × ℤ)) (st : MaskGrid × List (ℕ × ℕ)),
      ∀ c ∈ st.2, c ∈ (ds.foldl (floodStep m w h cx cy) st).2 := by
  intro ds
  induction ds with
  | nil => intro st c hc; exact hc
  | cons d t ih =>
    intro st c hc
    rw [List.foldl_cons]
    exact ih _ c (floodStep_queue_mono m w h cx cy st d c hc)

theorem floodFold_new_in_queue (m : MaskGrid) (w h cx cy : ℕ) :
    ∀ (ds : List (ℤ × ℤ)) (st : MaskGrid × List (ℕ × ℕ)),
      ∀ y x, mget (ds.foldl (floodStep m w h cx cy) st).1 y x = true →
        mget st.1 y x = true ∨ (x, y) ∈ (ds.foldl (floodStep m w h cx cy) st).2 := by
  intro ds
  induction ds with
  | nil => intro st y x hm; exact Or.inl hm
  | cons d t ih =>
    intro st y x hm
    rw [List.foldl_cons] at hm ⊢
    rcases ih _ y x hm with hm2 | hm2
    · rcases floodStep_new_in_queue m w h cx cy st d y x hm2 with hm3 | hm3
      · exact Or.inl hm3
      · exact Or.inr (floodFold_queue_mono m w h cx cy t _ _ hm3)
    · exact Or.inr hm2

/-- The flood loop only adds marks, and keeps the grid sized. -/
theorem bgFloodBfs_mono (m : MaskGrid) (w h : ℕ) :
    ∀ (fuel : ℕ) (q : List (ℕ × ℕ)) (vis : MaskGrid), gridSized vis w h →
      gridSized (bgFloodBfs m w h fuel q vis) w h ∧
      ∀ y x, mget vis y x = true → mget (bgFloodBfs m w h fuel q vis) y x = true := by
  intro fuel
  induction fuel with
  | zero => intro q vis hsz; exact ⟨hsz, fun y x hm => hm⟩
  | succ f ih =>
    intro q vis hsz
    cases q with
    | nil => exact ⟨hsz, fun y x hm => hm⟩
    | cons c q =>
      obtain ⟨cx, cy⟩ := c
      simp only [bgFloodBfs]
      have hfold := floodFold_spec m w h cx cy dirs4 (fun d hd => hd) (vis, []) hsz
      have := ih (q ++ (dirs4.foldl (floodStep m w h cx cy) (vis, [])).2)
        (dirs4.foldl (floodStep m w h cx cy) (vis, [])).1 hfold.1
      exact ⟨this.1, fun y x hm => this.2 y x (hfold.2.1 y x hm)⟩

/-- Flood soundness: any property that holds of all initially marked
cells and all queued cells, and propagates over background adjacency,
holds of every cell the flood marks. -/
theorem bgFloodBfs_sound (m : MaskGrid) (w h : ℕ) (P : ℕ × ℕ → Prop)
    (hP : ∀ c, P c → ∀ e, adj4 c e → inB w h e → mget m e.2 e.1 = false → P e) :
    ∀ (fuel : ℕ) (q : List (ℕ × ℕ)) (vis : MaskGrid), gridSized vis w h →
      (∀ c ∈ q, P c) →
      (∀ y x, mget vis y x = true → P (x, y)) →
      ∀ y x, mget (bgFloodBfs m w h fuel q vis) y x = true → P (x, y) := by
  intro fuel
  induction fuel with
  | zero => intro q vis _ _ hvis; exact hvis
  | succ f ih =>
    intro q vis hsz hq hvis
    cases q with
    | nil => exact hvis
    | cons c q =>
      obtain ⟨cx, cy⟩ := c
      simp only [bgFloodBfs]
      have hfold := floodFold_spec m w h cx cy dirs4 (fun d hd => hd) (vis, []) hsz
      refine ih _ _ hfold.1 ?_ ?_
      · intro e he
        rcases List.mem_append.1 he with he2 | he2
        · exact hq e (by simp [he2])
        · rcases hfold.2.2.2.2.1 e he2 with he3 | he3
          · simp at he3
          · exact hP (cx, cy) (hq (cx, cy) (by simp)) e he3.1 he3.2.1 he3.2.2.1
      · intro y x hm
        rcases hfold.2.2.1 y x hm with hm2 | hm2
        · exact hvis y x hm2
        · exact hP (cx, cy) (hq (cx, cy) (by simp)) (x, y) hm2.1 hm2.2.1 hm2.2.2

/-- Flood closure: with enough fuel (the source passes `w*h`), starting
from a queue of marked cells such that every marked cell is either
pending or already closed, every marked cell of the result has all its
in-bounds background neighbours marked. -/
theorem bgFloodBfs_closed (m : MaskGrid) (w h : ℕ) :
    ∀ (fuel : ℕ) (q : List (ℕ × ℕ)) (vis : MaskGrid), gridSized vis w h →
      (∀ c ∈ q, mget vis c.2 c.1 = true) →
      unmarkedCount w h vis + q.length ≤ fuel →
      (∀ c : ℕ × ℕ, mget vis c.2 c.1 = true → c ∈ q ∨
        (∀ e, adj4 c e → inB w h e → mget m e.2 e.1 = false →
          mget vis e.2 e.1 = true)) →
      ∀ c : ℕ × ℕ, mget (bgFloodBfs m w h fuel q vis) c.2 c.1 = true →
        ∀ e, adj4 c e → inB w h e → mget m e.2 e.1 = false →
          mget (bgFloodBfs m w h fuel q vis) e.2 e.1 = true := by
  intro fuel
  induction fuel with
  | zero =>
    intro q vis hsz hq hfuel hinv c hc e hadj hin hbg
    have hq0 : q = [] := List.length_eq_zero.1 (by omega)
    subst hq0
    rcases hinv c hc with hmem | hcl
    · simp at hmem
    · exact hcl e hadj hin hbg
  | succ f ih =>
    intro q vis hsz hq hfuel hinv
    cases q with
    | nil =>
      intro c hc e hadj hin hbg
      rcases hinv c hc with hmem | hcl
      · simp at hmem
      · exact hcl e hadj hin hbg
    | cons c0 q =>
      obtain ⟨cx, cy⟩ := c0
      simp only [bgFloodBfs]
      have hfold := floodFold_spec m w h cx cy dirs4 (fun d hd => hd) (vis, []) hsz
      set st := dirs4.foldl (floodStep m w h cx cy) (vis, []) with hst
      refine ih (q ++ st.2) st.1 hfold.1 ?_ ?_ ?_
      · intro c hc
        rcases List.mem_append.1 hc with hc2 | hc2
        · exact hfold.2.1 c.2 c.1 (hq c (by simp [hc2]))
        · rcases hfold.2.2.2.2.1 c hc2 with hc3 | hc3
          · simp at hc3
          · exact hc3.2.2.2
      · have hcount := hfold.2.2.2.2.2
        simp only [List.length_nil] at hcount
        rw [List.length_append]
        simp only [List.length_cons] at hfuel
        omega
      · intro c hc
        rcases floodFold_new_in_queue m w h cx cy dirs4 (vis, []) c.2 c.1 hc with hold | hnew
        · rcases hinv c hold with hmem | hcl
          · rcases List.mem_cons.1 hmem with rfl | hmem2
            · right
              intro e hadj hin hbg
              rcases adj4_mem_dirs4 cx cy e hadj with ⟨d, hd, he1, he2⟩
              exact hfold.2.2.2.1 e ⟨d, hd, he1, he2⟩ hin hbg
            · exact Or.inl (by simp [hmem2])
          · right
            intro e hadj hin hbg
            exact hfold.2.1 e.2 e.1 (hcl e hadj hin hbg)
        · exact Or.inl (by simp [hnew])

/-- A sized grid reads `false` outside its bounds. -/
theorem mget_oob (g : MaskGrid) (w h : ℕ) (hsz : gridSized g w h) (y x : ℕ)
    (hout : ¬ (x < w ∧ y < h)) : mget g y x = false := by
  unfold mget
  by_cases hy : y < h
  · have hl : y < g.length := by rw [hsz.1]; exact hy
    have hrow : (g.getD y []).length = w := by
      refine hsz.2 _ ?_
      rw [List.getD_eq_getElem?_getD, List.getElem?_eq_getElem hl]
      exact List.getElem_mem hl
    have hx : ¬ x < w := fun hxx => hout ⟨hxx, hy⟩
    rw [List.getD_eq_getElem?_getD (g.getD y []),
      List.getElem?_eq_none (by omega : (g.getD y []).length ≤ x)]
    rfl
  · have hrow : g.getD y [] = [] := by
      rw [List.getD_eq_getElem?_getD, List.getElem?_eq_none (by rw [hsz.1]; omega)]
      rfl
    rw [hrow]
    rfl

theorem floodSeed_mono (m : MaskGrid) (w h : ℕ) (vis : MaskGrid) (sx sy : ℕ)
    (hsz : gridSized vis w h) :
    gridSized (floodSeed m w h vis sx sy) w h ∧
    ∀ y x, mget vis y x = true → mget (floodSeed m w h vis sx sy) y x = true := by
  unfold floodSeed
  split
  · exact ⟨hsz, fun y x hm => hm⟩
  · have hsz2 : gridSized (mset vis sy sx true) w h := sized_mset _ _ _ _ _ _ hsz
    have := bgFloodBfs_mono m w h (w * h) [(sx, sy)] (mset vis sy sx true) hsz2
    refine ⟨this.1, fun y x hm => this.2 y x ?_⟩
    by_cases hc : (x, y) = (sx, sy)
    · rw [show x = sx from congrArg Prod.fst hc, show y = sy from congrArg Prod.snd hc]
      by_cases hin : sx < w ∧ sy < h
      · exact mget_mset_self vis w h sy sx true hsz hin.1 hin.2
      · exfalso
        rw [show x = sx from congrArg Prod.fst hc,
          show y = sy from congrArg Prod.snd hc] at hm
        rw [mget_oob vis w h hsz sy sx hin] at hm
        simp at hm
    · rw [mget_mset_ne vis sy sx true y x hc]
      exact hm

theorem floodSeed_sound (m : MaskGrid) (w h : ℕ) (P : ℕ × ℕ → Prop)
    (hP : ∀ c, P c → ∀ e, adj4 c e → inB w h e → mget m e.2 e.1 = false → P e)
    (vis : MaskGrid) (sx sy : ℕ) (hsz : gridSized vis w h)
    (hvisP : ∀ y x, mget vis y x = true → P (x, y))
    (hseedP : mget m sy sx = false → P (sx, sy)) :
    ∀ y x, mget (floodSeed m w h vis sx sy) y x = true → P (x, y) := by
  unfold floodSeed
  split
  · exact hvisP
  · rename_i hcond
    push_neg at hcond
    have hsz2 : gridSized (mset vis sy sx true) w h := sized_mset _ _ _ _ _ _ hsz
    refine bgFloodBfs_sound m w h P hP (w * h) [(sx, sy)] (mset vis sy sx true) hsz2 ?_ ?_
    · intro c hc
      rw [List.mem_singleton.1 hc]
      exact hseedP (by simpa using hcond.1)
    · intro y x hm
      by_cases hc : (x, y) = (sx, sy)
      · rw [show x = sx from congrArg Prod.fst hc, show y = sy from congrArg Prod.snd hc]
        exact hseedP (by simpa using hcond.1)
      · rw [mget_mset_ne vis sy sx true y x hc] at hm
        exact hvisP y x hm

theorem floodSeed_closed (m : MaskGrid) (w h : ℕ) (vis : MaskGrid) (sx sy : ℕ)
    (hsz : gridSized vis w h) (hsin : inB w h (sx, sy))
    (hcl : ∀ c : ℕ × ℕ, mget vis c.2 c.1 = true →
      ∀ e, adj4 c e → inB w h e → mget m e.2 e.1 = false → mget vis e.2 e.1 = true) :
    ∀ c : ℕ × ℕ, mget (floodSeed m w h vis sx sy) c.2 c.1 = true →
      ∀ e, adj4 c e → inB w h e → mget m e.2 e.1 = false →
        mget (floodSeed m w h vis sx sy) e.2 e.1 = true := by
  unfold floodSeed
  split
  · exact hcl
  · have hsz2 : gridSized (mset vis sy sx true) w h := sized_mset _ _ _ _ _ _ hsz
    have hseedmk : mget (mset vis sy sx true) sy sx = true :=
      mget_mset_self vis w h sy sx true hsz hsin.1 hsin.2
    refine bgFloodBfs_closed m w h (w * h) [(sx, sy)] (mset vis sy sx true) hsz2 ?_ ?_ ?_
    · intro c hc
      rw [List.mem_singleton.1 hc]
      exact hseedmk
    · have := unmarkedCount_lt w h (mset vis sy sx true) sx sy hsin.1 hsin.2 hseedmk
      simp only [List.length_singleton]
      omega
    · intro c hc
      by_cases hceq : c = (sx, sy)
      · exact Or.inl (by simp [hceq])
      · right
        intro e hadj hin hbg
        have hcv : mget vis c.2 c.1 = true := by
          rw [mget_mset_ne vis sy sx true c.2 c.1 (by
            intro hpair
            exact hceq (by
              have h1 := congrArg Prod.fst hpair
              have h2 := congrArg Prod.snd hpair
              exact Prod.ext h1 h2))] at hc
          exact hc
        have := hcl c hcv e hadj hin hbg
        by_cases hee : (e.1, e.2) = (sx, sy)
        · rw [show e.2 = sy from congrArg Prod.snd hee, show e.1 = sx from congrArg Prod.fst hee]
          exact hseedmk
        · rw [mget_mset_ne vis sy sx true e.2 e.1 hee]
          exact this

theorem floodSeed_marks_seed (m : MaskGrid) (w h : ℕ) (vis : MaskGrid) (sx sy : ℕ)
    (hsz : gridSized vis w h) (hsin : inB w h (sx, sy))
    (hbg : mget m sy sx = false) :
    mget (floodSeed m w h vis sx sy) sy sx = true := by
  unfold floodSeed
  split
  · rename_i hcond
    rcases hcond with hcond | hcond
    · rw [hbg] at hcond
      simp at hcond
    · exact hcond
  · have hsz2 : gridSized (mset vis sy sx true) w h := sized_mset _ _ _ _ _ _ hsz
    exact (bgFloodBfs_mono m w h (w * h) [(sx, sy)] _ hsz2).2 sy sx
      (mget_mset_self vis w h sy sx true hsz hsin.1 hsin.2)

/-- Folding mark-preserving, size-preserving steps keeps old marks. -/
theorem foldl_mono_marks (f : MaskGrid → ℕ → MaskGrid)
    (w h : ℕ)
    (hf : ∀ v b, gridSized v w h →
      gridSized (f v b) w h ∧ ∀ y x, mget v y x = true → mget (f v b) y x = true) :
    ∀ (l : List ℕ) (v : MaskGrid), gridSized v w h →
      gridSized (l.foldl f v) w h ∧
      ∀ y x, mget v y x = true → mget (l.foldl f v) y x = true := by
  intro l
  induction l with
  | nil => intro v hsz; exact ⟨hsz, fun y x hm => hm⟩
  | cons b t ih =>
    intro v hsz
    have h1 := hf v b hsz
    have h2 := ih (f v b) h1.1
    exact ⟨h2.1, fun y x hm => h2.2 y x (h1.2 y x hm)⟩

/-- Full characterisation of the mainland flood fill `bgConnectedGrid`:
it is sized, it marks only in-bounds background cells reachable from the
border (soundness), and it marks every such cell (completeness). -/
theorem bgConnectedGrid_spec (m : MaskGrid) (w h : ℕ) (hw : 0 < w) (hh : 0 < h) :
    gridSized (bgConnectedGrid m w h) w h ∧
    (∀ y x, mget (bgConnectedGrid m w h) y x = true →
      inB w h (x, y) ∧ mget m y x = false ∧ bgReach m w h (x, y)) ∧
    (∀ c : ℕ × ℕ, bgReach m w h c → mget (bgConnectedGrid m w h) c.2 c.1 = true) := by
  have hP : ∀ c : ℕ × ℕ, (inB w h c ∧ mget m c.2 c.1 = false ∧ bgReach m w h c) →
      ∀ e, adj4 c e → inB w h e → mget m e.2 e.1 = false →
        (inB w h e ∧ mget m e.2 e.1 = false ∧ bgReach m w h e) := by
    intro c hc e hadj hin hbg
    exact ⟨hin, hbg, bgReach_tail hc.2.2 ⟨hadj, hc.1, hin, hc.2.1, hbg⟩⟩
  -- the invariant carried through every seed call
  have hstep : ∀ (v : MaskGrid) (s : ℕ × ℕ), inB w h s → onBorder w h s →
      (gridSized v w h ∧
        (∀ y x, mget v y x = true →
          inB w h (x, y) ∧ mget m y x = false ∧ bgReach m w h (x, y)) ∧
        (∀ c : ℕ × ℕ, mget v c.2 c.1 = true → ∀ e, adj4 c e → inB w h e →
          mget m e.2 e.1 = false → mget v e.2 e.1 = true)) →
      (gridSized (floodSeed m w h v s.1 s.2) w h ∧
        (∀ y x, mget (floodSeed m w h v s.1 s.2) y x = true →
          inB w h (x, y) ∧ mget m y x = false ∧ bgReach m w h (x, y)) ∧
        (∀ c : ℕ × ℕ, mget (floodSeed m w h v s.1 s.2) c.2 c.1 = true →
          ∀ e, adj4 c e → inB w h e →
          mget m e.2 e.1 = false → mget (floodSeed m w h v s.1 s.2) e.2 e.1 = true)) := by
    intro v s hsin hsb hinv
    refine ⟨(floodSeed_mono m w h v s.1 s.2 hinv.1).1, ?_, ?_⟩
    · refine floodSeed_sound m w h _ hP v s.1 s.2 hinv.1 hinv.2.1 ?_
      intro hbg
      exact ⟨hsin, hbg, ⟨s, hsb, hsin, hbg, Relation.ReflTransGen.refl⟩⟩
    · exact floodSeed_closed m w h v s.1 s.2 hinv.1 hsin hinv.2.2
  -- the two border sweeps preserve the invariant
  have hstep1 : ∀ (v : MaskGrid) (x : ℕ), x ∈ List.range w →
      (gridSized v w h ∧
        (∀ y x, mget v y x = true →
          inB w h (x, y) ∧ mget m y x = false ∧ bgReach m w h (x, y)) ∧
        (∀ c : ℕ × ℕ, mget v c.2 c.1 = true → ∀ e, adj4 c e → inB w h e →
          mget m e.2 e.1 = false → mget v e.2 e.1 = true)) →
      (gridSized (floodSeed m w h (floodSeed m w h v x 0) x (h - 1)) w h ∧
        (∀ y x2, mget (floodSeed m w h (floodSeed m w h v x 0) x (h - 1)) y x2 = true →
          inB w h (x2, y) ∧ mget m y x2 = false ∧ bgReach m w h (x2, y)) ∧
        (∀ c : ℕ × ℕ, mget (floodSeed m w h (floodSeed m w h v x 0) x (h - 1)) c.2 c.1 = true →
          ∀ e, adj4 c e → inB w h e → mget m e.2 e.1 = false →
          mget (floodSeed m w h (floodSeed m w h v x 0) x (h - 1)) e.2 e.1 = true)) := by
    intro v x hx hinv
    have hx2 : x < w := List.mem_range.1 hx
    have h1 := hstep v (x, 0) ⟨hx2, hh⟩ (Or.inr (Or.inl rfl)) hinv
    exact hstep (floodSeed m w h v x 0) (x, h - 1) ⟨hx2, by omega⟩
      (Or.inr (Or.inr (Or.inr (by omega)))) h1
  have hstep2 : ∀ (v : MaskGrid) (y : ℕ), y ∈ List.range h →
      (gridSized v w h ∧
        (∀ y2 x, mget v y2 x = true →
          inB w h (x, y2) ∧ mget m y2 x = false ∧ bgReach m w h (x, y2)) ∧
        (∀ c : ℕ × ℕ, mget v c.2 c.1 = true → ∀ e, adj4 c e → inB w h e →
          mget m e.2 e.1 = false → mget v e.2 e.1 = true)) →
      (gridSized (floodSeed m w h (floodSeed m w h v 0 y) (w - 1) y) w h ∧
        (∀ y2 x, mget (floodSeed m w h (floodSeed m w h v 0 y) (w - 1) y) y2 x = true →
          inB w h (x, y2) ∧ mget m y2 x = false ∧ bgReach m w h (x, y2)) ∧
        (∀ c : ℕ × ℕ, mget (floodSeed m w h (floodSeed m w h v 0 y) (w - 1) y) c.2 c.1 = true →
          ∀ e, adj4 c e → inB w h e → mget m e.2 e.1 = false →
          mget (floodSeed m w h (floodSeed m w h v 0 y) (w - 1) y) e.2 e.1 = true)) := by
    intro v y hy hinv
    have hy2 : y < h := List.mem_range.1 hy
    have h1 := hstep v (0, y) ⟨hw, hy2⟩ (Or.inl rfl) hinv
    exact hstep (floodSeed m w h v 0 y) (w - 1, y) ⟨by omega, hy2⟩
      (Or.inr (Or.inr (Or.inl (by omega)))) h1
  have hinit : gridSized (fillGrid w h false) w h ∧
      (∀ y x, mget (fillGrid w h false) y x = true →
        inB w h (x, y) ∧ mget m y x = false ∧ bgReach m w h (x, y)) ∧
      (∀ c : ℕ × ℕ, mget (fillGrid w h false) c.2 c.1 = true → ∀ e, adj4 c e →
        inB w h e → mget m e.2 e.1 = false →
        mget (fillGrid w h false) e.2 e.1 = true) := by
    refine ⟨sized_fillGrid w h false, ?_, ?_⟩
    · intro y x hm
      rw [mget_fillGrid] at hm
      split at hm <;> simp at hm
    · intro c hm
      rw [mget_fillGrid] at hm
      split at hm <;> simp at hm
  have hinv1 := foldl_invariant
    (fun v : MaskGrid => gridSized v w h ∧
      (∀ y x, mget v y x = true →
        inB w h (x, y) ∧ mget m y x = false ∧ bgReach m w h (x, y)) ∧
      (∀ c : ℕ × ℕ, mget v c.2 c.1 = true → ∀ e, adj4 c e → inB w h e →
        mget m e.2 e.1 = false → mget v e.2 e.1 = true))
    (fun v x => floodSeed m w h (floodSeed m w h v x 0) x (h - 1))
    (List.range w) (fillGrid w h false) hinit hstep1
  have hinvfin := foldl_invariant
    (fun v : MaskGrid => gridSized v w h ∧
      (∀ y x, mget v y x = true →
        inB w h (x, y) ∧ mget m y x = false ∧ bgReach m w h (x, y)) ∧
      (∀ c : ℕ × ℕ, mget v c.2 c.1 = true → ∀ e, adj4 c e → inB w h e →
        mget m e.2 e.1 = false → mget v e.2 e.1 = true))
    (fun v y => floodSeed m w h (floodSeed m w h v 0 y) (w - 1) y)
    (List.range h) _ hinv1 hstep2
  have hbgeq : bgConnectedGrid m w h
      = (List.range h).foldl (fun v y => floodSeed m w h (floodSeed m w h v 0 y) (w - 1) y)
        ((List.range w).foldl (fun v x => floodSeed m w h (floodSeed m w h v x 0) x (h - 1))
          (fillGrid w h false)) := rfl
  rw [hbgeq]
  refine ⟨hinvfin.1, hinvfin.2.1, ?_⟩
  -- completeness: every border background cell is marked, closure extends
  have hmono1 := foldl_mono_marks
    (fun v x => floodSeed m w h (floodSeed m w h v x 0) x (h - 1)) w h
    (fun v b hsz =>
      let h1 := floodSeed_mono m w h v b 0 hsz
      let h2 := floodSeed_mono m w h (floodSeed m w h v b 0) b (h - 1) h1.1
      ⟨h2.1, fun y x hm => h2.2 y x (h1.2 y x hm)⟩)
  have hmono2 := foldl_mono_marks
    (fun v y => floodSeed m w h (floodSeed m w h v 0 y) (w - 1) y) w h
    (fun v b hsz =>
      let h1 := floodSeed_mono m w h v 0 b hsz
      let h2 := floodSeed_mono m w h (floodSeed m w h v 0 b) (w - 1) b h1.1
      ⟨h2.1, fun y x hm => h2.2 y x (h1.2 y x hm)⟩)
  have hborder : ∀ b : ℕ × ℕ, onBorder w h b → inB w h b → mget m b.2 b.1 = false →
      mget ((List.range h).foldl
        (fun v y => floodSeed m w h (floodSeed m w h v 0 y) (w - 1) y)
        ((List.range w).foldl
          (fun v x => floodSeed m w h (floodSeed m w h v x 0) x (h - 1))
          (fillGrid w h false))) b.2 b.1 = true := by
    intro b hbord hbin hbbg
    -- a border cell is seeded either by the horizontal or the vertical sweep
    have hcase : (b.2 = 0 ∨ b.2 + 1 = h) ∨ (b.1 = 0 ∨ b.1 + 1 = w) := by
      rcases hbord with h1 | h1 | h1 | h1
      · exact Or.inr (Or.inl h1)
      · exact Or.inl (Or.inl h1)
      · exact Or.inr (Or.inr h1)
      · exact Or.inl (Or.inr h1)
    rcases hcase with hrow | hcol
    · -- seeded in the first sweep at x = b.1
      rcases List.append_of_mem (List.mem_range.2 hbin.1) with ⟨l1, l2, hsplit⟩
      have hmarked1 : mget ((List.range w).foldl
          (fun v x => floodSeed m w h (floodSeed m w h v x 0) x (h - 1))
          (fillGrid w h false)) b.2 b.1 = true := by
        rw [hsplit, List.foldl_append, List.foldl_cons]
        have hszl1 := (foldl_mono_marks _ w h
          (fun v b2 hsz =>
            let h1 := floodSeed_mono m w h v b2 0 hsz
            let h2 := floodSeed_mono m w h (floodSeed m w h v b2 0) b2 (h - 1) h1.1
            ⟨h2.1, fun y x hm => h2.2 y x (h1.2 y x hm)⟩)
          l1 (fillGrid w h false) (sized_fillGrid w h false)).1
        have hin0 := floodSeed_mono m w h _ b.1 0 hszl1
        rcases hrow with hr | hr
        · -- b.2 = 0: the inner seed is b itself
          have hmk := floodSeed_marks_seed m w h _ b.1 0 hszl1 ⟨hbin.1, hh⟩ (by rw [← hr]; exact hbbg)
          have hmk2 := (floodSeed_mono m w h _ b.1 (h - 1) hin0.1).2 0 b.1 hmk
          refine (hmono1 l2 _ (floodSeed_mono m w h _ b.1 (h - 1) hin0.1).1).2 b.2 b.1 ?_
          rw [hr]
          exact hmk2
        · -- b.2 = h - 1: the outer seed is b itself
          have hmk := floodSeed_marks_seed m w h _ b.1 (h - 1) hin0.1 ⟨hbin.1, by omega⟩
            (by rw [show h - 1 = b.2 by omega]; exact hbbg)
          refine (hmono1 l2 _ (floodSeed_mono m w h _ b.1 (h - 1) hin0.1).1).2 b.2 b.1 ?_
          rw [show b.2 = h - 1 by omega]
          exact hmk
      exact (hmono2 (List.range h) _ hinv1.1).2 b.2 b.1 hmarked1
    · -- seeded in the second sweep at y = b.2
      rcases List.append_of_mem (List.mem_range.2 hbin.2) with ⟨l1, l2, hsplit⟩
      rw [hsplit, List.foldl_append, List.foldl_cons]
      have hszl1 := (foldl_mono_marks _ w h
        (fun v b2 hsz =>
          let h1 := floodSeed_mono m w h v 0 b2 hsz
          let h2 := floodSeed_mono m w h (floodSeed m w h v 0 b2) (w - 1) b2 h1.1
          ⟨h2.1, fun y x hm => h2.2 y x (h1.2 y x hm)⟩)
        l1 _ hinv1.1).1
      have hin0 := floodSeed_mono m w h _ 0 b.2 hszl1
      rcases hcol with hcl | hcl
      · have hmk := floodSeed_marks_seed m w h _ 0 b.2 hszl1 ⟨hw, hbin.2⟩
          (by rw [← hcl]; exact hbbg)
        have hmk2 := (floodSeed_mono m w h _ (w - 1) b.2 hin0.1).2 b.2 0 hmk
        refine (hmono2 l2 _ (floodSeed_mono m w h _ (w - 1) b.2 hin0.1).1).2 b.2 b.1 ?_
        rw [hcl]
        exact hmk2
      · have hmk := floodSeed_marks_seed m w h _ (w - 1) b.2 hin0.1 ⟨by omega, hbin.2⟩
          (by rw [show w - 1 = b.1 by omega]; exact hbbg)
        refine (hmono2 l2 _ (floodSeed_mono m w h _ (w - 1) b.2 hin0.1).1).2 b.2 b.1 ?_
        rw [show b.1 = w - 1 by omega]
        exact hmk
  intro c hreach
  obtain ⟨b, hbord, hbin, hbbg, hpath⟩ := hreach
  induction hpath with
  | refl => exact hborder b hbord hbin hbbg
  | tail hp hstep2 ih =>
    rename_i mid e
    exact hinvfin.2.2 mid ih e hstep2.1 hstep2.2.2.1 hstep2.2.2.2.2

/-! ### The distance field to the mainland -/

/-- A sized distance grid reads `0` outside its bounds. -/
theorem lget_oob (g : IntGrid) (w h : ℕ) (hsz : gridSized g w h) (y x : ℕ)
    (hout : ¬ (x < w ∧ y < h)) : lget g y x = 0 := by
  unfold lget
  by_cases hy : y < h
  · have hl : y < g.length := by rw [hsz.1]; exact hy
    have hrow : (g.getD y []).length = w := by
      refine hsz.2 _ ?_
      rw [List.getD_eq_getElem?_getD, List.getElem?_eq_getElem hl]
      exact List.getElem_mem hl
    have hx : ¬ x < w := fun hxx => hout ⟨hxx, hy⟩
    rw [List.getD_eq_getElem?_getD (g.getD y []),
      List.getElem?_eq_none (by omega : (g.getD y []).length ≤ x)]
    rfl
  · have hrow : g.getD y [] = [] := by
      rw [List.getD_eq_getElem?_getD, List.getElem?_eq_none (by rw [hsz.1]; omega)]
      rfl
    rw [hrow]
    rfl

theorem unassignedCount_lset (w h : ℕ) (dist : IntGrid) (x y : ℕ)
    (hsz : gridSized dist w h) (hx : x < w) (hy : y < h)
    (hun : lget dist y x = -1) (v : ℤ) (hv : v ≠ -1) :
    unassignedCount w h dist = unassignedCount w h (lset dist y x v) + 1 := by
  unfold unassignedCount
  refine filter_length_flip _ (cellsRowMajor_nodup w h) (x, y)
    ((mem_cellsRowMajor w h (x, y)).2 ⟨hx, hy⟩) _ _ ?_ ?_ ?_
  · intro b _ hb
    simp only [decide_eq_decide]
    rw [lget_lset_ne dist y x v b.2 b.1 (fun hbe => hb (by
      have h1 : b.1 = x := congrArg Prod.fst hbe
      have h2 : b.2 = y := congrArg Prod.snd hbe
      exact Prod.ext h1 h2))]
  · simp [hun]
  · simp [lget_lset_self dist w h y x v hsz hx hy, hv]

theorem unassignedCount_lt (w h : ℕ) (dist : IntGrid) (x y : ℕ)
    (hx : x < w) (hy : y < h) (hasg : lget dist y x ≠ -1) :
    unassignedCount w h dist < w * h := by
  have hmem : (x, y) ∈ cellsRowMajor w h := (mem_cellsRowMajor w h (x, y)).2 ⟨hx, hy⟩
  have hlt : ((cellsRowMajor w h).filter (fun c => lget dist c.2 c.1 = -1)).length
      < (cellsRowMajor w h).length := by
    rw [List.length_filter_lt_length_iff_exists]
    exact ⟨(x, y), hmem, by simp [hasg]⟩
  unfold unassignedCount
  rw [cellsRowMajor_length] at hlt
  exact hlt

theorem unassignedCount_le (w h : ℕ) (dist : IntGrid) :
    unassignedCount w h dist ≤ w * h := by
  unfold unassignedCount
  rw [← cellsRowMajor_length w h]
  exact List.length_filter_le _ _

/-- Single-step spec of the distance BFS neighbour handling. -/
theorem distStep_spec (w h cx cy : ℕ) (dc : ℤ) (hdc : 0 ≤ dc)
    (st : IntGrid × List (ℕ × ℕ)) (dd : ℤ × ℤ) (hd : dd ∈ dirs4)
    (hsz : gridSized st.1 w h) :
    gridSized (distStep w h cx cy dc st dd).1 w h ∧
    (∀ y x, lget st.1 y x ≠ -1 →
      lget (distStep w h cx cy dc st dd).1 y x = lget st.1 y x) ∧
    (∀ y x, lget (distStep w h cx cy dc st dd).1 y x ≠ lget st.1 y x →
      lget st.1 y x = -1 ∧ lget (distStep w h cx cy dc st dd).1 y x = dc + 1 ∧
        adj4 (cx, cy) (x, y) ∧ inB w h (x, y)) ∧
    (∀ e : ℕ × ℕ, (cx : ℤ) + dd.1 = e.1 → (cy : ℤ) + dd.2 = e.2 → inB w h e →
      lget (distStep w h cx cy dc st dd).1 e.2 e.1 ≠ -1) ∧
    (∀ c ∈ (distStep w h cx cy dc st dd).2, c ∈ st.2 ∨
      (adj4 (cx, cy) c ∧ inB w h c ∧
        lget (distStep w h cx cy dc st dd).1 c.2 c.1 = dc + 1)) ∧
    unassignedCount w h (distStep w h cx cy dc st dd).1
        + (distStep w h cx cy dc st dd).2.length
      = unassignedCount w h st.1 + st.2.length := by
  have hdcm : dc + 1 ≠ -1 := by omega
  unfold distStep
  by_cases hbnd : 0 ≤ (cx : ℤ) + dd.1 ∧ 0 ≤ (cy : ℤ) + dd.2 ∧
      (cx : ℤ) + dd.1 < (w : ℤ) ∧ (cy : ℤ) + dd.2 < (h : ℤ)
  · rw [if_pos hbnd]
    obtain ⟨hb0, hb1, hb2, hb3⟩ := hbnd
    have htgt := dirs4_target cx cy w h dd hd hb0 hb1 hb2 hb3
    set tx := ((cx : ℤ) + dd.1).toNat with htx
    set ty := ((cy : ℤ) + dd.2).toNat with hty
    have htxw : tx < w := htgt.2.1
    have htyh : ty < h := htgt.2.2
    by_cases hnew : lget st.1 ty tx = -1
    · rw [if_pos hnew]
      dsimp only
      have hszb : gridSized (lset st.1 ty tx (dc + 1)) w h := sized_mset _ _ _ _ _ _ hsz
      refine ⟨hszb, ?_, ?_, ?_, ?_, ?_⟩
      · intro y x hm
        by_cases hc : (x, y) = (tx, ty)
        · exfalso
          rw [show x = tx from congrArg Prod.fst hc,
            show y = ty from congrArg Prod.snd hc] at hm
          exact hm hnew
        · rw [lget_lset_ne st.1 ty tx (dc + 1) y x hc]
      · intro y x hm
        by_cases hc : (x, y) = (tx, ty)
        · rw [show x = tx from congrArg Prod.fst hc, show y = ty from congrArg Prod.snd hc]
          exact ⟨hnew, lget_lset_self st.1 w h ty tx (dc + 1) hsz htxw htyh,
            htgt.1, htgt.2⟩
        · exfalso
          rw [lget_lset_ne st.1 ty tx (dc + 1) y x hc] at hm
          exact hm rfl
      · intro e he1 he2 _
        have hex : e.1 = tx := by omega
        have hey : e.2 = ty := by omega
        rw [hex, hey, lget_lset_self st.1 w h ty tx (dc + 1) hsz htxw htyh]
        exact hdcm
      · intro c hc
        rcases List.mem_append.1 hc with hc | hc
        · exact Or.inl hc
        · right
          rw [List.mem_singleton.1 hc]
          exact ⟨htgt.1, htgt.2,
            lget_lset_self st.1 w h ty tx (dc + 1) hsz htxw htyh⟩
      · rw [List.length_append, List.length_singleton,
          unassignedCount_lset w h st.1 tx ty hsz htxw htyh hnew (dc + 1) hdcm]
        omega
    · rw [if_neg hnew]
      refine ⟨hsz, fun y x _ => rfl, fun y x hm => absurd rfl hm, ?_,
        fun c hc => Or.inl hc, rfl⟩
      intro e he1 he2 _
      have hex : e.1 = tx := by omega
      have hey : e.2 = ty := by omega
      rw [hex, hey]
      exact hnew
  · rw [if_neg hbnd]
    refine ⟨hsz, fun y x _ => rfl, fun y x hm => absurd rfl hm, ?_,
      fun c hc => Or.inl hc, rfl⟩
    intro e he1 he2 hin
    obtain ⟨hiw, hih⟩ := hin
    exact absurd ⟨by omega, by omega, by omega, by omega⟩ hbnd

/-- The full neighbour fold of one distance-BFS pop. -/
theorem distFold_spec (w h cx cy : ℕ) (dc : ℤ) (hdc : 0 ≤ dc) :
    ∀ (ds : List (ℤ × ℤ)), (∀ d ∈ ds, d ∈ dirs4) →
    ∀ (st : IntGrid × List (ℕ × ℕ)), gridSized st.1 w h →
    gridSized (ds.foldl (distStep w h cx cy dc) st).1 w h ∧
    (∀ y x, lget st.1 y x ≠ -1 →
      lget (ds.foldl (distStep w h cx cy dc) st).1 y x = lget st.1 y x) ∧
    (∀ y x, lget (ds.foldl (distStep w h cx cy dc) st).1 y x ≠ lget st.1 y x →
      lget st.1 y x = -1 ∧
        lget (ds.foldl (distStep w h cx cy dc) st).1 y x = dc + 1 ∧
        adj4 (cx, cy) (x, y) ∧ inB w h (x, y)) ∧
    (∀ e : ℕ × ℕ, (∃ d ∈ ds, (cx : ℤ) + d.1 = e.1 ∧ (cy : ℤ) + d.2 = e.2) →
      inB w h e → lget (ds.foldl (distStep w h cx cy dc) st).1 e.2 e.1 ≠ -1) ∧
    (∀ c ∈ (ds.foldl (distStep w h cx cy dc) st).2, c ∈ st.2 ∨
      (adj4 (cx, cy) c ∧ inB w h c ∧
        lget (ds.foldl (distStep w h cx cy dc) st).1 c.2 c.1 = dc + 1)) ∧
    unassignedCount w h (ds.foldl (distStep w h cx cy dc) st).1
        + (ds.foldl (distStep w h cx cy dc) st).2.length
      = unassignedCount w h st.1 + st.2.length := by
  intro ds
  induction ds with
  | nil =>
    intro _ st hsz
    exact ⟨hsz, fun y x _ => rfl, fun y x hm => absurd rfl hm,
      fun e he _ => absurd he (by simp), fun c hc => Or.inl hc, rfl⟩
  | cons d ds ih =>
    intro hds st hsz
    have hd : d ∈ dirs4 := hds d (by simp)
    have hstep := distStep_spec w h cx cy dc hdc st d hd hsz
    have hrest := ih (fun e he => hds e (by simp [he])) (distStep w h cx cy dc st d) hstep.1
    rw [List.foldl_cons]
    have hdcm : dc + 1 ≠ -1 := by omega
    refine ⟨hrest.1, ?_, ?_, ?_, ?_, ?_⟩
    · intro y x hm
      rw [hrest.2.1 y x (by rw [hstep.2.1 y x hm]; exact hm), hstep.2.1 y x hm]
    · intro y x hm
      by_cases hmid : lget (distStep w h cx cy dc st d).1 y x = lget st.1 y x
      · have := hrest.2.2.1 y x (by rw [hmid]; exact hm)
        rw [hmid] at this
        exact this
      · have hst := hstep.2.2.1 y x hmid
        have hkeep : lget ((ds.foldl (distStep w h cx cy dc)) (distStep w h cx cy dc st d)).1 y x
            = lget (distStep w h cx cy dc st d).1 y x :=
          hrest.2.1 y x (by rw [hst.2.1]; exact hdcm)
        rw [hkeep, hst.2.1]
        exact ⟨hst.1, rfl, hst.2.2.1, hst.2.2.2⟩
    · intro e he hin
      rcases he with ⟨d2, hd2, he1, he2⟩
      rcases List.mem_cons.1 hd2 with rfl | hd2t
      · have := hstep.2.2.2.1 e he1 he2 hin
        rw [hrest.2.1 e.2 e.1 this]
        exact this
      · exact hrest.2.2.2.1 e ⟨d2, hd2t, he1, he2⟩ hin
    · intro c hc
      rcases hrest.2.2.2.2.1 c hc with hc2 | hc2
      · rcases hstep.2.2.2.2.1 c hc2 with hc3 | hc3
        · exact Or.inl hc3
        · refine Or.inr ⟨hc3.1, hc3.2.1, ?_⟩
          rw [hrest.2.1 c.2 c.1 (by rw [hc3.2.2]; exact hdcm)]
          exact hc3.2.2
      · exact Or.inr hc2
    · rw [hrest.2.2.2.2.2, hstep.2.2.2.2.2]

theorem distStep_queue_mono (w h cx cy : ℕ) (dc : ℤ)
    (st : IntGrid × List (ℕ × ℕ)) (dd : ℤ × ℤ) :
    ∀ c ∈ st.2, c ∈ (distStep w h cx cy dc st dd).2 := by
  intro c hc
  unfold distStep
  by_cases hbnd : 0 ≤ (cx : ℤ) + dd.1 ∧ 0 ≤ (cy : ℤ) + dd.2 ∧
      (cx : ℤ) + dd.1 < (w : ℤ) ∧ (cy : ℤ) + dd.2 < (h : ℤ)
  · rw [if_pos hbnd]
    by_cases hnew : lget st.1 ((cy : ℤ) + dd.2).toNat ((cx : ℤ) + dd.1).toNat = -1
    · rw [if_pos hnew]
      simp [hc]
    · rw [if_neg hnew]
      exact hc
  · rw [if_neg hbnd]
    exact hc

theorem distStep_new_in_queue (w h cx cy : ℕ) (dc : ℤ)
    (st : IntGrid × List (ℕ × ℕ)) (dd : ℤ × ℤ) :
    ∀ y x, lget (distStep w h cx cy dc st dd).1 y x ≠ lget st.1 y x →
      (x, y) ∈ (distStep w h cx cy dc st dd).2 := by
  intro y x
  unfold distStep
  by_cases hbnd : 0 ≤ (cx : ℤ) + dd.1 ∧ 0 ≤ (cy : ℤ) + dd.2 ∧
      (cx : ℤ) + dd.1 < (w : ℤ) ∧ (cy : ℤ) + dd.2 < (h : ℤ)
  · rw [if_pos hbnd]
    by_cases hnew : lget st.1 ((cy : ℤ) + dd.2).toNat ((cx : ℤ) + dd.1).toNat = -1
    · rw [if_pos hnew]
      dsimp only
      intro hm
      by_cases hc : (x, y) = (((cx : ℤ) + dd.1).toNat, ((cy : ℤ) + dd.2).toNat)
      · simp [hc]
      · rw [lget_lset_ne _ _ _ _ _ _ hc] at hm
        exact absurd rfl hm
    · rw [if_neg hnew]
      exact fun hm => absurd rfl hm
  · rw [if_neg hbnd]
    exact fun hm => absurd rfl hm

theorem distFold_queue_mono (w h cx cy : ℕ) (dc : ℤ) :
    ∀ (ds : List (ℤ × ℤ)) (st : IntGrid × List (ℕ × ℕ)),
      ∀ c ∈ st.2, c ∈ (ds.foldl (distStep w h cx cy dc) st).2 := by
  intro ds
  induction ds with
  | nil => intro st c hc; exact hc
  | cons d t ih =>
    intro st c hc
    rw [List.foldl_cons]
    exact ih _ c (distStep_queue_mono w h cx cy dc st d c hc)

theorem distFold_new_in_queue (w h cx cy : ℕ) (dc : ℤ) :
    ∀ (ds : List (ℤ × ℤ)) (st : IntGrid × List (ℕ × ℕ)),
      ∀ y x, lget (ds.foldl (distStep w h cx cy dc) st).1 y x ≠ lget st.1 y x →
        (x, y) ∈ (ds.foldl (distStep w h cx cy dc) st).2 := by
  intro ds
  induction ds with
  | nil => intro st y x hm; exact absurd rfl hm
  | cons d t ih =>
    intro st y x hm
    rw [List.foldl_cons] at hm ⊢
    by_cases hmid : lget (distStep w h cx cy dc st d).1 y x = lget st.1 y x
    · exact ih _ y x (by rw [hmid]; exact hm)
    · exact distFold_queue_mono w h cx cy dc t _ (x, y)
        (distStep_new_in_queue w h cx cy dc st d y x hmid)

/-- The distance-BFS loop invariant: sizes are kept, assigned values are
write-once, and the value structure (nonnegative, zero implies the seed
property, positive implies a strictly closer assigned neighbour) is
preserved. -/
theorem distBfs_spec (w h : ℕ) (P0 : ℕ × ℕ → Prop) :
    ∀ (fuel : ℕ) (q : List (ℕ × ℕ)) (dist : IntGrid),
      gridSized dist w h →
      (∀ c ∈ q, inB w h c ∧ 0 ≤ lget dist c.2 c.1) →
      (∀ c : ℕ × ℕ, inB w h c → lget dist c.2 c.1 ≠ -1 →
        0 ≤ lget dist c.2 c.1 ∧
        (lget dist c.2 c.1 = 0 → P0 c) ∧
        (1 ≤ lget dist c.2 c.1 → ∃ e, adj4 c e ∧ inB w h e ∧
          0 ≤ lget dist e.2 e.1 ∧ lget dist e.2 e.1 < lget dist c.2 c.1)) →
      gridSized (distBfs w h fuel q dist) w h ∧
      (∀ y x, lget dist y x ≠ -1 →
        lget (distBfs w h fuel q dist) y x = lget dist y x) ∧
      (∀ c : ℕ × ℕ, inB w h c → lget (distBfs w h fuel q dist) c.2 c.1 ≠ -1 →
        0 ≤ lget (distBfs w h fuel q dist) c.2 c.1 ∧
        (lget (distBfs w h fuel q dist) c.2 c.1 = 0 → P0 c) ∧
        (1 ≤ lget (distBfs w h fuel q dist) c.2 c.1 → ∃ e, adj4 c e ∧ inB w h e ∧
          0 ≤ lget (distBfs w h fuel q dist) e.2 e.1 ∧
          lget (distBfs w h fuel q dist) e.2 e.1
            < lget (distBfs w h fuel q dist) c.2 c.1)) := by
  intro fuel
  induction fuel with
  | zero => intro q dist hsz _ hG; exact ⟨hsz, fun y x _ => rfl, hG⟩
  | succ f ih =>
    intro q dist hsz hq hG
    cases q with
    | nil => exact ⟨hsz, fun y x _ => rfl, hG⟩
    | cons c0 q =>
      obtain ⟨cx, cy⟩ := c0
      simp only [distBfs]
      have hdc : 0 ≤ lget dist cy cx := (hq (cx, cy) (by simp)).2
      have hcin : inB w h (cx, cy) := (hq (cx, cy) (by simp)).1
      have hfold := distFold_spec w h cx cy (lget dist cy cx) hdc dirs4
        (fun d hd => hd) (dist, []) hsz
      dsimp only at hfold
      set st := dirs4.foldl (distStep w h cx cy (lget dist cy cx)) (dist, []) with hst
      have hGst : ∀ c : ℕ × ℕ, inB w h c → lget st.1 c.2 c.1 ≠ -1 →
          0 ≤ lget st.1 c.2 c.1 ∧
          (lget st.1 c.2 c.1 = 0 → P0 c) ∧
          (1 ≤ lget st.1 c.2 c.1 → ∃ e, adj4 c e ∧ inB w h e ∧
            0 ≤ lget st.1 e.2 e.1 ∧ lget st.1 e.2 e.1 < lget st.1 c.2 c.1) := by
        intro c hin hasg
        by_cases hch : lget st.1 c.2 c.1 = lget dist c.2 c.1
        · rw [hch] at hasg ⊢
          obtain ⟨hg1, hg2, hg3⟩ := hG c hin hasg
          refine ⟨hg1, hg2, ?_⟩
          intro hpos
          obtain ⟨e, he1, he2, he3, he4⟩ := hg3 hpos
          refine ⟨e, he1, he2, ?_, ?_⟩
          · rw [hfold.2.1 e.2 e.1 (by omega)]
            exact he3
          · rw [hfold.2.1 e.2 e.1 (by omega)]
            exact he4
        · obtain ⟨hold, hnewv, hadj, _⟩ := hfold.2.2.1 c.2 c.1 (by
            intro hc2; exact hch (by
              obtain ⟨cc1, cc2⟩ := c
              exact hc2))
          rw [hnewv]
          refine ⟨by omega, by intro hc2; omega, ?_⟩
          intro _
          refine ⟨(cx, cy), adj4_symm (by
            obtain ⟨cc1, cc2⟩ := c
            exact hadj), hcin, ?_, ?_⟩
          · rw [hfold.2.1 cy cx (by omega)]
            exact hdc
          · rw [hfold.2.1 cy cx (by omega)]
            omega
      have hqst : ∀ c ∈ q ++ st.2, inB w h c ∧ 0 ≤ lget st.1 c.2 c.1 := by
        intro c hc
        rcases List.mem_append.1 hc with hc2 | hc2
        · obtain ⟨hin, hv⟩ := hq c (by simp [hc2])
          exact ⟨hin, by rw [hfold.2.1 c.2 c.1 (by omega)]; exact hv⟩
        · rcases hfold.2.2.2.2.1 c hc2 with hc3 | hc3
          · simp at hc3
          · exact ⟨hc3.2.1, by rw [hc3.2.2]; omega⟩
      have hrec := ih (q ++ st.2) st.1 hfold.1 hqst hGst
      refine ⟨hrec.1, ?_, hrec.2.2⟩
      intro y x hasg
      rw [hrec.2.1 y x (by rw [hfold.2.1 y x hasg]; exact hasg),
        hfold.2.1 y x hasg]

/-- Distance-BFS closure: with enough fuel every assigned cell of the
result has all its in-bounds neighbours assigned. -/
theorem distBfs_closed (w h : ℕ) :
    ∀ (fuel : ℕ) (q : List (ℕ × ℕ)) (dist : IntGrid),
      gridSized dist w h →
      (∀ c ∈ q, inB w h c ∧ 0 ≤ lget dist c.2 c.1) →
      unassignedCount w h dist + q.length ≤ fuel →
      (∀ c : ℕ × ℕ, inB w h c → lget dist c.2 c.1 ≠ -1 → c ∈ q ∨
        (∀ e, adj4 c e → inB w h e → lget dist e.2 e.1 ≠ -1)) →
      ∀ c : ℕ × ℕ, inB w h c → lget (distBfs w h fuel q dist) c.2 c.1 ≠ -1 →
        ∀ e, adj4 c e → inB w h e →
          lget (distBfs w h fuel q dist) e.2 e.1 ≠ -1 := by
  intro fuel
  induction fuel with
  | zero =>
    intro q dist hsz hq hfuel hinv c hin hc e hadj hein
    have hq0 : q = [] := List.length_eq_zero.1 (by omega)
    subst hq0
    rcases hinv c hin hc with hmem | hcl
    · simp at hmem
    · exact hcl e hadj hein
  | succ f ih =>
    intro q dist hsz hq hfuel hinv
    cases q with
    | nil =>
      intro c hin hc e hadj hein
      rcases hinv c hin hc with hmem | hcl
      · simp at hmem
      · exact hcl e hadj hein
    | cons c0 q =>
      obtain ⟨cx, cy⟩ := c0
      simp only [distBfs]
      have hdc : 0 ≤ lget dist cy cx := (hq (cx, cy) (by simp)).2
      have hfold := distFold_spec w h cx cy (lget dist cy cx) hdc dirs4
        (fun d hd => hd) (dist, []) hsz
      dsimp only at hfold
      set st := dirs4.foldl (distStep w h cx cy (lget dist cy cx)) (dist, []) with hst
      refine ih (q ++ st.2) st.1 hfold.1 ?_ ?_ ?_
      · intro c hc
        rcases List.mem_append.1 hc with hc2 | hc2
        · obtain ⟨hin2, hv⟩ := hq c (by simp [hc2])
          exact ⟨hin2, by rw [hfold.2.1 c.2 c.1 (by omega)]; exact hv⟩
        · rcases hfold.2.2.2.2.1 c hc2 with hc3 | hc3
          · simp at hc3
          · exact ⟨hc3.2.1, by rw [hc3.2.2]; omega⟩
      · have hcount := hfold.2.2.2.2.2
        simp only [List.length_nil] at hcount
        rw [List.length_append]
        simp only [List.length_cons] at hfuel
        omega
      · intro c hin hasg
        by_cases hch : lget st.1 c.2 c.1 = lget dist c.2 c.1
        · rcases hinv c hin (by rw [← hch]; exact hasg) with hmem | hcl
          · rcases List.mem_cons.1 hmem with heq | hmem2
            · right
              intro e hadj hein
              rcases adj4_mem_dirs4 cx cy e (by
                rw [show c = (cx, cy) from heq] at hadj
                exact hadj) with ⟨d, hd, he1, he2⟩
              exact hfold.2.2.2.1 e ⟨d, hd, he1, he2⟩ hein
            · exact Or.inl (by simp [hmem2])
          · right
            intro e hadj hein
            have := hcl e hadj hein
            rw [hfold.2.1 e.2 e.1 this]
            exact this
        · left
          refine List.mem_append_right q ?_
          have := distFold_new_in_queue w h cx cy (lget dist cy cx) dirs4 (dist, [])
            c.2 c.1 (by
              obtain ⟨cc1, cc2⟩ := c
              exact hch)
          obtain ⟨cc1, cc2⟩ := c
          exact this

theorem unassignedCount_fillIntGrid (w h : ℕ) :
    unassignedCount w h (fillIntGrid w h (-1)) = w * h := by
  unfold unassignedCount
  rw [← cellsRowMajor_length w h]
  congr 1
  refine List.filter_eq_self.mpr ?_
  intro c hc
  have hin := (mem_cellsRowMajor w h c).1 hc
  rw [lget_fillIntGrid]
  simp [hin.1, hin.2]

theorem distSeedFold_queue_mono (bg : MaskGrid) :
    ∀ (l : List (ℕ × ℕ)) (st : IntGrid × List (ℕ × ℕ)),
      ∀ c ∈ st.2, c ∈ (l.foldl (distSeedStep bg) st).2 := by
  intro l
  induction l with
  | nil => intro st c hc; exact hc
  | cons c0 t ih =>
    intro st c hc
    rw [List.foldl_cons]
    refine ih _ c ?_
    unfold distSeedStep
    by_cases hbg : mget bg c0.2 c0.1 = true
    · rw [if_pos hbg]
      simp [hc]
    · rw [if_neg hbg]
      exact hc

/-- The seeding pass of the distance field: after folding over a nodup
list of in-bounds unassigned cells, exactly the background cells among
them hold `0`, they are queued, and the fuel measure is conserved. -/
theorem distSeed_spec (bg : MaskGrid) (w h : ℕ) :
    ∀ (l : List (ℕ × ℕ)), l.Nodup → (∀ c ∈ l, inB w h c) →
    ∀ (st : IntGrid × List (ℕ × ℕ)), gridSized st.1 w h →
    (∀ c ∈ l, lget st.1 c.2 c.1 = -1) →
    (∀ c ∈ st.2, inB w h c ∧ 0 ≤ lget st.1 c.2 c.1) →
    (∀ c : ℕ × ℕ, inB w h c → lget st.1 c.2 c.1 ≠ -1 →
      lget st.1 c.2 c.1 = 0 ∧ mget bg c.2 c.1 = true) →
    gridSized (l.foldl (distSeedStep bg) st).1 w h ∧
    (∀ y x, lget st.1 y x ≠ -1 →
      lget (l.foldl (distSeedStep bg) st).1 y x = lget st.1 y x) ∧
    (∀ c : ℕ × ℕ, inB w h c → lget (l.foldl (distSeedStep bg) st).1 c.2 c.1 ≠ -1 →
      lget (l.foldl (distSeedStep bg) st).1 c.2 c.1 = 0 ∧ mget bg c.2 c.1 = true) ∧
    (∀ c ∈ (l.foldl (distSeedStep bg) st).2, inB w h c ∧
      0 ≤ lget (l.foldl (distSeedStep bg) st).1 c.2 c.1) ∧
    (∀ c ∈ l, mget bg c.2 c.1 = true →
      lget (l.foldl (distSeedStep bg) st).1 c.2 c.1 ≠ -1) ∧
    (∀ c : ℕ × ℕ, inB w h c → lget (l.foldl (distSeedStep bg) st).1 c.2 c.1 ≠ -1 →
      c ∈ (l.foldl (distSeedStep bg) st).2 ∨ lget st.1 c.2 c.1 ≠ -1) ∧
    unassignedCount w h (l.foldl (distSeedStep bg) st).1
        + (l.foldl (distSeedStep bg) st).2.length
      = unassignedCount w h st.1 + st.2.length := by
  intro l
  induction l with
  | nil =>
    intro _ _ st hsz _ hque hzero
    exact ⟨hsz, fun y x _ => rfl, hzero, hque, fun c hc => absurd hc (by simp),
      fun c _ hasg => Or.inr hasg, rfl⟩
  | cons c0 t ih =>
    intro hnd hinl st hsz hun hque hzero
    have hc0in : inB w h c0 := hinl c0 (by simp)
    have hc0un : lget st.1 c0.2 c0.1 = -1 := hun c0 (by simp)
    have hc0nt : c0 ∉ t := (List.nodup_cons.1 hnd).1
    rw [List.foldl_cons]
    by_cases hbg : mget bg c0.2 c0.1 = true
    · have hstep : distSeedStep bg st c0 = (lset st.1 c0.2 c0.1 0, st.2 ++ [c0]) := by
        unfold distSeedStep
        rw [if_pos hbg]
      rw [hstep]
      have hsz1 : gridSized (lset st.1 c0.2 c0.1 0) w h := sized_mset _ _ _ _ _ _ hsz
      have hself : lget (lset st.1 c0.2 c0.1 0) c0.2 c0.1 = 0 :=
        lget_lset_self st.1 w h c0.2 c0.1 0 hsz hc0in.1 hc0in.2
      have hun1 : ∀ c ∈ t, lget (lset st.1 c0.2 c0.1 0) c.2 c.1 = -1 := by
        intro c hc
        have hne : (c.1, c.2) ≠ (c0.1, c0.2) := by
          intro heq
          exact hc0nt (by
            have h1 := congrArg Prod.fst heq
            have h2 := congrArg Prod.snd heq
            dsimp only at h1 h2
            rw [show c0 = c from (Prod.ext h1 h2).symm]
            exact hc)
        rw [lget_lset_ne st.1 c0.2 c0.1 0 c.2 c.1 hne]
        exact hun c (by simp [hc])
      have hque1 : ∀ c ∈ st.2 ++ [c0], inB w h c ∧
          0 ≤ lget (lset st.1 c0.2 c0.1 0) c.2 c.1 := by
        intro c hc
        rcases List.mem_append.1 hc with hc2 | hc2
        · obtain ⟨hin2, hv⟩ := hque c hc2
          have hne : (c.1, c.2) ≠ (c0.1, c0.2) := by
            intro heq
            have h1 := congrArg Prod.fst heq
            have h2 := congrArg Prod.snd heq
            dsimp only at h1 h2
            rw [h1, h2] at hv
            omega
          rw [lget_lset_ne st.1 c0.2 c0.1 0 c.2 c.1 hne]
          exact ⟨hin2, hv⟩
        · rw [List.mem_singleton.1 hc2]
          rw [hself]
          exact ⟨hc0in, le_refl 0⟩
      have hzero1 : ∀ c : ℕ × ℕ, inB w h c →
          lget (lset st.1 c0.2 c0.1 0) c.2 c.1 ≠ -1 →
          lget (lset st.1 c0.2 c0.1 0) c.2 c.1 = 0 ∧ mget bg c.2 c.1 = true := by
        intro c hin hasg
        by_cases hne : (c.1, c.2) = (c0.1, c0.2)
        · have h1 := congrArg Prod.fst hne
          have h2 := congrArg Prod.snd hne
          dsimp only at h1 h2
          rw [h1, h2] at hasg ⊢
          exact ⟨hself, hbg⟩
        · rw [lget_lset_ne st.1 c0.2 c0.1 0 c.2 c.1 hne] at hasg ⊢
          exact hzero c hin hasg
      have hrec := ih (List.nodup_cons.1 hnd).2 (fun c hc => hinl c (by simp [hc]))
        (lset st.1 c0.2 c0.1 0, st.2 ++ [c0]) hsz1 hun1 hque1 hzero1
      dsimp only at hrec
      refine ⟨hrec.1, ?_, hrec.2.2.1, hrec.2.2.2.1, ?_, ?_, ?_⟩
      · intro y x hasg
        have hne : (x, y) ≠ (c0.1, c0.2) := by
          intro heq
          have h1 := congrArg Prod.fst heq
          have h2 := congrArg Prod.snd heq
          dsimp only at h1 h2
          rw [h1, h2] at hasg
          exact hasg hc0un
        rw [hrec.2.1 y x (by rw [lget_lset_ne st.1 c0.2 c0.1 0 y x hne]; exact hasg),
          lget_lset_ne st.1 c0.2 c0.1 0 y x hne]
      · intro c hc hcbg
        rcases List.mem_cons.1 hc with rfl | hct
        · rw [hrec.2.1 c.2 c.1 (by rw [hself]; omega), hself]
          omega
        · exact hrec.2.2.2.2.1 c hct hcbg
      · intro c hin hasg
        rcases hrec.2.2.2.2.2.1 c hin hasg with hql | hpre
        · exact Or.inl hql
        · by_cases hne : (c.1, c.2) = (c0.1, c0.2)
          · left
            have h1 := congrArg Prod.fst hne
            have h2 := congrArg Prod.snd hne
            dsimp only at h1 h2
            refine distSeedFold_queue_mono bg t _ c ?_
            have hcc0 : c = c0 := Prod.ext h1 h2
            simp [hcc0]
          · right
            rw [lget_lset_ne st.1 c0.2 c0.1 0 c.2 c.1 hne] at hpre
            exact hpre
      · rw [hrec.2.2.2.2.2.2, List.length_append, List.length_singleton,
          unassignedCount_lset w h st.1 c0.1 c0.2 hsz hc0in.1 hc0in.2 hc0un 0 (by omega)]
        omega
    · have hstep : distSeedStep bg st c0 = st := by
        unfold distSeedStep
        rw [if_neg hbg]
      rw [hstep]
      have hrec := ih (List.nodup_cons.1 hnd).2 (fun c hc => hinl c (by simp [hc]))
        st hsz (fun c hc => hun c (by simp [hc])) hque hzero
      refine ⟨hrec.1, hrec.2.1, hrec.2.2.1, hrec.2.2.2.1, ?_, hrec.2.2.2.2.2.1,
        hrec.2.2.2.2.2.2⟩
      intro c hc hcbg
      rcases List.mem_cons.1 hc with rfl | hct
      · exact absurd hcbg hbg
      · exact hrec.2.2.2.2.1 c hct hcbg

/-- The distance field: sized; assigned values are nonnegative, zero
exactly marks seeds (mainland cells are assigned and zero-valued cells
are mainland), and positive values have a strictly closer assigned
neighbour. -/
theorem distField_spec (bg : MaskGrid) (w h : ℕ) :
    gridSized (distField bg w h) w h ∧
    (∀ c : ℕ × ℕ, inB w h c → mget bg c.2 c.1 = true →
      lget (distField bg w h) c.2 c.1 = 0) ∧
    (∀ c : ℕ × ℕ, inB w h c → lget (distField bg w h) c.2 c.1 ≠ -1 →
      0 ≤ lget (distField bg w h) c.2 c.1 ∧
      (lget (distField bg w h) c.2 c.1 = 0 → mget bg c.2 c.1 = true) ∧
      (1 ≤ lget (distField bg w h) c.2 c.1 → ∃ e, adj4 c e ∧ inB w h e ∧
        0 ≤ lget (distField bg w h) e.2 e.1 ∧
        lget (distField bg w h) e.2 e.1 < lget (distField bg w h) c.2 c.1)) ∧
    (∀ c : ℕ × ℕ, inB w h c → lget (distField bg w h) c.2 c.1 ≠ -1 →
      ∀ e, adj4 c e → inB w h e → lget (distField bg w h) e.2 e.1 ≠ -1) := by
  have hseed := distSeed_spec bg w h (cellsRowMajor w h) (cellsRowMajor_nodup w h)
    (fun c hc => (mem_cellsRowMajor w h c).1 hc)
    (fillIntGrid w h (-1), []) (sized_fillIntGrid w h (-1))
    (fun c hc => by
      have hin := (mem_cellsRowMajor w h c).1 hc
      rw [lget_fillIntGrid]
      simp [hin.1, hin.2])
    (fun c hc => absurd hc (by simp))
    (fun c hin hasg => by
      rw [lget_fillIntGrid] at hasg
      exact absurd (by simp [hin.1, hin.2]) hasg)
  dsimp only at hseed
  set sd := (cellsRowMajor w h).foldl (distSeedStep bg) (fillIntGrid w h (-1), [])
    with hsd
  have hbfs := distBfs_spec w h (fun c => mget bg c.2 c.1 = true) (w * h) sd.2 sd.1
    hseed.1 hseed.2.2.2.1
    (fun c hin hasg =>
      ⟨by rw [(hseed.2.2.1 c hin hasg).1], fun _ => (hseed.2.2.1 c hin hasg).2,
        fun hpos => absurd ((hseed.2.2.1 c hin hasg).1 ▸ hpos) (by omega)⟩)
  have hfield : distField bg w h = distBfs w h (w * h) sd.2 sd.1 := rfl
  rw [hfield]
  have hzero : ∀ c : ℕ × ℕ, inB w h c → mget bg c.2 c.1 = true →
      lget (distBfs w h (w * h) sd.2 sd.1) c.2 c.1 = 0 := by
    intro c hin hbg
    have hasg := hseed.2.2.2.2.1 c ((mem_cellsRowMajor w h c).2 ⟨hin.1, hin.2⟩) hbg
    rw [hbfs.2.1 c.2 c.1 hasg]
    exact (hseed.2.2.1 c hin hasg).1
  refine ⟨hbfs.1, hzero, hbfs.2.2, ?_⟩
  refine distBfs_closed w h (w * h) sd.2 sd.1 hseed.1 hseed.2.2.2.1 ?_ ?_
  · have hcnt := hseed.2.2.2.2.2.2
    rw [unassignedCount_fillIntGrid w h] at hcnt
    simp only [List.length_nil] at hcnt
    omega
  · intro c hin hasg
    rcases hseed.2.2.2.2.2.1 c hin hasg with hq | hpre
    · exact Or.inl hq
    · exfalso
      rw [lget_fillIntGrid] at hpre
      exact hpre (by simp [hin.1, hin.2])

/-- When the mainland is nonempty, every in-bounds cell receives a
distance (the grid graph is connected, so the BFS reaches everything). -/
theorem distField_coverage (bg : MaskGrid) (w h : ℕ) (b : ℕ × ℕ)
    (hbin : inB w h b) (hbbg : mget bg b.2 b.1 = true) :
    ∀ c : ℕ × ℕ, inB w h c → lget (distField bg w h) c.2 c.1 ≠ -1 := by
  have hspec := distField_spec bg w h
  intro c hin
  have hpath := grid_connected w h b c hbin hin
  induction hpath with
  | refl =>
    rw [hspec.2.1 b hbin hbbg]
    omega
  | tail hp hstep ih =>
    rename_i mid e
    exact hspec.2.2.2 mid hstep.2.1 (ih hstep.2.1) e hstep.1 hstep.2.2

/-! ### Carving bridge discs -/

theorem mem_carveOffsets (bw : ℤ) (hbw : 0 ≤ bw) (d : ℤ × ℤ) :
    d ∈ carveOffsets bw ↔ -bw ≤ d.1 ∧ d.1 ≤ bw ∧ -bw ≤ d.2 ∧ d.2 ≤ bw := by
  unfold carveOffsets
  constructor
  · intro hmem
    obtain ⟨i, hi, hmem2⟩ := List.mem_flatMap.1 hmem
    obtain ⟨j, hj, heq⟩ := List.mem_map.1 hmem2
    have hi2 := List.mem_range.1 hi
    have hj2 := List.mem_range.1 hj
    have h1 := congrArg Prod.fst heq
    have h2 := congrArg Prod.snd heq
    dsimp only at h1 h2
    omega
  · rintro ⟨h1, h2, h3, h4⟩
    refine List.mem_flatMap.2 ⟨(bw + d.1).toNat, List.mem_range.2 (by omega), ?_⟩
    refine List.mem_map.2 ⟨(bw + d.2).toNat, List.mem_range.2 (by omega), ?_⟩
    obtain ⟨d1, d2⟩ := d
    dsimp only at h1 h2 h3 h4 ⊢
    rw [Prod.mk.injEq]
    omega

theorem carveStep_spec (w h : ℕ) (bw : ℤ) (cx cy : ℕ) (g : MaskGrid)
    (d : ℤ × ℤ) (hsz : gridSized g w h) :
    gridSized (carveStep w h bw cx cy g d) w h ∧
    (∀ y x, mget (carveStep w h bw cx cy g d) y x = true → mget g y x = true) ∧
    (∀ y x, mget g y x = false → mget (carveStep w h bw cx cy g d) y x = false) ∧
    (∀ y x, mget (carveStep w h bw cx cy g d) y x ≠ mget g y x →
      x < w ∧ y < h ∧ ((x : ℤ) - cx) * ((x : ℤ) - cx)
          + ((y : ℤ) - cy) * ((y : ℤ) - cy) ≤ bw * bw ∧
        mget (carveStep w h bw cx cy g d) y x = false) := by
  unfold carveStep
  by_cases hc : 0 ≤ (cx : ℤ) + d.2 ∧ 0 ≤ (cy : ℤ) + d.1 ∧
      (cx : ℤ) + d.2 < (w : ℤ) ∧ (cy : ℤ) + d.1 < (h : ℤ) ∧
      d.2 * d.2 + d.1 * d.1 ≤ bw * bw
  · rw [if_pos hc]
    obtain ⟨h1, h2, h3, h4, h5⟩ := hc
    set tx := ((cx : ℤ) + d.2).toNat with htx
    set ty := ((cy : ℤ) + d.1).toNat with hty
    have htxw : tx < w := by omega
    have htyh : ty < h := by omega
    refine ⟨sized_mset _ _ _ _ _ _ hsz, ?_, ?_, ?_⟩
    · intro y x hm
      by_cases hcc : (x, y) = (tx, ty)
      · exfalso
        rw [show x = tx from congrArg Prod.fst hcc,
          show y = ty from congrArg Prod.snd hcc,
          mget_mset_self g w h ty tx false hsz htxw htyh] at hm
        exact Bool.false_ne_true hm
      · rw [mget_mset_ne g ty tx false y x hcc] at hm
        exact hm
    · intro y x hm
      by_cases hcc : (x, y) = (tx, ty)
      · rw [show x = tx from congrArg Prod.fst hcc,
          show y = ty from congrArg Prod.snd hcc,
          mget_mset_self g w h ty tx false hsz htxw htyh]
      · rw [mget_mset_ne g ty tx false y x hcc]
        exact hm
    · intro y x hm
      by_cases hcc : (x, y) = (tx, ty)
      · have hx : x = tx := congrArg Prod.fst hcc
        have hy : y = ty := congrArg Prod.snd hcc
        subst hx
        subst hy
        refine ⟨htxw, htyh, ?_, mget_mset_self g w h ty tx false hsz htxw htyh⟩
        have hx2 : (tx : ℤ) - cx = d.2 := by omega
        have hy2 : (ty : ℤ) - cy = d.1 := by omega
        rw [hx2, hy2]
        linarith
      · exfalso
        rw [mget_mset_ne g ty tx false y x hcc] at hm
        exact hm rfl
  · rw [if_neg hc]
    exact ⟨hsz, fun y x hm => hm, fun y x hm => hm, fun y x hm => absurd rfl hm⟩

theorem carveFold_spec (w h : ℕ) (bw : ℤ) (cx cy : ℕ) :
    ∀ (ds : List (ℤ × ℤ)) (g : MaskGrid), gridSized g w h →
    gridSized (ds.foldl (carveStep w h bw cx cy) g) w h ∧
    (∀ y x, mget (ds.foldl (carveStep w h bw cx cy) g) y x = true →
      mget g y x = true) ∧
    (∀ y x, mget g y x = false →
      mget (ds.foldl (carveStep w h bw cx cy) g) y x = false) ∧
    (∀ y x, mget (ds.foldl (carveStep w h bw cx cy) g) y x ≠ mget g y x →
      x < w ∧ y < h ∧ ((x : ℤ) - cx) * ((x : ℤ) - cx)
          + ((y : ℤ) - cy) * ((y : ℤ) - cy) ≤ bw * bw ∧
        mget (ds.foldl (carveStep w h bw cx cy) g) y x = false) := by
  intro ds
  induction ds with
  | nil =>
    intro g hsz
    exact ⟨hsz, fun y x hm => hm, fun y x hm => hm, fun y x hm => absurd rfl hm⟩
  | cons d t ih =>
    intro g hsz
    have hstep := carveStep_spec w h bw cx cy g d hsz
    have hrest := ih (carveStep w h bw cx cy g d) hstep.1
    rw [List.foldl_cons]
    refine ⟨hrest.1, ?_, ?_, ?_⟩
    · intro y x hm
      exact hstep.2.1 y x (hrest.2.1 y x hm)
    · intro y x hm
      exact hrest.2.2.1 y x (hstep.2.2.1 y x hm)
    · intro y x hm
      by_cases hmid : mget (carveStep w h bw cx cy g d) y x = mget g y x
      · exact hrest.2.2.2 y x (by rw [hmid]; exact hm)
      · obtain ⟨hx, hy, hdisc, hfalse⟩ := hstep.2.2.2 y x hmid
        exact ⟨hx, hy, hdisc, hrest.2.2.1 y x hfalse⟩

/-- Every in-bounds cell of the disc is carved to background. -/
theorem carveDisc_inDisc (w h : ℕ) (bw : ℤ) (hbw : 0 ≤ bw) (cx cy : ℕ)
    (m : MaskGrid) (hsz : gridSized m w h) (y x : ℕ) (hx : x < w) (hy : y < h)
    (hdisc : ((x : ℤ) - cx) * ((x : ℤ) - cx)
      + ((y : ℤ) - cy) * ((y : ℤ) - cy) ≤ bw * bw) :
    mget (carveDisc w h bw cx cy m) y x = false := by
  have hd1 : -bw ≤ (y : ℤ) - cy ∧ (y : ℤ) - cy ≤ bw := by
    constructor <;> nlinarith
  have hd2 : -bw ≤ (x : ℤ) - cx ∧ (x : ℤ) - cx ≤ bw := by
    constructor <;> nlinarith
  have hmem : ((y : ℤ) - cy, (x : ℤ) - cx) ∈ carveOffsets bw :=
    (mem_carveOffsets bw hbw _).2 ⟨hd1.1, hd1.2, hd2.1, hd2.2⟩
  rcases List.append_of_mem hmem with ⟨l1, l2, hsplit⟩
  unfold carveDisc
  rw [hsplit, List.foldl_append, List.foldl_cons]
  have hszl1 := (carveFold_spec w h bw cx cy l1 m hsz).1
  have hwrite : mget (carveStep w h bw cx cy
      (l1.foldl (carveStep w h bw cx cy) m) ((y : ℤ) - cy, (x : ℤ) - cx)) y x
      = false := by
    unfold carveStep
    dsimp only
    rw [if_pos (by
      refine ⟨by omega, by omega, by omega, by omega, ?_⟩
      nlinarith)]
    have htx : ((cx : ℤ) + ((x : ℤ) - cx)).toNat = x := by omega
    have hty : ((cy : ℤ) + ((y : ℤ) - cy)).toNat = y := by omega
    rw [htx, hty]
    exact mget_mset_self _ w h y x false hszl1 hx hy
  have hszmid := (carveStep_spec w h bw cx cy
    (l1.foldl (carveStep w h bw cx cy) m) ((y : ℤ) - cy, (x : ℤ) - cx) hszl1).1
  exact (carveFold_spec w h bw cx cy l2 _ hszmid).2.2.1 y x hwrite

/-- Top-level carve spec: sized, marks only removed, removals stay, and
every change lies in the in-bounds disc and ends background. -/
theorem carveDisc_spec (w h : ℕ) (bw : ℤ) (cx cy : ℕ) (m : MaskGrid)
    (hsz : gridSized m w h) :
    gridSized (carveDisc w h bw cx cy m) w h ∧
    (∀ y x, mget (carveDisc w h bw cx cy m) y x = true → mget m y x = true) ∧
    (∀ y x, mget m y x = false → mget (carveDisc w h bw cx cy m) y x = false) ∧
    (∀ y x, mget (carveDisc w h bw cx cy m) y x ≠ mget m y x →
      x < w ∧ y < h ∧ ((x : ℤ) - cx) * ((x : ℤ) - cx)
          + ((y : ℤ) - cy) * ((y : ℤ) - cy) ≤ bw * bw ∧
        mget (carveDisc w h bw cx cy m) y x = false) :=
  carveFold_spec w h bw cx cy (carveOffsets bw) m hsz

/-- Every in-bounds cell of the carved disc is joined to the centre by a
4-path running through carved (hence background) cells. -/
theorem carveDisc_path (w h : ℕ) (bw : ℤ) (hbw : 0 ≤ bw) (cx cy : ℕ)
    (hcx : cx < w) (hcy : cy < h)
    (m : MaskGrid) (hsz : gridSized m w h) :
    ∀ (c : ℕ × ℕ), inB w h c →
      ((c.1 : ℤ) - cx) * ((c.1 : ℤ) - cx)
          + ((c.2 : ℤ) - cy) * ((c.2 : ℤ) - cy) ≤ bw * bw →
      Relation.ReflTransGen (fun a b => adj4 a b ∧ inB w h b ∧
        mget (carveDisc w h bw cx cy m) b.2 b.1 = false) (cx, cy) c := by
  have key : ∀ (n : ℕ) (c : ℕ × ℕ),
      ((c.1 : ℤ) - cx).natAbs + ((c.2 : ℤ) - cy).natAbs = n → inB w h c →
      ((c.1 : ℤ) - cx) * ((c.1 : ℤ) - cx)
          + ((c.2 : ℤ) - cy) * ((c.2 : ℤ) - cy) ≤ bw * bw →
      Relation.ReflTransGen (fun a b => adj4 a b ∧ inB w h b ∧
        mget (carveDisc w h bw cx cy m) b.2 b.1 = false) (cx, cy) c := by
    intro n
    induction n using Nat.strong_induction_on with
    | _ n ih =>
      intro c hn hin hdisc
      by_cases hceq : c = (cx, cy)
      · rw [hceq]
      · have hne : c.1 ≠ cx ∨ c.2 ≠ cy := by
          by_contra hcon
          push_neg at hcon
          exact hceq (Prod.ext hcon.1 hcon.2)
        have hcf : mget (carveDisc w h bw cx cy m) c.2 c.1 = false :=
          carveDisc_inDisc w h bw hbw cx cy m hsz c.2 c.1 hin.1 hin.2 hdisc
        rcases hne with hnx | hny
        · by_cases hlt : cx < c.1
          · have hc1 : 1 ≤ c.1 := by omega
            have hprev := ih (n - 1) (by omega) (c.1 - 1, c.2) (by
              dsimp only
              omega) ⟨by dsimp only; have hw1 := hin.1; omega, hin.2⟩ (by
              dsimp only
              have ha : 1 ≤ (c.1 : ℤ) - cx := by omega
              have hcast : ((c.1 - 1 : ℕ) : ℤ) = (c.1 : ℤ) - 1 := by omega
              rw [hcast]
              nlinarith)
            refine hprev.tail ⟨?_, hin, hcf⟩
            unfold adj4
            dsimp only
            omega
          · have hgt : c.1 < cx := by omega
            have hprev := ih (n - 1) (by omega) (c.1 + 1, c.2) (by
              dsimp only
              omega) ⟨by dsimp only; have hw1 := hin.1; omega, hin.2⟩ (by
              dsimp only
              have ha : (c.1 : ℤ) - cx ≤ -1 := by omega
              have hcast : ((c.1 + 1 : ℕ) : ℤ) = (c.1 : ℤ) + 1 := by omega
              rw [hcast]
              nlinarith)
            refine hprev.tail ⟨?_, hin, hcf⟩
            unfold adj4
            dsimp only
            omega
        · by_cases hlt : cy < c.2
          · have hprev := ih (n - 1) (by omega) (c.1, c.2 - 1) (by
              dsimp only
              omega) ⟨hin.1, by dsimp only; have hw2 := hin.2; omega⟩ (by
              dsimp only
              have ha : 1 ≤ (c.2 : ℤ) - cy := by omega
              have hcast : ((c.2 - 1 : ℕ) : ℤ) = (c.2 : ℤ) - 1 := by omega
              rw [hcast]
              nlinarith)
            refine hprev.tail ⟨?_, hin, hcf⟩
            unfold adj4
            dsimp only
            omega
          · have hgt : c.2 < cy := by omega
            have hprev := ih (n - 1) (by omega) (c.1, c.2 + 1) (by
              dsimp only
              omega) ⟨hin.1, by dsimp only; have hw2 := hin.2; omega⟩ (by
              dsimp only
              have ha : (c.2 : ℤ) - cy ≤ -1 := by omega
              have hcast : ((c.2 + 1 : ℕ) : ℤ) = (c.2 : ℤ) + 1 := by omega
              rw [hcast]
              nlinarith)
            refine hprev.tail ⟨?_, hin, hcf⟩
            unfold adj4
            dsimp only
            omega
  intro c
  exact key (((c.1 : ℤ) - cx).natAbs + ((c.2 : ℤ) - cy).natAbs) c rfl

/-! ### The gradient descent along the distance field -/

theorem adj4_ne {a b : ℕ × ℕ} (h : adj4 a b) : a ≠ b := by
  obtain ⟨ax, ay⟩ := a
  obtain ⟨bx, by2⟩ := b
  unfold adj4 at h
  dsimp only at h
  intro heq
  have h1 := congrArg Prod.fst heq
  have h2 := congrArg Prod.snd heq
  dsimp only at h1 h2
  omega

theorem bestStep_spec (dist : IntGrid) (w h cx cy : ℕ)
    (b : (ℕ × ℕ) × ℤ) (d : ℤ × ℤ) (hd : d ∈ dirs4) :
    (bestStep dist w h cx cy b d = b ∨
      (adj4 (cx, cy) (bestStep dist w h cx cy b d).1 ∧
        inB w h (bestStep dist w h cx cy b d).1 ∧
        lget dist (bestStep dist w h cx cy b d).1.2 (bestStep dist w h cx cy b d).1.1
          = (bestStep dist w h cx cy b d).2 ∧
        (bestStep dist w h cx cy b d).2 ≠ -1)) ∧
    (bestStep dist w h cx cy b d).2 ≤ b.2 := by
  unfold bestStep
  by_cases hc : 0 ≤ (cx : ℤ) + d.1 ∧ 0 ≤ (cy : ℤ) + d.2 ∧
      (cx : ℤ) + d.1 < (w : ℤ) ∧ (cy : ℤ) + d.2 < (h : ℤ) ∧
      lget dist ((cy : ℤ) + d.2).toNat ((cx : ℤ) + d.1).toNat ≠ -1 ∧
      lget dist ((cy : ℤ) + d.2).toNat ((cx : ℤ) + d.1).toNat < b.2
  · rw [if_pos hc]
    obtain ⟨h1, h2, h3, h4, h5, h6⟩ := hc
    have htgt := dirs4_target cx cy w h d hd h1 h2 h3 h4
    exact ⟨Or.inr ⟨htgt.1, htgt.2, rfl, h5⟩, le_of_lt h6⟩
  · rw [if_neg hc]
    exact ⟨Or.inl rfl, le_refl _⟩

theorem bestFold_spec (dist : IntGrid) (w h cx cy : ℕ) :
    ∀ (ds : List (ℤ × ℤ)), (∀ d ∈ ds, d ∈ dirs4) →
    ∀ (b : (ℕ × ℕ) × ℤ),
    (ds.foldl (bestStep dist w h cx cy) b = b ∨
      (adj4 (cx, cy) (ds.foldl (bestStep dist w h cx cy) b).1 ∧
        inB w h (ds.foldl (bestStep dist w h cx cy) b).1 ∧
        lget dist (ds.foldl (bestStep dist w h cx cy) b).1.2
            (ds.foldl (bestStep dist w h cx cy) b).1.1
          = (ds.foldl (bestStep dist w h cx cy) b).2 ∧
        (ds.foldl (bestStep dist w h cx cy) b).2 ≠ -1)) ∧
    (ds.foldl (bestStep dist w h cx cy) b).2 ≤ b.2 := by
  intro ds
  induction ds with
  | nil => intro _ b; exact ⟨Or.inl rfl, le_refl _⟩
  | cons d t ih =>
    intro hds b
    have hstep := bestStep_spec dist w h cx cy b d (hds d (by simp))
    have hrest := ih (fun e he => hds e (by simp [he])) (bestStep dist w h cx cy b d)
    rw [List.foldl_cons]
    constructor
    · rcases hrest.1 with hr | hr
      · rw [hr]
        rcases hstep.1 with hs | hs
        · rw [hs]
          exact Or.inl rfl
        · exact Or.inr hs
      · exact Or.inr hr
    · exact le_trans hrest.2 hstep.2

theorem bestStep_le (dist : IntGrid) (w h cx cy : ℕ)
    (b : (ℕ × ℕ) × ℤ) (d : ℤ × ℤ) :
    (bestStep dist w h cx cy b d).2 ≤ b.2 := by
  unfold bestStep
  by_cases hc : 0 ≤ (cx : ℤ) + d.1 ∧ 0 ≤ (cy : ℤ) + d.2 ∧
      (cx : ℤ) + d.1 < (w : ℤ) ∧ (cy : ℤ) + d.2 < (h : ℤ) ∧
      lget dist ((cy : ℤ) + d.2).toNat ((cx : ℤ) + d.1).toNat ≠ -1 ∧
      lget dist ((cy : ℤ) + d.2).toNat ((cx : ℤ) + d.1).toNat < b.2
  · rw [if_pos hc]
    exact le_of_lt hc.2.2.2.2.2
  · rw [if_neg hc]

theorem bestFold_le (dist : IntGrid) (w h cx cy : ℕ) :
    ∀ (ds : List (ℤ × ℤ)) (b : (ℕ × ℕ) × ℤ),
      (ds.foldl (bestStep dist w h cx cy) b).2 ≤ b.2 := by
  intro ds
  induction ds with
  | nil => intro b; exact le_refl _
  | cons d t ih =>
    intro b
    rw [List.foldl_cons]
    exact le_trans (ih (bestStep dist w h cx cy b d)) (bestStep_le dist w h cx cy b d)

theorem bestFold_min (dist : IntGrid) (w h cx cy : ℕ) :
    ∀ (ds : List (ℤ × ℤ)) (b : (ℕ × ℕ) × ℤ) (e : ℕ × ℕ),
      (∃ d ∈ ds, (cx : ℤ) + d.1 = e.1 ∧ (cy : ℤ) + d.2 = e.2) →
      inB w h e → lget dist e.2 e.1 ≠ -1 →
      (ds.foldl (bestStep dist w h cx cy) b).2 ≤ lget dist e.2 e.1 := by
  intro ds
  induction ds with
  | nil => intro b e he; exact absurd he (by simp)
  | cons d t ih =>
    intro b e he hein hasg
    rw [List.foldl_cons]
    rcases he with ⟨d2, hd2, he1, he2⟩
    rcases List.mem_cons.1 hd2 with rfl | hd2t
    · have hstep : (bestStep dist w h cx cy b d2).2 ≤ lget dist e.2 e.1 := by
        unfold bestStep
        by_cases hlt : lget dist ((cy : ℤ) + d2.2).toNat ((cx : ℤ) + d2.1).toNat < b.2
        · rw [if_pos ?_]
          · dsimp only
            have hx : ((cx : ℤ) + d2.1).toNat = e.1 := by omega
            have hy : ((cy : ℤ) + d2.2).toNat = e.2 := by omega
            rw [hx, hy]
          · obtain ⟨hw1, hw2⟩ := hein
            have hx : ((cx : ℤ) + d2.1).toNat = e.1 := by omega
            have hy : ((cy : ℤ) + d2.2).toNat = e.2 := by omega
            refine ⟨by omega, by omega, by omega, by omega, ?_, hlt⟩
            rw [hx, hy]
            exact hasg
        · rw [if_neg ?_]
          · have hx : ((cx : ℤ) + d2.1).toNat = e.1 := by omega
            have hy : ((cy : ℤ) + d2.2).toNat = e.2 := by omega
            rw [hx, hy] at hlt
            omega
          · intro hcon
            exact hlt hcon.2.2.2.2.2
      exact le_trans (bestFold_le dist w h cx cy t (bestStep dist w h cx cy b d2))
        hstep
    · exact ih (bestStep dist w h cx cy b d) e ⟨d2, hd2t, he1, he2⟩ hein hasg

/-- The descent spec: with a well-formed distance field and `bw ≥ 1` the
loop only clears mask cells, and there is a distance-`0` cell joined by a
background path (in the result) to the start and to every cell the loop
cleared. -/
theorem descend_spec (dist : IntGrid) (w h : ℕ) (bw : ℤ) (hbw : 1 ≤ bw)
    (hge : ∀ c : ℕ × ℕ, inB w h c → lget dist c.2 c.1 ≠ -1 →
      0 ≤ lget dist c.2 c.1)
    (hdec : ∀ c : ℕ × ℕ, inB w h c → 1 ≤ lget dist c.2 c.1 →
      ∃ e, adj4 c e ∧ inB w h e ∧ 0 ≤ lget dist e.2 e.1 ∧
        lget dist e.2 e.1 < lget dist c.2 c.1) :
    ∀ (fuel cx cy : ℕ) (m : MaskGrid), gridSized m w h →
      inB w h (cx, cy) → 0 ≤ lget dist cy cx →
      (lget dist cy cx).toNat < fuel →
      gridSized (descend dist w h bw fuel cx cy m) w h ∧
      (∀ y x, mget (descend dist w h bw fuel cx cy m) y x = true →
        mget m y x = true) ∧
      (∀ y x, mget m y x = false →
        mget (descend dist w h bw fuel cx cy m) y x = false) ∧
      ∃ z : ℕ × ℕ, inB w h z ∧ lget dist z.2 z.1 = 0 ∧
        Relation.ReflTransGen (fun a b => adj4 a b ∧ inB w h b ∧
          mget (descend dist w h bw fuel cx cy m) b.2 b.1 = false) z (cx, cy) ∧
        (∀ c : ℕ × ℕ, mget (descend dist w h bw fuel cx cy m) c.2 c.1 = false →
          mget m c.2 c.1 = true →
          Relation.ReflTransGen (fun a b => adj4 a b ∧ inB w h b ∧
            mget (descend dist w h bw fuel cx cy m) b.2 b.1 = false) z c) := by
  intro fuel
  induction fuel with
  | zero =>
    intro cx cy m _ _ hd0 hfuel
    omega
  | succ f ih =>
    intro cx cy m hsz hcin hd0 hfuel
    by_cases hstop : lget dist cy cx ≤ 0
    · have hz0 : lget dist cy cx = 0 := by omega
      have hunf : descend dist w h bw (f + 1) cx cy m = m := by
        simp only [descend]
        rw [if_pos hstop]
      rw [hunf]
      refine ⟨hsz, fun y x hm => hm, fun y x hm => hm,
        (cx, cy), hcin, hz0, Relation.ReflTransGen.refl, ?_⟩
      intro c hcf hct
      rw [hcf] at hct
      exact absurd hct (by simp)
    · have hpos : 1 ≤ lget dist cy cx := by omega
      have hcarve := carveDisc_spec w h bw cx cy m hsz
      set m1 := carveDisc w h bw cx cy m with hm1
      obtain ⟨e, headj, hein, hev0, hevlt⟩ := hdec (cx, cy) hcin hpos
      obtain ⟨d, hd, hde1, hde2⟩ := adj4_mem_dirs4 cx cy e headj
      have hmin := bestFold_min dist w h cx cy dirs4
        ((cx, cy), lget dist cy cx) e ⟨d, hd, hde1, hde2⟩ hein (by omega)
      have hbsp := bestFold_spec dist w h cx cy dirs4 (fun d2 hd2 => hd2)
        ((cx, cy), lget dist cy cx)
      set best := dirs4.foldl (bestStep dist w h cx cy)
        ((cx, cy), lget dist cy cx) with hbest
      have hblt : best.2 < lget dist cy cx := lt_of_le_of_lt hmin hevlt
      have hbr : adj4 (cx, cy) best.1 ∧ inB w h best.1 ∧
          lget dist best.1.2 best.1.1 = best.2 ∧ best.2 ≠ -1 := by
        rcases hbsp.1 with hb | hb
        · exfalso
          rw [hb] at hblt
          exact absurd rfl (ne_of_lt hblt)
        · exact hb
      have hbne : ¬ best.1 = (cx, cy) := by
        intro heq
        exact absurd heq.symm (adj4_ne hbr.1)
      have hb0 : 0 ≤ lget dist best.1.2 best.1.1 :=
        hge best.1 hbr.2.1 (by rw [hbr.2.2.1]; exact hbr.2.2.2)
      have hbf : (lget dist best.1.2 best.1.1).toNat < f := by
        rw [hbr.2.2.1]
        omega
      have hunf : descend dist w h bw (f + 1) cx cy m
          = descend dist w h bw f best.1.1 best.1.2 m1 := by
        simp only [descend]
        rw [if_neg hstop, ← hbest, if_neg hbne, ← hm1]
      rw [hunf]
      have hrec := ih best.1.1 best.1.2 m1 hcarve.1 hbr.2.1 hb0 hbf
      obtain ⟨hrsz, hrtrue, hrfalse, z, hzin, hz0, hzpath, hzcov⟩ := hrec
      have hcenterf : mget (descend dist w h bw f best.1.1 best.1.2 m1) cy cx
          = false := by
        refine hrfalse cy cx ?_
        refine carveDisc_inDisc w h bw (by omega) cx cy m hsz cy cx hcin.1 hcin.2 ?_
        simp only [sub_self, mul_zero, zero_mul]
        positivity
      refine ⟨hrsz, ?_, ?_, z, hzin, hz0, ?_, ?_⟩
      · intro y x hm
        exact hcarve.2.1 y x (hrtrue y x hm)
      · intro y x hm
        exact hrfalse y x (hcarve.2.2.1 y x hm)
      · exact Relation.ReflTransGen.tail hzpath ⟨adj4_symm hbr.1, hcin, hcenterf⟩
      · intro c hcf hct
        by_cases hc1 : mget m1 c.2 c.1 = true
        · exact hzcov c hcf hc1
        · have hchg : mget m1 c.2 c.1 ≠ mget m c.2 c.1 := by
            rw [hct]
            simp only [Bool.not_eq_true] at hc1
            rw [hc1]
            simp
          obtain ⟨hxw, hyh, hdisc, _⟩ := hcarve.2.2.2 c.2 c.1 hchg
          have hcpath := carveDisc_path w h bw (by omega) cx cy hcin.1 hcin.2 m hsz
            c ⟨hxw, hyh⟩ hdisc
          have hcpath2 : Relation.ReflTransGen (fun a b => adj4 a b ∧ inB w h b ∧
              mget (descend dist w h bw f best.1.1 best.1.2 m1) b.2 b.1 = false)
              (cx, cy) c := by
            refine Relation.ReflTransGen.mono ?_ hcpath
            intro a b hab
            exact ⟨hab.1, hab.2.1, hrfalse b.2 b.1 hab.2.2⟩
          exact Relation.ReflTransGen.trans
            (Relation.ReflTransGen.tail hzpath ⟨adj4_symm hbr.1, hcin, hcenterf⟩)
            hcpath2

/-- With a nonempty arc whose indices stay in range, the arc scan returns
some boundary point together with its distance value. -/
theorem arcBest_some (dist : IntGrid) (bnd : List (ℕ × ℕ)) (i stp : ℕ)
    (hstp : 1 ≤ stp) (hidx : ∀ k < stp, i * stp + k < bnd.length) :
    ∃ b, arcBest dist bnd i stp = some b ∧ b.1 ∈ bnd ∧
      b.2 = lget dist b.1.2 b.1.1 := by
  obtain ⟨s, rfl⟩ : ∃ s, stp = s + 1 := ⟨stp - 1, by omega⟩
  unfold arcBest
  rw [List.range_succ_eq_map, List.foldl_cons]
  have hQ : ∀ (l : List ℕ), (∀ k ∈ l, k < s + 1) →
      ∀ (acc : Option ((ℕ × ℕ) × ℤ)),
      (∃ b, acc = some b ∧ b.1 ∈ bnd ∧ b.2 = lget dist b.1.2 b.1.1) →
      ∃ b, (l.foldl
        (fun (acc : Option ((ℕ × ℕ) × ℤ)) k =>
          let p := bnd.getD (i * (s + 1) + k) (0, 0)
          let dv := lget dist p.2 p.1
          match acc with
          | none => some (p, dv)
          | some b => if dv < b.2 then some (p, dv) else acc)
        acc) = some b ∧ b.1 ∈ bnd ∧ b.2 = lget dist b.1.2 b.1.1 := by
    intro l
    induction l with
    | nil => intro _ acc hacc; exact hacc
    | cons k t ih =>
      intro hkl acc hacc
      rw [List.foldl_cons]
      obtain ⟨b, hb, hbm, hbv⟩ := hacc
      rw [hb]
      dsimp only
      by_cases hlt : lget dist (bnd.getD (i * (s + 1) + k) (0, 0)).2
          (bnd.getD (i * (s + 1) + k) (0, 0)).1 < b.2
      · rw [if_pos hlt]
        refine ih (fun k2 hk2 => hkl k2 (by simp [hk2])) _ ?_
        have hklt : i * (s + 1) + k < bnd.length :=
          hidx k (hkl k (by simp))
        refine ⟨_, rfl, ?_, rfl⟩
        rw [List.getD_eq_getElem bnd (0, 0) hklt]
        exact List.getElem_mem hklt
      · rw [if_neg hlt]
        exact ih (fun k2 hk2 => hkl k2 (by simp [hk2])) _ ⟨b, rfl, hbm, hbv⟩
  refine hQ ((List.range s).map Nat.succ) ?_ _ ?_
  · intro k hk
    rcases List.mem_map.1 hk with ⟨k2, hk2, rfl⟩
    have := List.mem_range.1 hk2
    omega
  · have hklt : i * (s + 1) + 0 < bnd.length := hidx 0 (by omega)
    refine ⟨_, rfl, ?_, rfl⟩
    rw [List.getD_eq_getElem bnd (0, 0) hklt]
    exact List.getElem_mem hklt

/-- The per-arc fold of `bridgeIsland`: each iteration only clears cells,
and each cleared cell is joined to a distance-`0` cell by a background
path in the result. -/
theorem bridgeArcsFold_spec (dist : IntGrid) (w h : ℕ) (bw : ℤ) (hbw : 1 ≤ bw)
    (hge : ∀ c : ℕ × ℕ, inB w h c → lget dist c.2 c.1 ≠ -1 →
      0 ≤ lget dist c.2 c.1)
    (hdec : ∀ c : ℕ × ℕ, inB w h c → 1 ≤ lget dist c.2 c.1 →
      ∃ e, adj4 c e ∧ inB w h e ∧ 0 ≤ lget dist e.2 e.1 ∧
        lget dist e.2 e.1 < lget dist c.2 c.1)
    (bnd : List (ℕ × ℕ)) (stp n : ℕ) (hstp : 1 ≤ stp)
    (hlen : n * stp ≤ bnd.length)
    (hbp : ∀ p ∈ bnd, inB w h p ∧ 0 ≤ lget dist p.2 p.1) :
    ∀ (l : List ℕ), (∀ i ∈ l, i < n) →
    ∀ (m : MaskGrid), gridSized m w h →
    gridSized (l.foldl
      (fun m i =>
        match arcBest dist bnd i stp with
        | none => m
        | some b => descend dist w h bw ((lget dist b.1.2 b.1.1).toNat + 1)
            b.1.1 b.1.2 m) m) w h ∧
    (∀ y x, mget (l.foldl
      (fun m i =>
        match arcBest dist bnd i stp with
        | none => m
        | some b => descend dist w h bw ((lget dist b.1.2 b.1.1).toNat + 1)
            b.1.1 b.1.2 m) m) y x = true → mget m y x = true) ∧
    (∀ y x, mget m y x = false → mget (l.foldl
      (fun m i =>
        match arcBest dist bnd i stp with
        | none => m
        | some b => descend dist w h bw ((lget dist b.1.2 b.1.1).toNat + 1)
            b.1.1 b.1.2 m) m) y x = false) ∧
    (∀ c : ℕ × ℕ, mget (l.foldl
      (fun m i =>
        match arcBest dist bnd i stp with
        | none => m
        | some b => descend dist w h bw ((lget dist b.1.2 b.1.1).toNat + 1)
            b.1.1 b.1.2 m) m) c.2 c.1 = false → mget m c.2 c.1 = true →
      ∃ z : ℕ × ℕ, inB w h z ∧ lget dist z.2 z.1 = 0 ∧
        Relation.ReflTransGen (fun a b => adj4 a b ∧ inB w h b ∧
          mget (l.foldl
            (fun m i =>
              match arcBest dist bnd i stp with
              | none => m
              | some b => descend dist w h bw ((lget dist b.1.2 b.1.1).toNat + 1)
                  b.1.1 b.1.2 m) m) b.2 b.1 = false) z c) := by
  intro l
  induction l with
  | nil =>
    intro _ m hsz
    refine ⟨hsz, fun y x hm => hm, fun y x hm => hm, ?_⟩
    intro c hcf hct
    rw [List.foldl_nil] at hcf
    rw [hcf] at hct
    exact absurd hct (by simp)
  | cons i t ih =>
    intro hil m hsz
    rw [List.foldl_cons]
    have hi : i < n := hil i (by simp)
    have hidx : ∀ k < stp, i * stp + k < bnd.length := by
      intro k hk
      have : (i + 1) * stp ≤ n * stp := Nat.mul_le_mul_right stp (by omega)
      calc i * stp + k < i * stp + stp := by omega
        _ = (i + 1) * stp := by ring
        _ ≤ n * stp := this
        _ ≤ bnd.length := hlen
    obtain ⟨b, hab, hbm, hbv⟩ := arcBest_some dist bnd i stp hstp hidx
    have hstep : (match arcBest dist bnd i stp with
        | none => m
        | some b => descend dist w h bw ((lget dist b.1.2 b.1.1).toNat + 1)
            b.1.1 b.1.2 m)
        = descend dist w h bw ((lget dist b.1.2 b.1.1).toNat + 1) b.1.1 b.1.2 m := by
      rw [hab]
    rw [hstep]
    obtain ⟨hbin, hbval⟩ := hbp b.1 hbm
    have hdesc := descend_spec dist w h bw hbw hge hdec
      ((lget dist b.1.2 b.1.1).toNat + 1) b.1.1 b.1.2 m hsz hbin hbval (by omega)
    obtain ⟨hdsz, hdtrue, hdfalse, z0, hz0in, hz0v, hz0path, hz0cov⟩ := hdesc
    set m0 := descend dist w h bw ((lget dist b.1.2 b.1.1).toNat + 1)
      b.1.1 b.1.2 m with hm0
    have hrest := ih (fun i2 hi2 => hil i2 (by simp [hi2])) m0 hdsz
    obtain ⟨hrsz, hrtrue, hrfalse, hrcov⟩ := hrest
    refine ⟨hrsz, ?_, ?_, ?_⟩
    · intro y x hm
      exact hdtrue y x (hrtrue y x hm)
    · intro y x hm
      exact hrfalse y x (hdfalse y x hm)
    · intro c hcf hct
      by_cases hc0 : mget m0 c.2 c.1 = true
      · exact hrcov c hcf hc0
      · have hc0f : mget m0 c.2 c.1 = false := by
          simp only [Bool.not_eq_true] at hc0
          exact hc0
        refine ⟨z0, hz0in, hz0v, ?_⟩
        refine Relation.ReflTransGen.mono ?_ (hz0cov c hc0f hct)
        intro a b2 hab2
        exact ⟨hab2.1, hab2.2.1, hrfalse b2.2 b2.1 hab2.2.2⟩

/-- Bridging one island: cells are only cleared; some boundary point is
joined to a distance-`0` cell by a background path of the result, and so
is every cell the bridging cleared. -/
theorem bridgeIsland_spec (dist : IntGrid) (w h : ℕ) (bw bc : ℤ) (hbw : 1 ≤ bw)
    (hge : ∀ c : ℕ × ℕ, inB w h c → lget dist c.2 c.1 ≠ -1 →
      0 ≤ lget dist c.2 c.1)
    (hdec : ∀ c : ℕ × ℕ, inB w h c → 1 ≤ lget dist c.2 c.1 →
      ∃ e, adj4 c e ∧ inB w h e ∧ 0 ≤ lget dist e.2 e.1 ∧
        lget dist e.2 e.1 < lget dist c.2 c.1)
    (m : MaskGrid) (isl : IslandRec) (hsz : gridSized m w h)
    (hbne : isl.boundary ≠ [])
    (hbp : ∀ p ∈ isl.boundary, inB w h p ∧ 0 ≤ lget dist p.2 p.1) :
    gridSized (bridgeIsland dist w h bw bc m isl) w h ∧
    (∀ y x, mget (bridgeIsland dist w h bw bc m isl) y x = true →
      mget m y x = true) ∧
    (∀ y x, mget m y x = false →
      mget (bridgeIsland dist w h bw bc m isl) y x = false) ∧
    (∃ b ∈ isl.boundary, ∃ z : ℕ × ℕ, inB w h z ∧ lget dist z.2 z.1 = 0 ∧
      Relation.ReflTransGen (fun a b2 => adj4 a b2 ∧ inB w h b2 ∧
        mget (bridgeIsland dist w h bw bc m isl) b2.2 b2.1 = false) z b) ∧
    (∀ c : ℕ × ℕ, mget (bridgeIsland dist w h bw bc m isl) c.2 c.1 = false →
      mget m c.2 c.1 = true →
      ∃ z : ℕ × ℕ, inB w h z ∧ lget dist z.2 z.1 = 0 ∧
        Relation.ReflTransGen (fun a b2 => adj4 a b2 ∧ inB w h b2 ∧
          mget (bridgeIsland dist w h bw bc m isl) b2.2 b2.1 = false) z c) := by
  have hlen1 : 1 ≤ isl.boundary.length := by
    cases hbl : isl.boundary with
    | nil => exact absurd hbl hbne
    | cons p t => simp [hbl]
  set len := isl.boundary.length with hlendef
  set nz : ℤ := max 1 (min bc ((len / 20 : ℕ) : ℤ)) with hnz
  have hdivle : ((len / 20 : ℕ) : ℤ) ≤ (len : ℤ) := by
    have := Nat.div_le_self len 20
    omega
  have hn1 : 1 ≤ nz := le_max_left 1 _
  have hnlen : nz.toNat ≤ len := by omega
  have hn1n : 1 ≤ nz.toNat := by omega
  set stp := len / nz.toNat with hstp
  have hstp1 : 1 ≤ stp := (Nat.one_le_div_iff (by omega)).2 hnlen
  have hmul : nz.toNat * stp ≤ len := by
    rw [hstp, Nat.mul_comm]
    exact Nat.div_mul_le_self len nz.toNat
  have hunf : bridgeIsland dist w h bw bc m isl
      = (List.range nz.toNat).foldl
        (fun m i =>
          match arcBest dist isl.boundary i stp with
          | none => m
          | some b => descend dist w h bw ((lget dist b.1.2 b.1.1).toNat + 1)
              b.1.1 b.1.2 m) m := rfl
  rw [hunf]
  obtain ⟨s, hs⟩ : ∃ s, nz.toNat = s + 1 := ⟨nz.toNat - 1, by omega⟩
  rw [hs, List.range_succ_eq_map, List.foldl_cons]
  have hidx0 : ∀ k < stp, 0 * stp + k < isl.boundary.length := by
    intro k hk
    have : stp ≤ nz.toNat * stp := Nat.le_mul_of_pos_left stp (by omega)
    omega
  obtain ⟨b, hab, hbm, hbv⟩ := arcBest_some dist isl.boundary 0 stp hstp1 hidx0
  have hstep : (match arcBest dist isl.boundary 0 stp with
      | none => m
      | some b => descend dist w h bw ((lget dist b.1.2 b.1.1).toNat + 1)
          b.1.1 b.1.2 m)
      = descend dist w h bw ((lget dist b.1.2 b.1.1).toNat + 1) b.1.1 b.1.2 m := by
    rw [hab]
  rw [hstep]
  obtain ⟨hbin, hbval⟩ := hbp b.1 hbm
  have hdesc := descend_spec dist w h bw hbw hge hdec
    ((lget dist b.1.2 b.1.1).toNat + 1) b.1.1 b.1.2 m hsz hbin hbval (by omega)
  obtain ⟨hdsz, hdtrue, hdfalse, z0, hz0in, hz0v, hz0path, hz0cov⟩ := hdesc
  set m0 := descend dist w h bw ((lget dist b.1.2 b.1.1).toNat + 1)
    b.1.1 b.1.2 m with hm0
  have hrest := bridgeArcsFold_spec dist w h bw hbw hge hdec isl.boundary stp
    nz.toNat hstp1 hmul hbp ((List.range s).map Nat.succ)
    (fun i2 hi2 => by
      rcases List.mem_map.1 hi2 with ⟨k, hk, rfl⟩
      have := List.mem_range.1 hk
      omega)
    m0 hdsz
  obtain ⟨hrsz, hrtrue, hrfalse, hrcov⟩ := hrest
  refine ⟨hrsz, ?_, ?_, ?_, ?_⟩
  · intro y x hm
    exact hdtrue y x (hrtrue y x hm)
  · intro y x hm
    exact hrfalse y x (hdfalse y x hm)
  · refine ⟨b.1, hbm, z0, hz0in, hz0v, ?_⟩
    refine Relation.ReflTransGen.mono ?_ hz0path
    intro a b2 hab2
    exact ⟨hab2.1, hab2.2.1, hrfalse b2.2 b2.1 hab2.2.2⟩
  · intro c hcf hct
    by_cases hc0 : mget m0 c.2 c.1 = true
    · exact hrcov c hcf hc0
    · have hc0f : mget m0 c.2 c.1 = false := by
        simp only [Bool.not_eq_true] at hc0
        exact hc0
      refine ⟨z0, hz0in, hz0v, ?_⟩
      refine Relation.ReflTransGen.mono ?_ (hz0cov c hc0f hct)
      intro a b2 hab2
      exact ⟨hab2.1, hab2.2.1, hrfalse b2.2 b2.1 hab2.2.2⟩

/-- The islands fold of `postProcessMask`: every island in the list gets a
boundary point joined to the mainland-distance-`0` level by a background
path of the final mask, and every cleared cell likewise. -/
theorem bridgeIslandsFold_spec (dist : IntGrid) (w h : ℕ) (bw bc : ℤ)
    (hbw : 1 ≤ bw)
    (hge : ∀ c : ℕ × ℕ, inB w h c → lget dist c.2 c.1 ≠ -1 →
      0 ≤ lget dist c.2 c.1)
    (hdec : ∀ c : ℕ × ℕ, inB w h c → 1 ≤ lget dist c.2 c.1 →
      ∃ e, adj4 c e ∧ inB w h e ∧ 0 ≤ lget dist e.2 e.1 ∧
        lget dist e.2 e.1 < lget dist c.2 c.1) :
    ∀ (ls : List IslandRec),
    (∀ isl ∈ ls, isl.boundary ≠ [] ∧
      ∀ p ∈ isl.boundary, inB w h p ∧ 0 ≤ lget dist p.2 p.1) →
    ∀ (m : MaskGrid), gridSized m w h →
    gridSized (ls.foldl (bridgeIsland dist w h bw bc) m) w h ∧
    (∀ y x, mget (ls.foldl (bridgeIsland dist w h bw bc) m) y x = true →
      mget m y x = true) ∧
    (∀ y x, mget m y x = false →
      mget (ls.foldl (bridgeIsland dist w h bw bc) m) y x = false) ∧
    (∀ isl ∈ ls, ∃ b ∈ isl.boundary, ∃ z : ℕ × ℕ, inB w h z ∧
      lget dist z.2 z.1 = 0 ∧
      Relation.ReflTransGen (fun a b2 => adj4 a b2 ∧ inB w h b2 ∧
        mget (ls.foldl (bridgeIsland dist w h bw bc) m) b2.2 b2.1 = false) z b) ∧
    (∀ c : ℕ × ℕ, mget (ls.foldl (bridgeIsland dist w h bw bc) m) c.2 c.1 = false →
      mget m c.2 c.1 = true →
      ∃ z : ℕ × ℕ, inB w h z ∧ lget dist z.2 z.1 = 0 ∧
        Relation.ReflTransGen (fun a b2 => adj4 a b2 ∧ inB w h b2 ∧
          mget (ls.foldl (bridgeIsland dist w h bw bc) m) b2.2 b2.1 = false) z c) := by
  intro ls
  induction ls with
  | nil =>
    intro _ m hsz
    refine ⟨hsz, fun y x hm => hm, fun y x hm => hm,
      fun isl hisl => absurd hisl (by simp), ?_⟩
    intro c hcf hct
    rw [List.foldl_nil] at hcf
    rw [hcf] at hct
    exact absurd hct (by simp)
  | cons isl t ih =>
    intro hls m hsz
    rw [List.foldl_cons]
    obtain ⟨hbne, hbp⟩ := hls isl (by simp)
    have hstep := bridgeIsland_spec dist w h bw bc hbw hge hdec m isl hsz hbne hbp
    obtain ⟨hssz, hstrue, hsfalse, ⟨b, hbm, z0, hz0in, hz0v, hz0path⟩, hscov⟩ := hstep
    set m0 := bridgeIsland dist w h bw bc m isl with hm0
    have hrest := ih (fun isl2 hisl2 => hls isl2 (by simp [hisl2])) m0 hssz
    obtain ⟨hrsz, hrtrue, hrfalse, hrisl, hrcov⟩ := hrest
    refine ⟨hrsz, ?_, ?_, ?_, ?_⟩
    · intro y x hm
      exact hstrue y x (hrtrue y x hm)
    · intro y x hm
      exact hrfalse y x (hsfalse y x hm)
    · intro isl2 hisl2
      rcases List.mem_cons.1 hisl2 with rfl | hisl2t
      · refine ⟨b, hbm, z0, hz0in, hz0v, ?_⟩
        refine Relation.ReflTransGen.mono ?_ hz0path
        intro a b2 hab2
        exact ⟨hab2.1, hab2.2.1, hrfalse b2.2 b2.1 hab2.2.2⟩
      · exact hrisl isl2 hisl2t
    · intro c hcf hct
      by_cases hc0 : mget m0 c.2 c.1 = true
      · exact hrcov c hcf hc0
      · have hc0f : mget m0 c.2 c.1 = false := by
          simp only [Bool.not_eq_true] at hc0
          exact hc0
        obtain ⟨z, hzin, hzv, hzpath⟩ := hscov c hc0f hct
        refine ⟨z, hzin, hzv, ?_⟩
        refine Relation.ReflTransGen.mono ?_ hzpath
        intro a b2 hab2
        exact ⟨hab2.1, hab2.2.1, hrfalse b2.2 b2.1 hab2.2.2⟩

/-! ### The island scan: BFS collection of non-mainland background cells -/

/-- Single-step spec of the island-BFS neighbour handling. -/
theorem islandStep_spec (m bg : MaskGrid) (w h cx cy : ℕ)
    (st : MaskGrid × List (ℕ × ℕ) × Bool) (d : ℤ × ℤ) (hd : d ∈ dirs4)
    (hsz : gridSized st.1 w h) :
    gridSized (islandStep m bg w h cx cy st d).1 w h ∧
    (∀ y x, mget st.1 y x = true →
      mget (islandStep m bg w h cx cy st d).1 y x = true) ∧
    (∀ y x, mget (islandStep m bg w h cx cy st d).1 y x = true →
      mget st.1 y x = true ∨
        (adj4 (cx, cy) (x, y) ∧ inB w h (x, y) ∧ mget m y x = false ∧
          mget bg y x = false)) ∧
    (∀ c ∈ (islandStep m bg w h cx cy st d).2.1, c ∈ st.2.1 ∨
      (adj4 (cx, cy) c ∧ inB w h c ∧ mget m c.2 c.1 = false ∧
        mget bg c.2 c.1 = false ∧
        mget (islandStep m bg w h cx cy st d).1 c.2 c.1 = true ∧
        mget st.1 c.2 c.1 = false)) ∧
    (∀ c ∈ st.2.1, c ∈ (islandStep m bg w h cx cy st d).2.1) ∧
    (unmarkedCount w h (islandStep m bg w h cx cy st d).1
        + (islandStep m bg w h cx cy st d).2.1.length
      = unmarkedCount w h st.1 + st.2.1.length) ∧
    (∀ e : ℕ × ℕ, (cx : ℤ) + d.1 = e.1 → (cy : ℤ) + d.2 = e.2 → inB w h e →
      mget m e.2 e.1 = false → mget bg e.2 e.1 = false →
      mget (islandStep m bg w h cx cy st d).1 e.2 e.1 = true) ∧
    (st.2.2 = true → (islandStep m bg w h cx cy st d).2.2 = true) ∧
    (outOrMask m w h (cx, cy) d → (islandStep m bg w h cx cy st d).2.2 = true) := by
  unfold islandStep
  by_cases hb : (cx : ℤ) + d.1 < 0 ∨ (cy : ℤ) + d.2 < 0 ∨
      (w : ℤ) ≤ (cx : ℤ) + d.1 ∨ (h : ℤ) ≤ (cy : ℤ) + d.2 ∨
      mget m ((cy : ℤ) + d.2).toNat ((cx : ℤ) + d.1).toNat = true
  · rw [if_pos hb]
    refine ⟨hsz, fun y x hm => hm, fun y x hm => Or.inl hm,
      fun c hc => Or.inl hc, fun c hc => hc, rfl, ?_, fun _ => rfl, fun _ => rfl⟩
    intro e he1 he2 hein hem hebg
    exfalso
    obtain ⟨hw1, hw2⟩ := hein
    have hx : ((cx : ℤ) + d.1).toNat = e.1 := by omega
    have hy : ((cy : ℤ) + d.2).toNat = e.2 := by omega
    rcases hb with hb | hb | hb | hb | hb
    · omega
    · omega
    · omega
    · omega
    · rw [hx, hy] at hb
      rw [hb] at hem
      exact absurd hem (by simp)
  · rw [if_neg hb]
    push_neg at hb
    obtain ⟨hb1, hb2, hb3, hb4, hb5⟩ := hb
    have htgt := dirs4_target cx cy w h d hd (by omega) (by omega) (by omega) (by omega)
    set tx := ((cx : ℤ) + d.1).toNat with htx
    set ty := ((cy : ℤ) + d.2).toNat with hty
    by_cases hnew : ¬ mget st.1 ty tx ∧ ¬ mget bg ty tx
    · rw [if_pos hnew]
      dsimp only
      have hszb : gridSized (mset st.1 ty tx true) w h := sized_mset _ _ _ _ _ _ hsz
      refine ⟨hszb, ?_, ?_, ?_, ?_, ?_, ?_, fun hf => hf, ?_⟩
      · intro y x hm
        by_cases hc : (x, y) = (tx, ty)
        · rw [show x = tx from congrArg Prod.fst hc, show y = ty from congrArg Prod.snd hc,
            mget_mset_self st.1 w h ty tx true hsz htgt.2.1 htgt.2.2]
        · rw [mget_mset_ne st.1 ty tx true y x hc]
          exact hm
      · intro y x hm
        by_cases hc : (x, y) = (tx, ty)
        · right
          rw [show x = tx from congrArg Prod.fst hc, show y = ty from congrArg Prod.snd hc]
          exact ⟨htgt.1, htgt.2, by simpa using hb5, by simpa using hnew.2⟩
        · rw [mget_mset_ne st.1 ty tx true y x hc] at hm
          exact Or.inl hm
      · intro c hc
        rcases List.mem_append.1 hc with hc | hc
        · exact Or.inl hc
        · right
          rw [List.mem_singleton.1 hc]
          exact ⟨htgt.1, htgt.2, by simpa using hb5, by simpa using hnew.2,
            mget_mset_self st.1 w h ty tx true hsz htgt.2.1 htgt.2.2,
            by simpa using hnew.1⟩
      · intro c hc
        simp [hc]
      · rw [List.length_append, List.length_singleton,
          unmarkedCount_mset w h st.1 tx ty hsz htgt.2.1 htgt.2.2 (by simpa using hnew.1)]
        omega
      · intro e he1 he2 _ _ _
        have hex : e.1 = tx := by omega
        have hey : e.2 = ty := by omega
        rw [hex, hey, mget_mset_self st.1 w h ty tx true hsz htgt.2.1 htgt.2.2]
      · intro hoob
        exfalso
        unfold outOrMask at hoob
        dsimp only at hoob
        rcases hoob with hc | hc | hc | hc | hc
        · omega
        · omega
        · omega
        · omega
        · rw [hc] at hb5
          exact absurd rfl hb5
    · rw [if_neg hnew]
      refine ⟨hsz, fun y x hm => hm, fun y x hm => Or.inl hm,
        fun c hc => Or.inl hc, fun c hc => hc, rfl, ?_, fun hf => hf, ?_⟩
      · intro e he1 he2 hein hem hebg
        have hex : e.1 = tx := by omega
        have hey : e.2 = ty := by omega
        rw [hex, hey]
        rw [hex, hey] at hebg
        rcases Decidable.not_and_iff_or_not.1 hnew with hv | hv
        · simpa using hv
        · exfalso
          rw [Decidable.not_not.1 hv] at hebg
          exact absurd hebg (by simp)
      · intro hoob
        exfalso
        unfold outOrMask at hoob
        dsimp only at hoob
        rcases hoob with hc | hc | hc | hc | hc
        · omega
        · omega
        · omega
        · omega
        · rw [hc] at hb5
          exact absurd rfl hb5

/-- The full neighbour fold of one island-BFS pop. -/
theorem islandFold_spec (m bg : MaskGrid) (w h cx cy : ℕ) :
    ∀ (ds : List (ℤ × ℤ)), (∀ d ∈ ds, d ∈ dirs4) →
    ∀ (st : MaskGrid × List (ℕ × ℕ) × Bool), gridSized st.1 w h →
    gridSized (ds.foldl (islandStep m bg w h cx cy) st).1 w h ∧
    (∀ y x, mget st.1 y x = true →
      mget (ds.foldl (islandStep m bg w h cx cy) st).1 y x = true) ∧
    (∀ y x, mget (ds.foldl (islandStep m bg w h cx cy) st).1 y x = true →
      mget st.1 y x = true ∨
        (adj4 (cx, cy) (x, y) ∧ inB w h (x, y) ∧ mget m y x = false ∧
          mget bg y x = false)) ∧
    (∀ c ∈ (ds.foldl (islandStep m bg w h cx cy) st).2.1, c ∈ st.2.1 ∨
      (adj4 (cx, cy) c ∧ inB w h c ∧ mget m c.2 c.1 = false ∧
        mget bg c.2 c.1 = false ∧
        mget (ds.foldl (islandStep m bg w h cx cy) st).1 c.2 c.1 = true ∧
        mget st.1 c.2 c.1 = false)) ∧
    (∀ c ∈ st.2.1, c ∈ (ds.foldl (islandStep m bg w h cx cy) st).2.1) ∧
    (unmarkedCount w h (ds.foldl (islandStep m bg w h cx cy) st).1
        + (ds.foldl (islandStep m bg w h cx cy) st).2.1.length
      = unmarkedCount w h st.1 + st.2.1.length) ∧
    (∀ e : ℕ × ℕ, (∃ d ∈ ds, (cx : ℤ) + d.1 = e.1 ∧ (cy : ℤ) + d.2 = e.2) →
      inB w h e → mget m e.2 e.1 = false → mget bg e.2 e.1 = false →
      mget (ds.foldl (islandStep m bg w h cx cy) st).1 e.2 e.1 = true) ∧
    (st.2.2 = true → (ds.foldl (islandStep m bg w h cx cy) st).2.2 = true) ∧
    ((∃ d ∈ ds, outOrMask m w h (cx, cy) d) →
      (ds.foldl (islandStep m bg w h cx cy) st).2.2 = true) := by
  intro ds
  induction ds with
  | nil =>
    intro _ st hsz
    exact ⟨hsz, fun y x hm => hm, fun y x hm => Or.inl hm,
      fun c hc => Or.inl hc, fun c hc => hc, rfl,
      fun e he _ _ _ => absurd he (by simp), fun hf => hf,
      fun he => absurd he (by simp)⟩
  | cons d ds ih =>
    intro hds st hsz
    have hd : d ∈ dirs4 := hds d (by simp)
    have hstep := islandStep_spec m bg w h cx cy st d hd hsz
    have hrest := ih (fun e he => hds e (by simp [he])) (islandStep m bg w h cx cy st d)
      hstep.1
    rw [List.foldl_cons]
    refine ⟨hrest.1, ?_, ?_, ?_, ?_, ?_, ?_, ?_, ?_⟩
    · intro y x hm
      exact hrest.2.1 y x (hstep.2.1 y x hm)
    · intro y x hm
      rcases hrest.2.2.1 y x hm with hm2 | hm2
      · exact hstep.2.2.1 y x hm2
      · exact Or.inr hm2
    · intro c hc
      rcases hrest.2.2.2.1 c hc with hc2 | hc2
      · rcases hstep.2.2.2.1 c hc2 with hc3 | hc3
        · exact Or.inl hc3
        · exact Or.inr ⟨hc3.1, hc3.2.1, hc3.2.2.1, hc3.2.2.2.1,
            hrest.2.1 c.2 c.1 hc3.2.2.2.2.1, hc3.2.2.2.2.2⟩
      · refine Or.inr ⟨hc2.1, hc2.2.1, hc2.2.2.1, hc2.2.2.2.1, hc2.2.2.2.2.1, ?_⟩
        by_contra hcon
        have hcv : mget st.1 c.2 c.1 = true := by
          cases hcc : mget st.1 c.2 c.1
          · exact absurd hcc hcon
          · rfl
        rw [hstep.2.1 c.2 c.1 hcv] at hc2
        exact absurd hc2.2.2.2.2.2 (by simp)
    · intro c hc
      exact hrest.2.2.2.2.1 c (hstep.2.2.2.2.1 c hc)
    · rw [hrest.2.2.2.2.2.1, hstep.2.2.2.2.2.1]
    · intro e he hein hem hebg
      rcases he with ⟨d2, hd2, he1, he2⟩
      rcases List.mem_cons.1 hd2 with rfl | hd2t
      · exact hrest.2.1 e.2 e.1 (hstep.2.2.2.2.2.2.1 e he1 he2 hein hem hebg)
      · exact hrest.2.2.2.2.2.2.1 e ⟨d2, hd2t, he1, he2⟩ hein hem hebg
    · intro hf
      exact hrest.2.2.2.2.2.2.2.1 (hstep.2.2.2.2.2.2.2.1 hf)
    · intro he
      rcases he with ⟨d2, hd2, hoob⟩
      rcases List.mem_cons.1 hd2 with rfl | hd2t
      · exact hrest.2.2.2.2.2.2.2.1 (hstep.2.2.2.2.2.2.2.2 hoob)
      · exact hrest.2.2.2.2.2.2.2.2 ⟨d2, hd2t, hoob⟩

theorem islandStep_new_in_queue (m bg : MaskGrid) (w h cx cy : ℕ)
    (st : MaskGrid × List (ℕ × ℕ) × Bool) (d : ℤ × ℤ) :
    ∀ y x, mget (islandStep m bg w h cx cy st d).1 y x = true →
      mget st.1 y x = false → (x, y) ∈ (islandStep m bg w h cx cy st d).2.1 := by
  intro y x
  unfold islandStep
  by_cases hb : (cx : ℤ) + d.1 < 0 ∨ (cy : ℤ) + d.2 < 0 ∨
      (w : ℤ) ≤ (cx : ℤ) + d.1 ∨ (h : ℤ) ≤ (cy : ℤ) + d.2 ∨
      mget m ((cy : ℤ) + d.2).toNat ((cx : ℤ) + d.1).toNat = true
  · rw [if_pos hb]
    intro hm hf
    rw [hm] at hf
    exact absurd hf (by simp)
  · rw [if_neg hb]
    by_cases hnew : ¬ mget st.1 ((cy : ℤ) + d.2).toNat ((cx : ℤ) + d.1).toNat ∧
        ¬ mget bg ((cy : ℤ) + d.2).toNat ((cx : ℤ) + d.1).toNat
    · rw [if_pos hnew]
      dsimp only
      intro hm hf
      by_cases hc : (x, y) = (((cx : ℤ) + d.1).toNat, ((cy : ℤ) + d.2).toNat)
      · simp [hc]
      · rw [mget_mset_ne _ _ _ _ _ _ hc] at hm
        rw [hm] at hf
        exact absurd hf (by simp)
    · rw [if_neg hnew]
      intro hm hf
      rw [hm] at hf
      exact absurd hf (by simp)

theorem islandFold_new_in_queue (m bg : MaskGrid) (w h cx cy : ℕ) :
    ∀ (ds : List (ℤ × ℤ)), (∀ d ∈ ds, d ∈ dirs4) →
    ∀ (st : MaskGrid × List (ℕ × ℕ) × Bool), gridSized st.1 w h →
      ∀ y x, mget (ds.foldl (islandStep m bg w h cx cy) st).1 y x = true →
        mget st.1 y x = false →
        (x, y) ∈ (ds.foldl (islandStep m bg w h cx cy) st).2.1 := by
  intro ds
  induction ds with
  | nil =>
    intro _ st _ y x hm hf
    rw [List.foldl_nil] at hm
    rw [hm] at hf
    exact absurd hf (by simp)
  | cons d t ih =>
    intro hds st hsz y x hm hf
    have hd : d ∈ dirs4 := hds d (by simp)
    have hstep := islandStep_spec m bg w h cx cy st d hd hsz
    rw [List.foldl_cons] at hm ⊢
    by_cases hmid : mget (islandStep m bg w h cx cy st d).1 y x = true
    · have hq := islandStep_new_in_queue m bg w h cx cy st d y x hmid hf
      exact (islandFold_spec m bg w h cx cy t (fun e he => hds e (by simp [he]))
        (islandStep m bg w h cx cy st d) hstep.1).2.2.2.2.1 (x, y) hq
    · have hmidf : mget (islandStep m bg w h cx cy st d).1 y x = false := by
        cases hc : mget (islandStep m bg w h cx cy st d).1 y x
        · rfl
        · exact absurd hc hmid
      exact ih (fun e he => hds e (by simp [he])) _ hstep.1 y x hm hmidf

/-- Master spec of the island BFS: with enough fuel the queue is fully
drained into `pixels`; pixels are in-bounds non-mainland background cells
(satisfying any predicate `EXTRA` that covers freshly visited cells),
their island neighbours are all visited, boundary-flagged pops land in
`boundary`, `boundary` is a subset of `pixels`, and every pixel is joined
to the root by a path of visited island cells. -/
theorem islandBfs_master (m bg : MaskGrid) (w h : ℕ) (EXTRA : ℕ × ℕ → Prop)
    (r0 : ℕ × ℕ) :
    ∀ (fuel : ℕ) (q : List (ℕ × ℕ)) (vis : MaskGrid) (px bd : List (ℕ × ℕ)),
      gridSized vis w h →
      (∀ a ∈ q, inB w h a ∧ mget m a.2 a.1 = false ∧ mget bg a.2 a.1 = false ∧
        mget vis a.2 a.1 = true ∧ EXTRA a) →
      (∀ e : ℕ × ℕ, inB w h e → mget m e.2 e.1 = false → mget bg e.2 e.1 = false →
        mget vis e.2 e.1 = false → EXTRA e) →
      unmarkedCount w h vis + q.length ≤ fuel →
      (∀ a : ℕ × ℕ, mget vis a.2 a.1 = true → a ∈ q ∨
        (∀ e, adj4 a e → inB w h e → mget m e.2 e.1 = false →
          mget bg e.2 e.1 = false → mget vis e.2 e.1 = true)) →
      (∀ p ∈ px, inB w h p ∧ mget m p.2 p.1 = false ∧ mget bg p.2 p.1 = false ∧
        mget vis p.2 p.1 = true ∧ EXTRA p) →
      (∀ p ∈ px, ∀ e, adj4 p e → inB w h e → mget m e.2 e.1 = false →
        mget bg e.2 e.1 = false → mget vis e.2 e.1 = true) →
      (∀ p ∈ px, (∃ d ∈ dirs4, outOrMask m w h p d) → p ∈ bd) →
      (∀ b ∈ bd, b ∈ px) →
      (∀ a ∈ q, Relation.ReflTransGen (fun a2 b2 => adj4 a2 b2 ∧ inB w h b2 ∧
        mget m b2.2 b2.1 = false ∧ mget bg b2.2 b2.1 = false ∧ EXTRA b2 ∧
        mget vis b2.2 b2.1 = true) r0 a) →
      (∀ p ∈ px, Relation.ReflTransGen (fun a2 b2 => adj4 a2 b2 ∧ inB w h b2 ∧
        mget m b2.2 b2.1 = false ∧ mget bg b2.2 b2.1 = false ∧ EXTRA b2 ∧
        mget vis b2.2 b2.1 = true) r0 p) →
      gridSized (islandBfs m bg w h fuel q vis px bd).1 w h ∧
      (∀ y x, mget vis y x = true →
        mget (islandBfs m bg w h fuel q vis px bd).1 y x = true) ∧
      (∀ a : ℕ × ℕ, mget (islandBfs m bg w h fuel q vis px bd).1 a.2 a.1 = true →
        mget vis a.2 a.1 = true ∨ a ∈ (islandBfs m bg w h fuel q vis px bd).2.1) ∧
      (∀ a ∈ q, a ∈ (islandBfs m bg w h fuel q vis px bd).2.1) ∧
      (∀ p ∈ px, p ∈ (islandBfs m bg w h fuel q vis px bd).2.1) ∧
      (∀ p ∈ (islandBfs m bg w h fuel q vis px bd).2.1,
        inB w h p ∧ mget m p.2 p.1 = false ∧ mget bg p.2 p.1 = false ∧
        mget (islandBfs m bg w h fuel q vis px bd).1 p.2 p.1 = true ∧ EXTRA p) ∧
      (∀ p ∈ (islandBfs m bg w h fuel q vis px bd).2.1,
        ∀ e, adj4 p e → inB w h e → mget m e.2 e.1 = false →
          mget bg e.2 e.1 = false →
          mget (islandBfs m bg w h fuel q vis px bd).1 e.2 e.1 = true) ∧
      (∀ p ∈ (islandBfs m bg w h fuel q vis px bd).2.1,
        (∃ d ∈ dirs4, outOrMask m w h p d) →
          p ∈ (islandBfs m bg w h fuel q vis px bd).2.2) ∧
      (∀ b ∈ (islandBfs m bg w h fuel q vis px bd).2.2,
        b ∈ (islandBfs m bg w h fuel q vis px bd).2.1) ∧
      (∀ p ∈ (islandBfs m bg w h fuel q vis px bd).2.1,
        Relation.ReflTransGen (fun a2 b2 => adj4 a2 b2 ∧ inB w h b2 ∧
          mget m b2.2 b2.1 = false ∧ mget bg b2.2 b2.1 = false ∧ EXTRA b2 ∧
          mget (islandBfs m bg w h fuel q vis px bd).1 b2.2 b2.1 = true) r0 p) := by
  intro fuel
  induction fuel with
  | zero =>
    intro q vis px bd hsz hq hextra hfuel hclosed hpx hpxcl hpxflag hbd hqpath hpxpath
    have hq0 : q = [] := List.length_eq_zero.1 (by omega)
    subst hq0
    simp only [islandBfs]
    exact ⟨hsz, fun y x hm => hm, fun a ha => Or.inl ha,
      fun a ha => absurd ha (by simp), fun p hp => hp, hpx, hpxcl, hpxflag,
      hbd, hpxpath⟩
  | succ f ih =>
    intro q vis px bd hsz hq hextra hfuel hclosed hpx hpxcl hpxflag hbd hqpath hpxpath
    cases q with
    | nil =>
      simp only [islandBfs]
      exact ⟨hsz, fun y x hm => hm, fun a ha => Or.inl ha,
        fun a ha => absurd ha (by simp), fun p hp => hp, hpx, hpxcl, hpxflag,
        hbd, hpxpath⟩
    | cons c0 q =>
      obtain ⟨cx, cy⟩ := c0
      simp only [islandBfs]
      have hhead := hq (cx, cy) (by simp)
      have hfold := islandFold_spec m bg w h cx cy dirs4 (fun d hd => hd)
        (vis, [], false) hsz
      dsimp only at hfold
      set st := dirs4.foldl (islandStep m bg w h cx cy) (vis, [], false) with hstdef
      have hheadcl : ∀ e, adj4 (cx, cy) e → inB w h e → mget m e.2 e.1 = false →
          mget bg e.2 e.1 = false → mget st.1 e.2 e.1 = true := by
        intro e hadj hin hm2 hbg2
        rcases adj4_mem_dirs4 cx cy e hadj with ⟨d, hd, he1, he2⟩
        exact hfold.2.2.2.2.2.2.1 e ⟨d, hd, he1, he2⟩ hin hm2 hbg2
      have hstq : ∀ c ∈ st.2.1, adj4 (cx, cy) c ∧ inB w h c ∧
          mget m c.2 c.1 = false ∧ mget bg c.2 c.1 = false ∧
          mget st.1 c.2 c.1 = true ∧ mget vis c.2 c.1 = false := by
        intro c hc
        rcases hfold.2.2.2.1 c hc with hc2 | hc2
        · simp at hc2
        · exact hc2
      have hrec := ih (q ++ st.2.1) st.1 (px ++ [(cx, cy)])
        (if st.2.2 = true then bd ++ [(cx, cy)] else bd)
        hfold.1
        (by
          intro a ha
          rcases List.mem_append.1 ha with ha2 | ha2
          · obtain ⟨h1, h2, h3, h4, h5⟩ := hq a (by simp [ha2])
            exact ⟨h1, h2, h3, hfold.2.1 a.2 a.1 h4, h5⟩
          · obtain ⟨h1, h2, h3, h4, h5, h6⟩ := hstq a ha2
            exact ⟨h2, h3, h4, h5, hextra a h2 h3 h4 h6⟩)
        (by
          intro e h1 h2 h3 h4
          refine hextra e h1 h2 h3 ?_
          by_contra hcon
          have hv : mget vis e.2 e.1 = true := by
            cases hc : mget vis e.2 e.1
            · exact absurd hc hcon
            · rfl
          rw [hfold.2.1 e.2 e.1 hv] at h4
          exact absurd h4 (by simp))
        (by
          have hcount := hfold.2.2.2.2.2.1
          simp only [List.length_nil] at hcount
          rw [List.length_append]
          simp only [List.length_cons] at hfuel
          omega)
        (by
          intro a ha
          by_cases hv : mget vis a.2 a.1 = true
          · rcases hclosed a hv with hmem | hcl
            · rcases List.mem_cons.1 hmem with heq | hmem2
              · right
                intro e hadj hin hm2 hbg2
                rw [show a = (cx, cy) from heq] at hadj
                exact hheadcl e hadj hin hm2 hbg2
              · exact Or.inl (List.mem_append_left _ hmem2)
            · right
              intro e hadj hin hm2 hbg2
              exact hfold.2.1 e.2 e.1 (hcl e hadj hin hm2 hbg2)
          · left
            refine List.mem_append_right q ?_
            have hvf : mget vis a.2 a.1 = false := by
              cases hc : mget vis a.2 a.1
              · rfl
              · exact absurd hc hv
            have := islandFold_new_in_queue m bg w h cx cy dirs4 (fun d hd => hd)
              (vis, [], false) hsz a.2 a.1 ha hvf
            obtain ⟨a1, a2⟩ := a
            exact this)
        (by
          intro p hp
          rcases List.mem_append.1 hp with hp2 | hp2
          · obtain ⟨h1, h2, h3, h4, h5⟩ := hpx p hp2
            exact ⟨h1, h2, h3, hfold.2.1 p.2 p.1 h4, h5⟩
          · rw [List.mem_singleton.1 hp2]
            obtain ⟨h1, h2, h3, h4, h5⟩ := hhead
            exact ⟨h1, h2, h3, hfold.2.1 cy cx h4, h5⟩)
        (by
          intro p hp e hadj hin hm2 hbg2
          rcases List.mem_append.1 hp with hp2 | hp2
          · exact hfold.2.1 e.2 e.1 (hpxcl p hp2 e hadj hin hm2 hbg2)
          · rw [List.mem_singleton.1 hp2] at hadj
            exact hheadcl e hadj hin hm2 hbg2)
        (by
          intro p hp hbad
          rcases List.mem_append.1 hp with hp2 | hp2
          · have := hpxflag p hp2 hbad
            by_cases hflag : st.2.2 = true
            · rw [if_pos hflag]
              exact List.mem_append_left _ this
            · rw [if_neg hflag]
              exact this
          · rw [List.mem_singleton.1 hp2] at hbad ⊢
            have hflag : st.2.2 = true := hfold.2.2.2.2.2.2.2.2 hbad
            rw [if_pos hflag]
            exact List.mem_append_right _ (by simp))
        (by
          intro b hb
          by_cases hflag : st.2.2 = true
          · rw [if_pos hflag] at hb
            rcases List.mem_append.1 hb with hb2 | hb2
            · exact List.mem_append_left _ (hbd b hb2)
            · exact List.mem_append_right _ hb2
          · rw [if_neg hflag] at hb
            exact List.mem_append_left _ (hbd b hb))
        (by
          intro a ha
          rcases List.mem_append.1 ha with ha2 | ha2
          · refine Relation.ReflTransGen.mono ?_ (hqpath a (by simp [ha2]))
            intro a2 b2 hab
            exact ⟨hab.1, hab.2.1, hab.2.2.1, hab.2.2.2.1, hab.2.2.2.2.1,
              hfold.2.1 b2.2 b2.1 hab.2.2.2.2.2⟩
          · obtain ⟨h1, h2, h3, h4, h5, h6⟩ := hstq a ha2
            refine Relation.ReflTransGen.tail ?_
              ⟨h1, h2, h3, h4, hextra a h2 h3 h4 h6, h5⟩
            refine Relation.ReflTransGen.mono ?_ (hqpath (cx, cy) (by simp))
            intro a2 b2 hab
            exact ⟨hab.1, hab.2.1, hab.2.2.1, hab.2.2.2.1, hab.2.2.2.2.1,
              hfold.2.1 b2.2 b2.1 hab.2.2.2.2.2⟩)
        (by
          intro p hp
          rcases List.mem_append.1 hp with hp2 | hp2
          · refine Relation.ReflTransGen.mono ?_ (hpxpath p hp2)
            intro a2 b2 hab
            exact ⟨hab.1, hab.2.1, hab.2.2.1, hab.2.2.2.1, hab.2.2.2.2.1,
              hfold.2.1 b2.2 b2.1 hab.2.2.2.2.2⟩
          · rw [List.mem_singleton.1 hp2]
            refine Relation.ReflTransGen.mono ?_ (hqpath (cx, cy) (by simp))
            intro a2 b2 hab
            exact ⟨hab.1, hab.2.1, hab.2.2.1, hab.2.2.2.1, hab.2.2.2.2.1,
              hfold.2.1 b2.2 b2.1 hab.2.2.2.2.2⟩)
      obtain ⟨k1, k2, k3, k4, k5, k6, k7, k8, k9, k10⟩ := hrec
      refine ⟨k1, ?_, ?_, ?_, ?_, k6, k7, k8, k9, k10⟩
      · intro y x hm
        exact k2 y x (hfold.2.1 y x hm)
      · intro a ha
        rcases k3 a ha with hst | hin2
        · by_cases hv : mget vis a.2 a.1 = true
          · exact Or.inl hv
          · right
            have hvf : mget vis a.2 a.1 = false := by
              cases hc : mget vis a.2 a.1
              · rfl
              · exact absurd hc hv
            have hqmem := islandFold_new_in_queue m bg w h cx cy dirs4
              (fun d hd => hd) (vis, [], false) hsz a.2 a.1 hst hvf
            refine k4 (a.1, a.2) (List.mem_append_right q ?_)
            exact hqmem
        · exact Or.inr hin2
      · intro a ha
        rcases List.mem_cons.1 ha with heq | hmem
        · rw [heq]
          exact k5 (cx, cy) (List.mem_append_right px (by simp))
        · exact k4 a (List.mem_append_left _ hmem)
      · intro p hp
        exact k5 p (List.mem_append_left _ hp)

/-- The noise-flip fold (line 627): setting a list of in-bounds cells to
foreground. -/
theorem flipFold_spec (w h : ℕ) :
    ∀ (l : List (ℕ × ℕ)) (g : MaskGrid), gridSized g w h →
      (∀ p ∈ l, inB w h p) →
      gridSized (l.foldl (fun g p => mset g p.2 p.1 true) g) w h ∧
      (∀ y x, mget g y x = true →
        mget (l.foldl (fun g p => mset g p.2 p.1 true) g) y x = true) ∧
      (∀ y x, mget (l.foldl (fun g p => mset g p.2 p.1 true) g) y x = true →
        mget g y x = true ∨ (x, y) ∈ l) ∧
      (∀ p ∈ l, mget (l.foldl (fun g p => mset g p.2 p.1 true) g) p.2 p.1 = true) := by
  intro l
  induction l with
  | nil =>
    intro g hsz _
    exact ⟨hsz, fun y x hm => hm, fun y x hm => Or.inl hm,
      fun p hp => absurd hp (by simp)⟩
  | cons p0 t ih =>
    intro g hsz hin
    have hp0 := hin p0 (by simp)
    have hsz1 : gridSized (mset g p0.2 p0.1 true) w h := sized_mset _ _ _ _ _ _ hsz
    have hrest := ih (mset g p0.2 p0.1 true) hsz1 (fun p hp => hin p (by simp [hp]))
    rw [List.foldl_cons]
    refine ⟨hrest.1, ?_, ?_, ?_⟩
    · intro y x hm
      refine hrest.2.1 y x ?_
      by_cases hc : (x, y) = (p0.1, p0.2)
      · rw [show x = p0.1 from congrArg Prod.fst hc, show y = p0.2 from congrArg Prod.snd hc]
        exact mget_mset_self g w h p0.2 p0.1 true hsz hp0.1 hp0.2
      · rw [mget_mset_ne g p0.2 p0.1 true y x hc]
        exact hm
    · intro y x hm
      rcases hrest.2.2.1 y x hm with hm2 | hm2
      · by_cases hc : (x, y) = (p0.1, p0.2)
        · right
          have h1 : x = p0.1 := congrArg Prod.fst hc
          have h2 : y = p0.2 := congrArg Prod.snd hc
          rw [h1, h2]
          simp
        · rw [mget_mset_ne g p0.2 p0.1 true y x hc] at hm2
          exact Or.inl hm2
      · exact Or.inr (by simp [hm2])
    · intro p hp
      rcases List.mem_cons.1 hp with rfl | hpt
      · refine hrest.2.1 p.2 p.1 ?_
        exact mget_mset_self g w h p.2 p.1 true hsz hp0.1 hp0.2
      · exact hrest.2.2.2 p hpt

/-- Setting a cell to true never clears a true cell, sized or not. -/
theorem mset_true_mono (g : MaskGrid) (py px2 y x : ℕ)
    (hm : mget g y x = true) : mget (mset g py px2 true) y x = true := by
  by_cases hc : (x, y) = (px2, py)
  · have h1 : x = px2 := congrArg Prod.fst hc
    have h2 : y = py := congrArg Prod.snd hc
    rw [h1, h2] at hm ⊢
    unfold mget at hm
    unfold mget mset
    have hyl : py < g.length := by
      by_contra hcon
      have hrow : g.getD py [] = [] := by
        rw [List.getD_eq_getElem?_getD, List.getElem?_eq_none (by omega)]
        rfl
      rw [hrow] at hm
      simp [List.getD] at hm
    have hxl : px2 < (g.getD py []).length := by
      by_contra hcon
      rw [List.getD_eq_getElem?_getD (g.getD py []),
        List.getElem?_eq_none (by omega)] at hm
      simp at hm
    rw [getD_set_self _ _ _ _ hyl, getD_set_self _ _ _ _ hxl]
  · rw [mget_mset_ne g py px2 true y x hc]
    exact hm

/-- One scan step only adds foreground cells and only appends islands. -/
theorem islandScanStep_mono (bg : MaskGrid) (w h : ℕ)
    (st : MaskGrid × MaskGrid × List IslandRec) (c : ℕ × ℕ) :
    (∀ y x, mget st.1 y x = true →
      mget (islandScanStep bg w h st c).1 y x = true) ∧
    (∀ I ∈ st.2.2, I ∈ (islandScanStep bg w h st c).2.2) := by
  unfold islandScanStep
  by_cases hg : mget st.1 c.2 c.1 = true ∨ mget bg c.2 c.1 = true ∨
      mget st.2.1 c.2 c.1 = true
  · rw [if_pos hg]
    exact ⟨fun y x hm => hm, fun I hI => hI⟩
  · rw [if_neg hg]
    dsimp only
    set r := islandBfs st.1 bg w h (w * h) [c] (mset st.2.1 c.2 c.1 true) [] []
      with hr
    by_cases hsmall : r.2.1.length < 20
    · rw [if_pos hsmall]
      dsimp only
      constructor
      · intro y x hm
        have hgen : ∀ (l : List (ℕ × ℕ)) (g : MaskGrid), mget g y x = true →
            mget (l.foldl (fun g p => mset g p.2 p.1 true) g) y x = true := by
          intro l
          induction l with
          | nil => intro g hg2; exact hg2
          | cons p t ihl =>
            intro g hg2
            rw [List.foldl_cons]
            exact ihl (mset g p.2 p.1 true) (mset_true_mono g p.2 p.1 y x hg2)
        exact hgen r.2.1 st.1 hm
      · exact fun I hI => hI
    · rw [if_neg hsmall]
      exact ⟨fun y x hm => hm, fun I hI => by simp [hI]⟩

/-- One island-scan step preserves the scan invariant. -/
theorem islandScanStep_inv (m bg : MaskGrid) (w h : ℕ)
    (hbgcl : ∀ a : ℕ × ℕ, mget bg a.2 a.1 = true → ∀ e, adj4 a e → inB w h e →
      mget m e.2 e.1 = false → mget bg e.2 e.1 = true)
    (st : MaskGrid × MaskGrid × List IslandRec) (c : ℕ × ℕ) (hcin : inB w h c)
    (hinv : scanInv m bg w h st) :
    scanInv m bg w h (islandScanStep bg w h st c) := by
  obtain ⟨hsz1, hsz2, hmono, hflip, hsound, hclosed, hres, hisl⟩ := hinv
  unfold islandScanStep
  by_cases hg : mget st.1 c.2 c.1 = true ∨ mget bg c.2 c.1 = true ∨
      mget st.2.1 c.2 c.1 = true
  · rw [if_pos hg]
    exact ⟨hsz1, hsz2, hmono, hflip, hsound, hclosed, hres, hisl⟩
  · rw [if_neg hg]
    push_neg at hg
    obtain ⟨hgm, hgbg, hgv⟩ := hg
    have hgmf : mget st.1 c.2 c.1 = false := by
      cases hcc : mget st.1 c.2 c.1
      · rfl
      · exact absurd hcc hgm
    have hgbgf : mget bg c.2 c.1 = false := by
      cases hcc : mget bg c.2 c.1
      · rfl
      · exact absurd hcc hgbg
    have hgvf : mget st.2.1 c.2 c.1 = false := by
      cases hcc : mget st.2.1 c.2 c.1
      · rfl
      · exact absurd hcc hgv
    have hmorigc : mget m c.2 c.1 = false := by
      cases hcc : mget m c.2 c.1
      · rfl
      · rw [hmono c.2 c.1 hcc] at hgmf
        exact absurd hgmf (by simp)
    have hszvm : gridSized (mset st.2.1 c.2 c.1 true) w h :=
      sized_mset _ _ _ _ _ _ hsz2
    have hvmself : mget (mset st.2.1 c.2 c.1 true) c.2 c.1 = true :=
      mget_mset_self st.2.1 w h c.2 c.1 true hsz2 hcin.1 hcin.2
    have hK := islandBfs_master st.1 bg w h
      (fun a => mget st.2.1 a.2 a.1 = false) c (w * h) [c]
      (mset st.2.1 c.2 c.1 true) [] [] hszvm
      (by
        intro a ha
        rw [List.mem_singleton.1 ha]
        exact ⟨hcin, hgmf, hgbgf, hvmself, hgvf⟩)
      (by
        intro e _ _ _ hf
        cases hv : mget st.2.1 e.2 e.1
        · rfl
        · rw [mset_true_mono st.2.1 c.2 c.1 e.2 e.1 hv] at hf
          exact absurd hf (by simp))
      (by
        have := unmarkedCount_lt w h (mset st.2.1 c.2 c.1 true) c.1 c.2
          hcin.1 hcin.2 hvmself
        simp only [List.length_singleton]
        omega)
      (by
        intro a ha
        by_cases hac : (a.1, a.2) = (c.1, c.2)
        · left
          have h1 := congrArg Prod.fst hac
          have h2 := congrArg Prod.snd hac
          dsimp only at h1 h2
          simp [Prod.ext h1 h2]
        · have hav : mget st.2.1 a.2 a.1 = true := by
            rw [mget_mset_ne st.2.1 c.2 c.1 true a.2 a.1 hac] at ha
            exact ha
          right
          intro e hadj hin hm2 hbg2
          have hmorig : mget m e.2 e.1 = false := by
            cases hcc : mget m e.2 e.1
            · rfl
            · rw [hmono e.2 e.1 hcc] at hm2
              exact absurd hm2 (by simp)
          exact mset_true_mono st.2.1 c.2 c.1 e.2 e.1
            (hclosed a hav e hadj hin hmorig hbg2))
      (fun p hp => absurd hp (by simp))
      (fun p hp => absurd hp (by simp))
      (fun p hp => absurd hp (by simp))
      (fun b hb => absurd hb (by simp))
      (by
        intro a ha
        rw [List.mem_singleton.1 ha])
      (fun p hp => absurd hp (by simp))
    obtain ⟨k1, k2, k3, k4, k5, k6, k7, k8, k9, k10⟩ := hK
    set r := islandBfs st.1 bg w h (w * h) [c] (mset st.2.1 c.2 c.1 true) [] []
      with hrdef
    have hcpx : c ∈ r.2.1 := k4 c (by simp)
    have hpxorig : ∀ p ∈ r.2.1, mget m p.2 p.1 = false := by
      intro p hp
      cases hcc : mget m p.2 p.1
      · rfl
      · exfalso
        have ht := hmono p.2 p.1 hcc
        rw [(k6 p hp).2.1] at ht
        exact absurd ht (by simp)
    have hvmono2 : ∀ y x, mget st.2.1 y x = true → mget r.1 y x = true :=
      fun y x hv => k2 y x (mset_true_mono st.2.1 c.2 c.1 y x hv)
    have hvis2sound : ∀ y x, mget r.1 y x = true →
        inB w h (x, y) ∧ mget m y x = false ∧ mget bg y x = false := by
      intro y x hv
      rcases k3 (x, y) hv with hvm | hpx
      · by_cases hxy : ((x, y).1, (x, y).2) = (c.1, c.2)
        · have h1 := congrArg Prod.fst hxy
          have h2 := congrArg Prod.snd hxy
          dsimp only at h1 h2
          rw [h1, h2]
          exact ⟨hcin, hmorigc, hgbgf⟩
        · rw [mget_mset_ne st.2.1 c.2 c.1 true y x hxy] at hvm
          exact hsound y x hvm
      · exact ⟨(k6 _ hpx).1, hpxorig _ hpx, (k6 _ hpx).2.2.1⟩
    have hpxclosure : ∀ p ∈ r.2.1, ∀ e, adj4 p e → inB w h e →
        mget m e.2 e.1 = false → mget bg e.2 e.1 = false →
        mget r.1 e.2 e.1 = true := by
      intro p hp e hadj hin hm2 hbg2
      by_cases hse : mget st.1 e.2 e.1 = true
      · rcases hflip e.2 e.1 hse with hme | hve
        · rw [hme] at hm2
          exact absurd hm2 (by simp)
        · exact hvmono2 e.2 e.1 hve
      · have hsef : mget st.1 e.2 e.1 = false := by
          cases hcc : mget st.1 e.2 e.1
          · rfl
          · exact absurd hcc hse
        exact k7 p hp e hadj hin hsef hbg2
    have hvis2closed : ∀ a : ℕ × ℕ, mget r.1 a.2 a.1 = true → ∀ e, adj4 a e →
        inB w h e → mget m e.2 e.1 = false → mget bg e.2 e.1 = false →
        mget r.1 e.2 e.1 = true := by
      intro a ha e hadj hin hm2 hbg2
      rcases k3 a ha with hvm | hpx
      · by_cases hac : (a.1, a.2) = (c.1, c.2)
        · have hacc : a = c := Prod.ext (congrArg Prod.fst hac) (congrArg Prod.snd hac)
          rw [hacc] at hadj
          exact hpxclosure c hcpx e hadj hin hm2 hbg2
        · rw [mget_mset_ne st.2.1 c.2 c.1 true a.2 a.1 hac] at hvm
          exact hvmono2 e.2 e.1 (hclosed a hvm e hadj hin hm2 hbg2)
      · exact hpxclosure a hpx e hadj hin hm2 hbg2
    have hmempx : ∀ a : ℕ × ℕ, mget r.1 a.2 a.1 = true →
        mget st.2.1 a.2 a.1 = true ∨ a ∈ r.2.1 := by
      intro a ha
      rcases k3 a ha with hvm | hpx
      · by_cases hac : (a.1, a.2) = (c.1, c.2)
        · have hacc : a = c := Prod.ext (congrArg Prod.fst hac) (congrArg Prod.snd hac)
          rw [hacc]
          exact Or.inr hcpx
        · rw [mget_mset_ne st.2.1 c.2 c.1 true a.2 a.1 hac] at hvm
          exact Or.inl hvm
      · exact Or.inr hpx
    dsimp only
    by_cases hsmall : r.2.1.length < 20
    · rw [if_pos hsmall]
      have hflipspec := flipFold_spec w h r.2.1 st.1 hsz1 (fun p hp => (k6 p hp).1)
      refine ⟨hflipspec.1, k1, ?_, ?_, ?_, hvis2closed, ?_, ?_⟩
      · intro y x hm2
        exact hflipspec.2.1 y x (hmono y x hm2)
      · intro y x hm2
        rcases hflipspec.2.2.1 y x hm2 with hm3 | hm3
        · rcases hflip y x hm3 with hm4 | hm4
          · exact Or.inl hm4
          · exact Or.inr (hvmono2 y x hm4)
        · exact Or.inr (k6 (x, y) hm3).2.2.2.1
      · exact hvis2sound
      · intro a ha
        rcases hmempx a ha with hvm | hpx
        · rcases hres a hvm with ⟨px, hlen, hapx, htr⟩ | hm3
          · exact Or.inl ⟨px, hlen, hapx,
              fun p hp => hflipspec.2.1 p.2 p.1 (htr p hp)⟩
          · exact Or.inr hm3
        · exact Or.inl ⟨r.2.1, hsmall, hpx,
            fun p hp => hflipspec.2.2.2 p hp⟩
      · intro I hI
        obtain ⟨j1, j2, j3, j4, j5⟩ := hisl I hI
        refine ⟨j1, j2, j3, ?_, j5⟩
        intro p hp
        obtain ⟨i1, i2, i3, i4, i5⟩ := j4 p hp
        refine ⟨i1, i2, i3, ?_, hvmono2 p.2 p.1 i5⟩
        cases hcc : mget (r.2.1.foldl (fun g p => mset g p.2 p.1 true) st.1) p.2 p.1
        · rfl
        · exfalso
          rcases hflipspec.2.2.1 p.2 p.1 hcc with hm3 | hm3
          · rw [i4] at hm3
            exact absurd hm3 (by simp)
          · have hex : mget st.2.1 p.2 p.1 = false := (k6 p hm3).2.2.2.2
            rw [i5] at hex
            exact absurd hex (by simp)
    · rw [if_neg hsmall]
      refine ⟨hsz1, k1, hmono, ?_, hvis2sound, hvis2closed, ?_, ?_⟩
      · intro y x hm2
        rcases hflip y x hm2 with hm3 | hm3
        · exact Or.inl hm3
        · exact Or.inr (hvmono2 y x hm3)
      · intro a ha
        rcases hmempx a ha with hvm | hpx
        · rcases hres a hvm with hm3 | hm3
          · exact Or.inl hm3
          · right
            obtain ⟨I, hI, hIa⟩ := hm3
            exact ⟨I, by simp [hI], hIa⟩
        · right
          exact ⟨⟨r.2.1, r.2.2⟩, by simp, hpx⟩
      · intro I hI
        rcases List.mem_append.1 hI with hIold | hInew
        · obtain ⟨j1, j2, j3, j4, j5⟩ := hisl I hIold
          refine ⟨j1, j2, j3, ?_, j5⟩
          intro p hp
          obtain ⟨i1, i2, i3, i4, i5⟩ := j4 p hp
          exact ⟨i1, i2, i3, i4, hvmono2 p.2 p.1 i5⟩
        · rw [List.mem_singleton.1 hInew]
          have hbdsub : ∀ b ∈ r.2.2, b ∈ r.2.1 := k9
          have hbdne : r.2.2 ≠ [] := by
            have key : ∀ n : ℕ, ∀ p ∈ r.2.1, p.2 = n → r.2.2 ≠ [] := by
              intro n
              induction n using Nat.strong_induction_on with
              | _ n ihn =>
                intro p hp hpn
                by_cases hbad : outOrMask st.1 w h p (0, -1)
                · have hpbd : p ∈ r.2.2 :=
                    k8 p hp ⟨(0, -1), by simp [dirs4], hbad⟩
                  exact List.ne_nil_of_mem hpbd
                · unfold outOrMask at hbad
                  push_neg at hbad
                  dsimp only at hbad
                  obtain ⟨hb1, hb2, hb3, hb4, hb5⟩ := hbad
                  have hp2pos : 1 ≤ p.2 := by omega
                  have hpin := (k6 p hp).1
                  have htgt : ((p.2 : ℤ) + (-1)).toNat = p.2 - 1 := by omega
                  have htgt2 : ((p.1 : ℤ) + 0).toNat = p.1 := by omega
                  rw [htgt, htgt2] at hb5
                  have hsef : mget st.1 (p.2 - 1) p.1 = false := by
                    cases hcc : mget st.1 (p.2 - 1) p.1
                    · rfl
                    · exact absurd hcc hb5
                  have hadjn : adj4 p (p.1, p.2 - 1) := by
                    unfold adj4
                    dsimp only
                    omega
                  have hinn : inB w h (p.1, p.2 - 1) := ⟨hpin.1, by
                    dsimp only
                    obtain ⟨q1, q2⟩ := hpin
                    omega⟩
                  have hbgn : mget bg (p.2 - 1) p.1 = false := by
                    cases hcc : mget bg (p.2 - 1) p.1
                    · rfl
                    · exfalso
                      have := hbgcl (p.1, p.2 - 1) hcc p (adj4_symm hadjn)
                        hpin (hpxorig p hp)
                      rw [(k6 p hp).2.2.1] at this
                      exact absurd this (by simp)
                  have hmarked := k7 p hp (p.1, p.2 - 1) hadjn hinn hsef hbgn
                  rcases k3 (p.1, p.2 - 1) hmarked with hvm | hpx2
                  · by_cases hac : ((p.1, p.2 - 1).1, (p.1, p.2 - 1).2) = (c.1, c.2)
                    · have hacc : (p.1, p.2 - 1) = c :=
                        Prod.ext (congrArg Prod.fst hac) (congrArg Prod.snd hac)
                      refine ihn (p.2 - 1) (by omega) (p.1, p.2 - 1) ?_ rfl
                      rw [hacc]
                      exact hcpx
                    · rw [mget_mset_ne st.2.1 c.2 c.1 true (p.2 - 1) p.1 hac] at hvm
                      exfalso
                      have hvt := hclosed (p.1, p.2 - 1) hvm p (adj4_symm hadjn)
                        hpin (hpxorig p hp) (k6 p hp).2.2.1
                      have hex : mget st.2.1 p.2 p.1 = false := (k6 p hp).2.2.2.2
                      rw [hex] at hvt
                      exact absurd hvt (by simp)
                  · exact ihn (p.2 - 1) (by omega) (p.1, p.2 - 1) hpx2 rfl
            exact key c.2 c hcpx rfl
          refine ⟨by dsimp only; omega, hbdne, hbdsub, ?_, ?_⟩
          · intro p hp
            exact ⟨(k6 p hp).1, hpxorig p hp, (k6 p hp).2.2.1, (k6 p hp).2.1,
              (k6 p hp).2.2.2.1⟩
          · refine ⟨c, hcpx, ?_⟩
            intro p hp
            refine Relation.ReflTransGen.mono ?_ (k10 p hp)
            intro a2 b2 hab
            obtain ⟨j1, j2, j3, j4, j5, j6⟩ := hab
            refine ⟨j1, j2, ?_, j4, ?_⟩
            · cases hcc : mget m b2.2 b2.1
              · rfl
              · rw [hmono b2.2 b2.1 hcc] at j3
                exact absurd j3 (by simp)
            · rcases hmempx b2 j6 with hvm | hpx2
              · have j5b : mget st.2.1 b2.2 b2.1 = false := j5
                rw [j5b] at hvm
                exact absurd hvm (by simp)
              · exact hpx2

/-- After its own scan step, a non-mainland background cell is resolved:
flipped to foreground together with a sub-20-pixel group (the noise
floor), or recorded in some island. -/
theorem islandScanStep_resolved (m bg : MaskGrid) (w h : ℕ)
    (st : MaskGrid × MaskGrid × List IslandRec) (c : ℕ × ℕ) (hcin : inB w h c)
    (hinv : scanInv m bg w h st)
    (hcm : mget m c.2 c.1 = false) (hcbg : mget bg c.2 c.1 = false) :
    (∃ px : List (ℕ × ℕ), px.length < 20 ∧ c ∈ px ∧
      ∀ p ∈ px, mget (islandScanStep bg w h st c).1 p.2 p.1 = true) ∨
    ∃ I ∈ (islandScanStep bg w h st c).2.2, c ∈ I.pixels := by
  obtain ⟨hsz1, hsz2, hmono, hflip, hsound, hclosed, hres, hisl⟩ := hinv
  unfold islandScanStep
  by_cases hg : mget st.1 c.2 c.1 = true ∨ mget bg c.2 c.1 = true ∨
      mget st.2.1 c.2 c.1 = true
  · rw [if_pos hg]
    rcases hg with hg1 | hg1 | hg1
    · have hv : mget st.2.1 c.2 c.1 = true := by
        rcases hflip c.2 c.1 hg1 with hm2 | hm2
        · rw [hcm] at hm2
          exact absurd hm2 (by simp)
        · exact hm2
      exact hres c hv
    · rw [hg1] at hcbg
      exact absurd hcbg (by simp)
    · exact hres c hg1
  · rw [if_neg hg]
    push_neg at hg
    obtain ⟨hgm, hgbg, hgv⟩ := hg
    have hgmf : mget st.1 c.2 c.1 = false := by
      cases hcc : mget st.1 c.2 c.1
      · rfl
      · exact absurd hcc hgm
    have hgvf : mget st.2.1 c.2 c.1 = false := by
      cases hcc : mget st.2.1 c.2 c.1
      · rfl
      · exact absurd hcc hgv
    have hszvm : gridSized (mset st.2.1 c.2 c.1 true) w h :=
      sized_mset _ _ _ _ _ _ hsz2
    have hvmself : mget (mset st.2.1 c.2 c.1 true) c.2 c.1 = true :=
      mget_mset_self st.2.1 w h c.2 c.1 true hsz2 hcin.1 hcin.2
    have hK := islandBfs_master st.1 bg w h
      (fun a => mget st.2.1 a.2 a.1 = false) c (w * h) [c]
      (mset st.2.1 c.2 c.1 true) [] [] hszvm
      (by
        intro a ha
        rw [List.mem_singleton.1 ha]
        exact ⟨hcin, hgmf, hcbg, hvmself, hgvf⟩)
      (by
        intro e _ _ _ hf
        cases hv : mget st.2.1 e.2 e.1
        · rfl
        · rw [mset_true_mono st.2.1 c.2 c.1 e.2 e.1 hv] at hf
          exact absurd hf (by simp))
      (by
        have := unmarkedCount_lt w h (mset st.2.1 c.2 c.1 true) c.1 c.2
          hcin.1 hcin.2 hvmself
        simp only [List.length_singleton]
        omega)
      (by
        intro a ha
        by_cases hac : (a.1, a.2) = (c.1, c.2)
        · left
          have h1 := congrArg Prod.fst hac
          have h2 := congrArg Prod.snd hac
          dsimp only at h1 h2
          simp [Prod.ext h1 h2]
        · have hav : mget st.2.1 a.2 a.1 = true := by
            rw [mget_mset_ne st.2.1 c.2 c.1 true a.2 a.1 hac] at ha
            exact ha
          right
          intro e hadj hin hm2 hbg2
          have hmorig : mget m e.2 e.1 = false := by
            cases hcc : mget m e.2 e.1
            · rfl
            · rw [hmono e.2 e.1 hcc] at hm2
              exact absurd hm2 (by simp)
          exact mset_true_mono st.2.1 c.2 c.1 e.2 e.1
            (hclosed a hav e hadj hin hmorig hbg2))
      (fun p hp => absurd hp (by simp))
      (fun p hp => absurd hp (by simp))
      (fun p hp => absurd hp (by simp))
      (fun b hb => absurd hb (by simp))
      (by
        intro a ha
        rw [List.mem_singleton.1 ha])
      (fun p hp => absurd hp (by simp))
    obtain ⟨k1, k2, k3, k4, k5, k6, k7, k8, k9, k10⟩ := hK
    set r := islandBfs st.1 bg w h (w * h) [c] (mset st.2.1 c.2 c.1 true) [] []
      with hrdef
    have hcpx : c ∈ r.2.1 := k4 c (by simp)
    dsimp only
    by_cases hsmall : r.2.1.length < 20
    · rw [if_pos hsmall]
      left
      have hflipspec := flipFold_spec w h r.2.1 st.1 hsz1 (fun p hp => (k6 p hp).1)
      exact ⟨r.2.1, hsmall, hcpx, fun p hp => hflipspec.2.2.2 p hp⟩
    · rw [if_neg hsmall]
      right
      exact ⟨⟨r.2.1, r.2.2⟩, by simp, hcpx⟩

/-- The scan invariant holds of the full island scan fold. -/
theorem islandScanFold_inv (m bg : MaskGrid) (w h : ℕ)
    (hszm : gridSized m w h)
    (hbgcl : ∀ a : ℕ × ℕ, mget bg a.2 a.1 = true → ∀ e, adj4 a e → inB w h e →
      mget m e.2 e.1 = false → mget bg e.2 e.1 = true) :
    ∀ (l : List (ℕ × ℕ)), (∀ a ∈ l, inB w h a) →
    ∀ (st : MaskGrid × MaskGrid × List IslandRec), scanInv m bg w h st →
    scanInv m bg w h (l.foldl (islandScanStep bg w h) st) := by
  intro l hlin st hst
  refine foldl_invariant (scanInv m bg w h) (islandScanStep bg w h) l st hst ?_
  intro st2 a ha hst2
  exact islandScanStep_inv m bg w h hbgcl st2 a (hlin a ha) hst2

/-- The initial scan state satisfies the invariant. -/
theorem scanInv_init (m bg : MaskGrid) (w h : ℕ) (hszm : gridSized m w h) :
    scanInv m bg w h (m, fillGrid w h false, []) := by
  refine ⟨hszm, sized_fillGrid w h false, fun y x hm => hm, ?_, ?_, ?_, ?_, ?_⟩
  · intro y x hm
    exact Or.inl hm
  · intro y x hm
    rw [mget_fillGrid] at hm
    split at hm <;> simp at hm
  · intro a ha
    rw [mget_fillGrid] at ha
    split at ha <;> simp at ha
  · intro a ha
    rw [mget_fillGrid] at ha
    split at ha <;> simp at ha
  · intro I hI
    exact absurd hI (by simp)

/-- Every in-bounds non-mainland background cell ends the scan flipped to
foreground as part of a sub-20-pixel group (all flipped with it), or
recorded in some island (the resolution property). -/
theorem islandScan_resolution (m bg : MaskGrid) (w h : ℕ)
    (hszm : gridSized m w h)
    (hbgcl : ∀ a : ℕ × ℕ, mget bg a.2 a.1 = true → ∀ e, adj4 a e → inB w h e →
      mget m e.2 e.1 = false → mget bg e.2 e.1 = true)
    (c : ℕ × ℕ) (hcin : inB w h c) (hcm : mget m c.2 c.1 = false)
    (hcbg : mget bg c.2 c.1 = false) :
    (∃ px : List (ℕ × ℕ), px.length < 20 ∧ c ∈ px ∧
      ∀ p ∈ px, mget (islandScan m bg w h).1 p.2 p.1 = true) ∨
    ∃ I ∈ (islandScan m bg w h).2, c ∈ I.pixels := by
  have hmem : c ∈ cellsRowMajor w h := (mem_cellsRowMajor w h c).2 ⟨hcin.1, hcin.2⟩
  rcases List.append_of_mem hmem with ⟨l1, l2, hsplit⟩
  have hl1in : ∀ a ∈ l1, inB w h a := by
    intro a ha
    have : a ∈ cellsRowMajor w h := by
      rw [hsplit]
      exact List.mem_append_left _ ha
    have h2 := (mem_cellsRowMajor w h a).1 this
    exact ⟨h2.1, h2.2⟩
  have hl2in : ∀ a ∈ l2, inB w h a := by
    intro a ha
    have : a ∈ cellsRowMajor w h := by
      rw [hsplit]
      refine List.mem_append_right _ ?_
      simp [ha]
    have h2 := (mem_cellsRowMajor w h a).1 this
    exact ⟨h2.1, h2.2⟩
  have hst1 := islandScanFold_inv m bg w h hszm hbgcl l1 hl1in
    (m, fillGrid w h false, []) (scanInv_init m bg w h hszm)
  set st1 := l1.foldl (islandScanStep bg w h) (m, fillGrid w h false, []) with hst1def
  have hres2 := islandScanStep_resolved m bg w h st1 c hcin hst1 hcm hcbg
  have hkeep : ∀ (l : List (ℕ × ℕ)) (st : MaskGrid × MaskGrid × List IslandRec),
      ((∃ px : List (ℕ × ℕ), px.length < 20 ∧ c ∈ px ∧
        ∀ p ∈ px, mget st.1 p.2 p.1 = true) ∨ ∃ I ∈ st.2.2, c ∈ I.pixels) →
      ((∃ px : List (ℕ × ℕ), px.length < 20 ∧ c ∈ px ∧
        ∀ p ∈ px, mget (l.foldl (islandScanStep bg w h) st).1 p.2 p.1 = true) ∨
        ∃ I ∈ (l.foldl (islandScanStep bg w h) st).2.2, c ∈ I.pixels) := by
    intro l
    induction l with
    | nil => intro st hst; exact hst
    | cons a t ih =>
      intro st hst
      rw [List.foldl_cons]
      refine ih _ ?_
      have hmono := islandScanStep_mono bg w h st a
      rcases hst with ⟨px, hlen, hcpx2, htr⟩ | ⟨I, hI, hIc⟩
      · exact Or.inl ⟨px, hlen, hcpx2, fun p hp => hmono.1 p.2 p.1 (htr p hp)⟩
      · exact Or.inr ⟨I, hmono.2 I hI, hIc⟩
  have hfinal := hkeep l2 (islandScanStep bg w h st1 c) hres2
  have hfold : islandScan m bg w h
      = ((cellsRowMajor w h).foldl (islandScanStep bg w h)
          (m, fillGrid w h false, []) |>.1,
        ((cellsRowMajor w h).foldl (islandScanStep bg w h)
          (m, fillGrid w h false, [])).2.2) := rfl
  rw [hfold]
  rw [hsplit, List.foldl_append, List.foldl_cons]
  exact hfinal

/-- The scan invariant transferred to `islandScan` itself. -/
theorem islandScan_inv (m bg : MaskGrid) (w h : ℕ)
    (hszm : gridSized m w h)
    (hbgcl : ∀ a : ℕ × ℕ, mget bg a.2 a.1 = true → ∀ e, adj4 a e → inB w h e →
      mget m e.2 e.1 = false → mget bg e.2 e.1 = true) :
    gridSized (islandScan m bg w h).1 w h ∧
    (∀ y x, mget m y x = true → mget (islandScan m bg w h).1 y x = true) ∧
    (∀ y x, mget (islandScan m bg w h).1 y x = true →
      mget m y x = true ∨ (inB w h (x, y) ∧ mget m y x = false ∧
        mget bg y x = false)) ∧
    (∀ I ∈ (islandScan m bg w h).2, 20 ≤ I.pixels.length ∧ I.boundary ≠ [] ∧
      (∀ b ∈ I.boundary, b ∈ I.pixels) ∧
      (∀ p ∈ I.pixels, inB w h p ∧ mget m p.2 p.1 = false ∧
        mget bg p.2 p.1 = false ∧ mget (islandScan m bg w h).1 p.2 p.1 = false) ∧
      (∃ s ∈ I.pixels, ∀ p ∈ I.pixels,
        Relation.ReflTransGen (fun a2 b2 => adj4 a2 b2 ∧ inB w h b2 ∧
          mget m b2.2 b2.1 = false ∧ mget bg b2.2 b2.1 = false ∧
          b2 ∈ I.pixels) s p)) := by
  have hst := islandScanFold_inv m bg w h hszm hbgcl (cellsRowMajor w h)
    (fun a ha => by
      have h2 := (mem_cellsRowMajor w h a).1 ha
      exact ⟨h2.1, h2.2⟩)
    (m, fillGrid w h false, []) (scanInv_init m bg w h hszm)
  obtain ⟨hsz1, hsz2, hmono, hflip, hsound, hclosed, hres, hisl⟩ := hst
  have hfold : islandScan m bg w h
      = ((cellsRowMajor w h).foldl (islandScanStep bg w h)
          (m, fillGrid w h false, []) |>.1,
        ((cellsRowMajor w h).foldl (islandScanStep bg w h)
          (m, fillGrid w h false, [])).2.2) := rfl
  rw [hfold]
  refine ⟨hsz1, hmono, ?_, ?_⟩
  · intro y x hm
    rcases hflip y x hm with hm2 | hm2
    · exact Or.inl hm2
    · exact Or.inr (hsound y x hm2)
  · intro I hI
    obtain ⟨j1, j2, j3, j4, j5⟩ := hisl I hI
    refine ⟨j1, j2, j3, ?_, j5⟩
    intro p hp
    obtain ⟨i1, i2, i3, i4, _⟩ := j4 p hp
    exact ⟨i1, i2, i3, i4⟩

/-- The mainland grid is closed under background adjacency. -/
theorem bgGrid_closed (m : MaskGrid) (w h : ℕ) (hw : 0 < w) (hh : 0 < h) :
    ∀ a : ℕ × ℕ, mget (bgConnectedGrid m w h) a.2 a.1 = true →
      ∀ e, adj4 a e → inB w h e → mget m e.2 e.1 = false →
        mget (bgConnectedGrid m w h) e.2 e.1 = true := by
  have hspec := bgConnectedGrid_spec m w h hw hh
  intro a ha e hadj hin hbg
  have hsa := hspec.2.1 a.2 a.1 (by
    obtain ⟨a1, a2⟩ := a
    exact ha)
  refine hspec.2.2 e ?_
  refine bgReach_tail hsa.2.2 ?_
  exact ⟨by
    obtain ⟨a1, a2⟩ := a
    exact hadj, hsa.1, hin, hsa.2.1, hbg⟩

/-- If a mask is background at every mainland cell, background
reachability from the border transfers from the original mask to it. -/
theorem bgReach_lift (m res : MaskGrid) (w h : ℕ) (hw : 0 < w) (hh : 0 < h)
    (hres0 : ∀ a : ℕ × ℕ, mget (bgConnectedGrid m w h) a.2 a.1 = true →
      mget res a.2 a.1 = false) :
    ∀ z : ℕ × ℕ, bgReach m w h z → bgReach res w h z := by
  have hspec := bgConnectedGrid_spec m w h hw hh
  intro z hz
  obtain ⟨b, hbord, hbin, hbbg, hpath⟩ := hz
  have hstrong : ∀ e : ℕ × ℕ, Relation.ReflTransGen (bgStep m w h) b e →
      bgReach res w h e ∧ bgReach m w h e := by
    intro e hp
    induction hp with
    | refl =>
      have hbm : bgReach m w h b := ⟨b, hbord, hbin, hbbg, Relation.ReflTransGen.refl⟩
      exact ⟨⟨b, hbord, hbin, hres0 b (hspec.2.2 b hbm), Relation.ReflTransGen.refl⟩,
        hbm⟩
    | tail hp hstep ih =>
      rename_i mid e2
      obtain ⟨hres1, hm1⟩ := ih
      have hm2 : bgReach m w h e2 := bgReach_tail hm1 hstep
      have hf1 : mget res mid.2 mid.1 = false := (bgReach_bgAt hres1).2
      have hf2 : mget res e2.2 e2.1 = false := hres0 e2 (hspec.2.2 e2 hm2)
      exact ⟨bgReach_tail hres1 ⟨hstep.1, hstep.2.1, hstep.2.2.1, hf1, hf2⟩, hm2⟩
  exact (hstrong z hpath).1

/-- Extending reachability along a path of background cells. -/
theorem bgReach_of_falsePath (res : MaskGrid) (w h : ℕ) (z : ℕ × ℕ)
    (hz : bgReach res w h z) :
    ∀ c : ℕ × ℕ, Relation.ReflTransGen (fun a b2 => adj4 a b2 ∧ inB w h b2 ∧
      mget res b2.2 b2.1 = false) z c → bgReach res w h c := by
  intro c hp
  induction hp with
  | refl => exact hz
  | tail hp hstep ih =>
    rename_i mid e2
    have hat := bgReach_bgAt ih
    exact bgReach_tail ih ⟨hstep.1, hat.1, hstep.2.1, hat.2, hstep.2.2⟩

/-- C1: for every sized grid processed by `postProcessMask` with stencil
mode enabled and at least one bridge available (positive bridge width),
when the border background (mainland) is nonempty (which makes every
distance-to-mainland finite): (a) every island the scan records for
repair is at or above the 20-pixel noise-area floor and is reconnected —
each of its cells stays background in the result and ends reachable from
the grid border through background cells of the result; (b) every
originally-isolated background cell (background, in bounds, not
reachable from the grid border through background) either belongs to
such a recorded island (staying background and reconnected), or is
discarded by the noise floor: it is flipped to foreground together with
a group of fewer than 20 pixels, and in the final mask it is foreground
unless a later carved bridge re-opened it, in which case it is again
border-reachable. -/
theorem C1_stencil_repair (m : MaskGrid) (w h : ℕ) (settings : StencilSettings)
    (hsz : gridSized m w h)
    (hsm : settings.stencilMode = true)
    (hbw : 1 ≤ settings.bridgeWidth)
    (hmain : ∃ b : ℕ × ℕ, onBorder w h b ∧ inB w h b ∧ mget m b.2 b.1 = false) :
    (∀ I ∈ (islandScan m (bgConnectedGrid m w h) w h).2,
      20 ≤ I.pixels.length ∧ ∀ p ∈ I.pixels,
        mget (postProcessMask m w h settings) p.2 p.1 = false ∧
        bgReach (postProcessMask m w h settings) w h p) ∧
    (∀ c : ℕ × ℕ, inB w h c → mget m c.2 c.1 = false → ¬ bgReach m w h c →
      (∃ I ∈ (islandScan m (bgConnectedGrid m w h) w h).2, c ∈ I.pixels ∧
        mget (postProcessMask m w h settings) c.2 c.1 = false ∧
        bgReach (postProcessMask m w h settings) w h c) ∨
      (∃ px : List (ℕ × ℕ), px.length < 20 ∧ c ∈ px ∧
        (∀ p ∈ px,
          mget (islandScan m (bgConnectedGrid m w h) w h).1 p.2 p.1 = true) ∧
        (mget (postProcessMask m w h settings) c.2 c.1 = true ∨
          bgReach (postProcessMask m w h settings) w h c))) := by
  obtain ⟨b0, hbord0, hbin0, hbbg0⟩ := hmain
  have hw : 0 < w := by
    obtain ⟨hb1, hb2⟩ := hbin0
    omega
  have hh : 0 < h := by
    obtain ⟨hb1, hb2⟩ := hbin0
    omega
  have hbgspec := bgConnectedGrid_spec m w h hw hh
  set bg := bgConnectedGrid m w h with hbgdef
  have hbgcl := bgGrid_closed m w h hw hh
  have hbgcl2 : ∀ a : ℕ × ℕ, mget bg a.2 a.1 = true → ∀ e, adj4 a e →
      inB w h e → mget m e.2 e.1 = false → mget bg e.2 e.1 = true := hbgcl
  have hb0reach : bgReach m w h b0 :=
    ⟨b0, hbord0, hbin0, hbbg0, Relation.ReflTransGen.refl⟩
  have hb0marked : mget bg b0.2 b0.1 = true := hbgspec.2.2 b0 hb0reach
  set r := islandScan m bg w h with hrdef
  have hscan := islandScan_inv m bg w h hsz hbgcl2
  have hpp0 : postProcessMask m w h settings
      = if r.2.length = 0 ∨ settings.bridgeWidth ≤ 0 then r.1
        else r.2.foldl (bridgeIsland (distField bg w h) w h settings.bridgeWidth
          settings.bridgeCount) r.1 := by
    unfold postProcessMask
    rw [hsm]
    rw [if_neg (by simp)]
  by_cases hguard : r.2.length = 0 ∨ settings.bridgeWidth ≤ 0
  · have hemp : r.2 = [] := by
      rcases hguard with hg1 | hg1
      · exact List.length_eq_zero.1 hg1
      · omega
    rw [hpp0, if_pos hguard]
    constructor
    · intro I hI
      rw [hemp] at hI
      exact absurd hI (by simp)
    · intro c hcin hcm hciso
      have hcbg : mget bg c.2 c.1 = false := by
        cases hcc : mget bg c.2 c.1
        · rfl
        · exact absurd (hbgspec.2.1 c.2 c.1 hcc).2.2 hciso
      have hresn := islandScan_resolution m bg w h hsz hbgcl2 c hcin hcm hcbg
      rcases hresn with ⟨px, hlen, hcpx, htr⟩ | ⟨I, hI, _⟩
      · exact Or.inr ⟨px, hlen, hcpx, htr, Or.inl (htr c hcpx)⟩
      · rw [hemp] at hI
        exact absurd hI (by simp)
  · rw [hpp0, if_neg hguard]
    have hdspec := distField_spec bg w h
    have hcov := distField_coverage bg w h b0 hbin0 hb0marked
    set dist := distField bg w h with hdistdef
    have hge : ∀ a : ℕ × ℕ, inB w h a → lget dist a.2 a.1 ≠ -1 →
        0 ≤ lget dist a.2 a.1 :=
      fun a hain hasg => (hdspec.2.2.1 a hain hasg).1
    have hdec : ∀ a : ℕ × ℕ, inB w h a → 1 ≤ lget dist a.2 a.1 →
        ∃ e, adj4 a e ∧ inB w h e ∧ 0 ≤ lget dist e.2 e.1 ∧
          lget dist e.2 e.1 < lget dist a.2 a.1 :=
      fun a hain hpos => (hdspec.2.2.1 a hain (by omega)).2.2 hpos
    have hprops : ∀ isl ∈ r.2, isl.boundary ≠ [] ∧
        ∀ p ∈ isl.boundary, inB w h p ∧ 0 ≤ lget dist p.2 p.1 := by
      intro isl hisl
      obtain ⟨j1, j2, j3, j4, j5⟩ := hscan.2.2.2 isl hisl
      refine ⟨j2, ?_⟩
      intro p hp
      have hpin := (j4 p (j3 p hp)).1
      exact ⟨hpin, hge p hpin (hcov p hpin)⟩
    have hbfold := bridgeIslandsFold_spec dist w h settings.bridgeWidth
      settings.bridgeCount hbw hge hdec r.2 hprops r.1 hscan.1
    set final := r.2.foldl (bridgeIsland dist w h settings.bridgeWidth
      settings.bridgeCount) r.1 with hfinaldef
    have hmainfalse : ∀ a : ℕ × ℕ, mget bg a.2 a.1 = true →
        mget final a.2 a.1 = false := by
      intro a ha
      have hsa := hbgspec.2.1 a.2 a.1 ha
      have hr1 : mget r.1 a.2 a.1 = false := by
        cases hcc : mget r.1 a.2 a.1
        · rfl
        · exfalso
          rcases hscan.2.2.1 a.2 a.1 hcc with hm2 | hm2
          · rw [hsa.2.1] at hm2
            exact absurd hm2 (by simp)
          · rw [ha] at hm2
            exact absurd hm2.2.2 (by simp)
      exact hbfold.2.2.1 a.2 a.1 hr1
    have hlift : ∀ z : ℕ × ℕ, bgReach m w h z → bgReach final w h z :=
      bgReach_lift m final w h hw hh hmainfalse
    have hzreach : ∀ z : ℕ × ℕ, inB w h z → lget dist z.2 z.1 = 0 →
        bgReach final w h z := by
      intro z hzin hz0
      have hzbg : mget bg z.2 z.1 = true :=
        (hdspec.2.2.1 z hzin (by omega)).2.1 hz0
      exact hlift z (hbgspec.2.1 z.2 z.1 hzbg).2.2
    have hkept : ∀ I ∈ r.2, ∀ p ∈ I.pixels,
        mget final p.2 p.1 = false ∧ bgReach final w h p := by
      intro I hI p hp
      obtain ⟨bb, hbbm, z, hzin, hz0, hzpath⟩ := hbfold.2.2.2.1 I hI
      have hreachbb : bgReach final w h bb :=
        bgReach_of_falsePath final w h z (hzreach z hzin hz0) bb hzpath
      obtain ⟨j1, j2, j3, j4, s, hs, hconn⟩ := hscan.2.2.2 I hI
      have hpxfalse : ∀ q ∈ I.pixels, mget final q.2 q.1 = false :=
        fun q hq => hbfold.2.2.1 q.2 q.1 (j4 q hq).2.2.2
      have hpix2bg : ∀ q : ℕ × ℕ,
          Relation.ReflTransGen (fun a2 b2 => adj4 a2 b2 ∧ inB w h b2 ∧
            mget m b2.2 b2.1 = false ∧ mget bg b2.2 b2.1 = false ∧
            b2 ∈ I.pixels) s q →
          Relation.ReflTransGen (bgStep final w h) s q ∧ q ∈ I.pixels ∧
            inB w h q := by
        intro q hq
        induction hq with
        | refl => exact ⟨Relation.ReflTransGen.refl, hs, (j4 s hs).1⟩
        | tail hq hstep ih =>
          rename_i mid e2
          obtain ⟨hpath2, hmidmem, hmidin⟩ := ih
          obtain ⟨s1, s2, s3, s4, s5⟩ := hstep
          exact ⟨hpath2.tail ⟨s1, hmidin, s2, hpxfalse mid hmidmem,
            hpxfalse e2 s5⟩, s5, s2⟩
      have hpathsbb := (hpix2bg bb (hconn bb (j3 bb hbbm))).1
      have hpathsp := (hpix2bg p (hconn p hp)).1
      have hbbs := rtg_bgStep_symm final w h hpathsbb
      exact ⟨hpxfalse p hp,
        bgReach_trans (bgReach_trans hreachbb hbbs) hpathsp⟩
    constructor
    · intro I hI
      exact ⟨(hscan.2.2.2 I hI).1, fun p hp => hkept I hI p hp⟩
    · intro c hcin hcm hciso
      have hcbg : mget bg c.2 c.1 = false := by
        cases hcc : mget bg c.2 c.1
        · rfl
        · exact absurd (hbgspec.2.1 c.2 c.1 hcc).2.2 hciso
      have hresn := islandScan_resolution m bg w h hsz hbgcl2 c hcin hcm hcbg
      rcases hresn with ⟨px, hlen, hcpx, htr⟩ | ⟨I, hI, hcI⟩
      · refine Or.inr ⟨px, hlen, hcpx, htr, ?_⟩
        by_cases hfc : mget final c.2 c.1 = true
        · exact Or.inl hfc
        · right
          have hfcf : mget final c.2 c.1 = false := by
            cases hcc : mget final c.2 c.1
            · rfl
            · exact absurd hcc hfc
          obtain ⟨z, hzin, hz0, hzpath⟩ := hbfold.2.2.2.2 c hfcf (htr c hcpx)
          exact bgReach_of_falsePath final w h z (hzreach z hzin hz0) c hzpath
      · exact Or.inl ⟨I, hI, hcI, (hkept I hI c hcI).1, (hkept I hI c hcI).2⟩

theorem C1_stencil_repair_witness :
    (gridSized isolatedMask4 4 4 ∧
      (⟨true, 1, 1⟩ : StencilSettings).stencilMode = true ∧
      1 ≤ (⟨true, 1, 1⟩ : StencilSettings).bridgeWidth ∧
      (onBorder 4 4 (0, 0) ∧ inB 4 4 (0, 0) ∧ mget isolatedMask4 0 0 = false) ∧
      (inB 4 4 (2, 1) ∧ mget isolatedMask4 1 2 = false ∧
        ¬ bgReach isolatedMask4 4 4 (2, 1))) ∧
    ((∃ I ∈ (islandScan isolatedMask4 (bgConnectedGrid isolatedMask4 4 4) 4 4).2,
        (2, 1) ∈ I.pixels ∧
        mget (postProcessMask isolatedMask4 4 4 ⟨true, 1, 1⟩) 1 2 = false ∧
        bgReach (postProcessMask isolatedMask4 4 4 ⟨true, 1, 1⟩) 4 4 (2, 1)) ∨
      (∃ px : List (ℕ × ℕ), px.length < 20 ∧ (2, 1) ∈ px ∧
        (∀ p ∈ px, mget (islandScan isolatedMask4
          (bgConnectedGrid isolatedMask4 4 4) 4 4).1 p.2 p.1 = true) ∧
        (mget (postProcessMask isolatedMask4 4 4 ⟨true, 1, 1⟩) 1 2 = true ∨
          bgReach (postProcessMask isolatedMask4 4 4 ⟨true, 1, 1⟩) 4 4 (2, 1)))) :=
  have hiso : ¬ bgReach isolatedMask4 4 4 (2, 1) := fun hr =>
    absurd ((bgConnectedGrid_spec isolatedMask4 4 4 (by decide) (by decide)).2.2
      (2, 1) hr) (by decide)
  ⟨⟨by unfold gridSized; decide, rfl, by decide,
      ⟨by unfold onBorder; decide, by unfold inB; decide, by decide⟩,
      ⟨by unfold inB; decide, by decide, hiso⟩⟩,
    (C1_stencil_repair isolatedMask4 4 4 ⟨true, 1, 1⟩
      (by unfold gridSized; decide) rfl (by decide)
      ⟨(0, 0), by unfold onBorder; decide, by unfold inB; decide, by decide⟩).2
      (2, 1) (by unfold inB; decide) (by decide) hiso⟩

end TwoSvg
